import Mathlib

/-!
# Ergolas: tokenizer, parser and evaluator

A shallow embedding of the Go package `ergolas` (`tokenizer.go`, `parser.go`,
`lang.go`, `eval.go`) together with theorems about it.

Conventions of the embedding.

* Go strings are Lean `String`s (valid UTF-8 only); `len(s)` is `String.utf8ByteSize`.
* A Go `(value, error)` pair becomes a result type with one constructor per
  outcome; a run-time panic (index out of range, failed type assertion, integer
  division by zero) is an outcome of its own, because the callers that test
  `err == nil` do not intercept it.
* Recursive-descent functions take a `fuel` argument that bounds the depth of the
  call chain; running out of fuel is a separate outcome, never a parse error.
* `int64` values are integers, wrapped by `wrapInt64` after each arithmetic
  operation; `float64` values are symbolic terms (`F64`).
-/

namespace Ergolas

/-! ## Tokenizer (`tokenizer.go`) -/

/-- The token classes declared in `tokenizer.go`. -/
inductive TokenType where
  | Float | Integer | String | Quote | Unquote | LOperator | ROperator
  | Punctuation | Identifier | Comment | Whitespace | Newline
  deriving DecidableEq, Repr

/-- Go `Token`; the field `Type` is spelled `Typ` (`Type` is reserved). -/
structure Token where
  Typ : TokenType
  Value : String
  Location : Nat := 0
  deriving DecidableEq, Repr

/-- Go `TokenizeError` without the source pointer. -/
structure TokenizeError where
  Location : Nat
  Message : String
  deriving DecidableEq, Repr

/-- Outcome of `Tokenize`. -/
inductive TokenizeResult where
  | ok (tokens : List Token)
  | error (e : TokenizeError)
  | outOfFuel
  deriving DecidableEq, Repr

/-- Character class `[\+\-\*\/\%\=\<\>\!\&\|\^]`. -/
def isOperatorChar (c : Char) : Bool :=
  c == '+' || c == '-' || c == '*' || c == '/' || c == '%' || c == '=' ||
  c == '<' || c == '>' || c == '!' || c == '&' || c == '|' || c == '^'

/-- Character class `[\.\,\;\(\)\[\]\{\}]`. -/
def isPunctuationChar (c : Char) : Bool :=
  c == '.' || c == ',' || c == ';' || c == '(' || c == ')' ||
  c == '[' || c == ']' || c == '\x7b' || c == '\x7d'

/-- Character class `[a-zA-Z\-\_\$]`. -/
def isIdentStart (c : Char) : Bool :=
  c.isAlpha || c == '-' || c == '_' || c == '$'

/-- Character class `[a-zA-Z0-9\-\_\$]`. -/
def isIdentChar (c : Char) : Bool :=
  c.isAlphanum || c == '-' || c == '_' || c == '$'

/-- Character class `\s` of Go regular expressions: `[\t\n\f\r ]`. -/
def isRegexSpace (c : Char) : Bool :=
  c == '\t' || c == '\n' || c == Char.ofNat 12 || c == '\r' || c == ' '

/-- Character class `[ \t]`. -/
def isBlank (c : Char) : Bool :=
  c == ' ' || c == '\t'

/-- The text matched by `^[0-9]+\.[0-9]+`, or the empty text when there is no match
(what `FindString` returns). -/
def matchFloat (cs : List Char) : List Char :=
  match cs.takeWhile Char.isDigit, cs.dropWhile Char.isDigit with
  | [], _ => []
  | i, '.' :: rest =>
    match rest.takeWhile Char.isDigit with
    | [] => []
    | f => i ++ '.' :: f
  | _, _ => []

/-- The text matched by `^[0-9]+`. -/
def matchInteger (cs : List Char) : List Char :=
  cs.takeWhile Char.isDigit

/-- The body of the string pattern, after the opening quote: the length matched by
`(\\.|[^"])*"`, with the leftmost-first preference of Go regular expressions (try
`\\.`, then `[^"]`, then leave the loop), `none` when nothing matches. -/
def matchStringBody : List Char → Option Nat
  | [] => none
  | c :: rest =>
    let viaEscape : Option Nat :=
      if c == '\\' then
        match rest with
        | d :: rest2 => if d != '\n' then (matchStringBody rest2).map (· + 2) else none
        | [] => none
      else none
    match viaEscape with
    | some n => some n
    | none =>
      if c != '"' then (matchStringBody rest).map (· + 1)
      else some 1

/-- The text matched by `^"(\\.|[^"])*"`. -/
def matchString (cs : List Char) : List Char :=
  match cs with
  | '"' :: rest =>
    match matchStringBody rest with
    | some n => cs.take (n + 1)
    | none => []
  | _ => []

/-- The text matched by `^(\:\=|\:\:)`. -/
def matchROperator (cs : List Char) : List Char :=
  match cs with
  | ':' :: '=' :: _ => [':', '=']
  | ':' :: ':' :: _ => [':', ':']
  | _ => []

/-- The text matched by `^:`. -/
def matchQuote (cs : List Char) : List Char :=
  match cs with
  | ':' :: _ => [':']
  | _ => []

/-- The text matched by `^\$`. -/
def matchUnquote (cs : List Char) : List Char :=
  match cs with
  | '$' :: _ => ['$']
  | _ => []

/-- The text matched by `^[\+\-\*\/\%\=\<\>\!\&\|\^]+`. -/
def matchLOperator (cs : List Char) : List Char :=
  cs.takeWhile isOperatorChar

/-- The text matched by `^[\.\,\;\(\)\[\]\{\}]`. -/
def matchPunctuation (cs : List Char) : List Char :=
  match cs with
  | c :: _ => if isPunctuationChar c then [c] else []
  | [] => []

/-- The text matched by `^[a-zA-Z\-\_\$][a-zA-Z0-9\-\_\$]*`. -/
def matchIdentifier (cs : List Char) : List Char :=
  match cs with
  | c :: rest => if isIdentStart c then c :: rest.takeWhile isIdentChar else []
  | [] => []

/-- The text matched by `^\n\s*`. -/
def matchNewline (cs : List Char) : List Char :=
  match cs with
  | '\n' :: rest => '\n' :: rest.takeWhile isRegexSpace
  | _ => []

/-- The text matched by `^#.*` (the dot does not match a newline). -/
def matchComment (cs : List Char) : List Char :=
  match cs with
  | '#' :: rest => '#' :: rest.takeWhile (· != '\n')
  | _ => []

/-- The text matched by `^[ \t]+`. -/
def matchWhitespace (cs : List Char) : List Char :=
  cs.takeWhile isBlank

/-- Go `rule`: `Regex` is the function `FindString` of the compiled pattern. -/
structure rule where
  Typ : TokenType
  Regex : List Char → List Char
  Ignore : Bool := false

/-- The rule table, in the order of the source. -/
def rules : List rule :=
  [ { Typ := .Float, Regex := matchFloat },
    { Typ := .Integer, Regex := matchInteger },
    { Typ := .String, Regex := matchString },
    { Typ := .ROperator, Regex := matchROperator },
    { Typ := .Quote, Regex := matchQuote },
    { Typ := .Unquote, Regex := matchUnquote },
    { Typ := .LOperator, Regex := matchLOperator },
    { Typ := .Punctuation, Regex := matchPunctuation },
    { Typ := .Identifier, Regex := matchIdentifier },
    { Typ := .Newline, Regex := matchNewline },
    { Typ := .Comment, Regex := matchComment, Ignore := true },
    { Typ := .Whitespace, Regex := matchWhitespace, Ignore := true } ]

/-- The loop of `matchRules` over a rule list: the first rule with a non-empty match
wins; `(none, true)` when no rule matches. The token's `Location` is left at zero. -/
def matchRulesFrom : List rule → List Char → Option Token × Bool
  | [], _ => (none, true)
  | r :: rs, source =>
    match r.Regex source with
    | [] => matchRulesFrom rs source
    | m => (some { Typ := r.Typ, Value := String.mk m }, r.Ignore)

/-- Go `matchRules`. -/
def matchRules (source : List Char) : Option Token × Bool :=
  matchRulesFrom rules source

/-- Byte length of a text. -/
def byteLen (cs : List Char) : Nat :=
  (String.mk cs).utf8ByteSize

/-- The slice `source[cursor:]` for a byte offset that falls on a character
boundary. -/
def sliceFrom : List Char → Nat → List Char
  | cs, 0 => cs
  | [], _ + 1 => []
  | c :: cs, n + 1 => sliceFrom cs (n + 1 - c.utf8Size)

/-- The loop of `Tokenize`; one unit of fuel per iteration. -/
def tokenizeLoop (source : String) : Nat → Nat → List Token → TokenizeResult
  | 0, _, _ => .outOfFuel
  | fuel + 1, cursor, tokens =>
    if cursor < source.utf8ByteSize then
      match matchRules (sliceFrom source.data cursor) with
      | (none, _) => .error { Location := cursor, Message := "unexpected character" }
      | (some t, ignore) =>
        tokenizeLoop source fuel (cursor + t.Value.utf8ByteSize)
          (if ignore then tokens else tokens ++ [t])
    else .ok tokens

/-- Go `Tokenize`. Every iteration consumes at least one byte, so the byte length
of the source plus one bounds the number of iterations. -/
def Tokenize (source : String) : TokenizeResult :=
  tokenizeLoop source (source.utf8ByteSize + 1) 0 []

/-- The bytes of a Go string, as numbers: `computeLineColumn` splits and measures the
source by bytes, and takes any byte offset. -/
def bytesOf (s : String) : List Nat :=
  s.toUTF8.data.toList.map (·.toNat)

/-- Go `strings.Split(source, "\n")` on the bytes of the source: the pieces between
the line breaks (byte 10), one more than there are line breaks. -/
def splitLines : List Nat → List (List Nat)
  | [] => [[]]
  | b :: rest =>
    if b = 10 then [] :: splitLines rest
    else
      match splitLines rest with
      | line :: lines => (b :: line) :: lines
      | [] => [[b]]

/-- The loop of `computeLineColumn` over the lines left, with the loop index `i` and
the running `totalChars`; `none` is the abort after the loop. -/
def lineColumnLoop : List (List Nat) → Int → Int → Int → Option (Int × Int)
  | [], _, _, _ => none
  | line :: rest, i, totalChars, index =>
    if index < totalChars + (line.length + 1) then some (i + 1, index - totalChars + 1)
    else lineColumnLoop rest (i + 1) (totalChars + (line.length + 1)) index

/-- Go `computeLineColumn`; `none` is the abort `character index out of range`. -/
def computeLineColumn (source : String) (index : Int) : Option (Int × Int) :=
  lineColumnLoop (splitLines (bytesOf source)) 0 0 index

/-! ## Syntax trees (`lang.go`) -/

/-- The node kinds: the constants of `parser.go` and `ErrorNodeType` of `lang.go`.
`NodeType` is a Go string type and the package builds no other value of it;
`other name` stands for a kind string that is none of the constants, such as the
`Unquote` of `lang_test.go`, which a `Node` supplied by a host can carry. -/
inductive NodeType where
  | Program | Expressions | FunctionCall | Binary | Unary | Quoted | PropertyAccess
  | Parenthesis | Identifier | Block | Integer | Float | String | Operator | ErrorNode
  | other (name : String)
  deriving DecidableEq, Repr

/-- A `float64`, kept symbolic: a literal is named by its text and the result of an
operation by the operation and its operands. -/
inductive F64 where
  | lit (text : String)
  | add (a b : F64)
  | sub (a b : F64)
  | mul (a b : F64)
  | div (a b : F64)
  | mod (a b : F64)
  deriving DecidableEq, Repr

/-- The payload of a `leafNode` (its field `value`): the parser stores an `int64`, a
`float64` or a `string` there and `leafNode` is not exported. -/
inductive Payload where
  | int64 (i : Int)
  | float64 (f : F64)
  | string (s : String)
  deriving DecidableEq, Repr

/-- Go `Node`: a `listNode` (kind and children) or a `leafNode` (kind and payload). -/
inductive Node where
  | list (typ : NodeType) (children : List Node)
  | leaf (typ : NodeType) (value : Payload)
  deriving Repr

mutual
/-- Decision procedure for equality of nodes. -/
def Node.decEq : (a b : Node) → Decidable (a = b)
  | .list t cs, .list t2 cs2 =>
    if ht : t = t2 then
      match Node.decEqList cs cs2 with
      | isTrue hc => isTrue (by rw [ht, hc])
      | isFalse hc => isFalse (fun h => hc (by cases h; rfl))
    else isFalse (fun h => ht (by cases h; rfl))
  | .leaf t v, .leaf t2 v2 =>
    if ht : t = t2 then
      if hv : v = v2 then isTrue (by rw [ht, hv])
      else isFalse (fun h => hv (by cases h; rfl))
    else isFalse (fun h => ht (by cases h; rfl))
  | .list _ _, .leaf _ _ => isFalse (fun h => by cases h)
  | .leaf _ _, .list _ _ => isFalse (fun h => by cases h)
/-- Decision procedure for equality of node lists. -/
def Node.decEqList : (as bs : List Node) → Decidable (as = bs)
  | [], [] => isTrue rfl
  | a :: as, b :: bs =>
    match Node.decEq a b with
    | isTrue h =>
      match Node.decEqList as bs with
      | isTrue hs => isTrue (by rw [h, hs])
      | isFalse hs => isFalse (fun e => hs (by cases e; rfl))
    | isFalse h => isFalse (fun e => h (by cases e; rfl))
  | [], _ :: _ => isFalse (fun h => by cases h)
  | _ :: _, [] => isFalse (fun h => by cases h)
end

instance : DecidableEq Node := Node.decEq

/-- Go `Node.Type`. -/
def Node.Typ : Node → NodeType
  | .list typ _ => typ
  | .leaf typ _ => typ

/-- Go `Node.Children`: the children of a list node, none for a leaf. -/
def Node.Children : Node → List Node
  | .list _ children => children
  | .leaf _ _ => []

/-- Go `Node.Metadata()["Value"]`: the payload of a leaf, absent for a list node. -/
def Node.MetadataValue : Node → Option Payload
  | .list _ _ => none
  | .leaf _ value => some value

/-! ## Number conversion (`strconv`) -/

/-- The two errors of `strconv`. -/
inductive NumError where
  | ErrSyntax | ErrRange
  deriving DecidableEq, Repr

deriving instance DecidableEq for Except

/-- Value of a decimal digit character. -/
def digitValue (c : Char) : Nat := c.toNat - 48

/-- The digit loop of `strconv.ParseUint` in base 10: a character that is not a digit
is a syntax error, a value above `maxVal` a range error, whichever comes first. -/
def parseUintLoop (maxVal : Nat) : List Char → Nat → Except NumError Nat
  | [], n => .ok n
  | c :: cs, n =>
    if c.isDigit then
      if n * 10 + digitValue c > maxVal then .error .ErrRange
      else parseUintLoop maxVal cs (n * 10 + digitValue c)
    else .error .ErrSyntax

/-- Go `strconv.ParseInt(s, 10, 64)`. -/
def ParseInt (s : String) : Except NumError Int :=
  match s.data with
  | [] => .error .ErrSyntax
  | c :: cs =>
    let neg := c == '-'
    let digits := if c == '+' || c == '-' then cs else c :: cs
    match digits with
    | [] => .error .ErrSyntax
    | _ =>
      match parseUintLoop (2 ^ 64 - 1) digits 0 with
      | .error e => .error e
      | .ok un =>
        if !neg && un ≥ 2 ^ 63 then .error .ErrRange
        else if neg && un > 2 ^ 63 then .error .ErrRange
        else .ok (if neg then -(un : Int) else (un : Int))

/-- The number a run of decimal digits denotes. -/
def decimalValue (cs : List Char) : Nat :=
  cs.foldl (fun n c => n * 10 + digitValue c) 0

/-- The least real number that rounds to infinity as a `float64`: `2^1024 - 2^970`,
half a unit in the last place above the largest finite value. -/
def float64Limit : Nat :=
  179769313486231580793728971405303415079934132710037826936173778980444968292764750946649017977587207096330286416692887910946555547851940402630657488671505820681908902000708383676273854845817711531764475730270069855571366959622842914819860834936475292719074168444365510704342711559699508093042880177904174497792

/-- Whether the decimal `i.f` rounds to infinity as a `float64`. The limit is a whole
number and `0.f` is below one, so only the integer part decides. -/
def floatOverflows (i : List Char) : Bool :=
  decide (decimalValue i ≥ float64Limit)

/-- Go `strconv.ParseFloat(s, 64)` on the texts a Float token can carry,
`[0-9]+\.[0-9]+`: a range error when the literal rounds to infinity. The other
syntaxes of the library function (sign, exponent, hexadecimal, `inf`, `nan`) are not
modelled and are reported as a syntax error. -/
def ParseFloat (s : String) : Except NumError F64 :=
  match s.data.takeWhile Char.isDigit, s.data.dropWhile Char.isDigit with
  | [], _ => .error .ErrSyntax
  | i, '.' :: f =>
    if f ≠ [] ∧ f.all Char.isDigit then
      if floatOverflows i then .error .ErrRange else .ok (.lit s)
    else .error .ErrSyntax
  | _, _ => .error .ErrSyntax

/-! ## Parser (`parser.go`)

The parser of the source is a cursor into a fixed token slice. The functions below
take the slice `ts` and the cursor and return the outcome together with the cursor
they leave behind: the source never restores the cursor, also not on failure. -/

/-- The ways the source can abort. -/
inductive Panic where
  | indexOutOfRange | sliceBounds | typeAssertion | divideByZero
  /-- Message `assignment to entry in nil map`. -/
  | nilMap
  deriving DecidableEq, Repr

/-- The error values the parser builds. -/
inductive ParseError where
  /-- Message `expected "%s" but got eof`. -/
  | expectedValueEof (value : String)
  /-- Message `expected "%s" but got "%s"`. -/
  | expectedValue (value got : String)
  /-- Message `expected %v but got eof`. -/
  | expectedTypeEof (typ : TokenType)
  /-- Message `expected %v but got %v`. -/
  | expectedType (typ got : TokenType)
  /-- Message `expected value but got %s`. -/
  | expectedValueButGot (got : TokenType)
  /-- An error of `strconv`. -/
  | numError (e : NumError)
  deriving DecidableEq, Repr

/-- Outcome of a parsing function. -/
inductive ParseResult (α : Type) where
  | ok (a : α)
  | error (e : ParseError)
  | panic (p : Panic)
  | outOfFuel
  deriving DecidableEq, Repr

/-- Sequencing `x, err := f(); if err != nil { return nil, err }; ...`. -/
def andThen {α β : Type} (r : ParseResult α × Nat) (k : α → Nat → ParseResult β × Nat) :
    ParseResult β × Nat :=
  match r with
  | (.ok a, c) => k a c
  | (.error e, c) => (.error e, c)
  | (.panic p, c) => (.panic p, c)
  | (.outOfFuel, c) => (.outOfFuel, c)

/-- The alternative `if n, err := f(); err == nil { return n, nil }; ...`: on an error
the next alternative runs from the cursor the failed one left. -/
def orElse {α : Type} (r : ParseResult α × Nat) (k : Nat → ParseResult α × Nat) :
    ParseResult α × Nat :=
  match r with
  | (.error _, c) => k c
  | other => other

/-- Go `parser.done`. -/
def done (ts : List Token) (cursor : Nat) : Bool :=
  decide (cursor ≥ ts.length)

/-- Go `parser.peek`; `none` is the index-out-of-range abort. -/
def peek (ts : List Token) (cursor : Nat) : Option Token :=
  ts[cursor]?

/-- The guard `!p.done() && cond(p.peek())`. -/
def nextIs (ts : List Token) (cursor : Nat) (cond : Token → Bool) : Bool :=
  match peek ts cursor with
  | some t => cond t
  | none => false

/-- Go `parser.expectValue`. -/
def expectValue (ts : List Token) (value : String) (cursor : Nat) : ParseResult Unit × Nat :=
  if done ts cursor then (.error (.expectedValueEof value), cursor)
  else
    match peek ts cursor with
    | none => (.panic .indexOutOfRange, cursor)
    | some t =>
      if t.Value != value then (.error (.expectedValue value t.Value), cursor)
      else (.ok (), cursor + 1)

/-- Go `parser.expectType`. -/
def expectType (ts : List Token) (typ : TokenType) (cursor : Nat) : ParseResult Token × Nat :=
  if done ts cursor then (.error (.expectedTypeEof typ), cursor)
  else
    match peek ts cursor with
    | none => (.panic .indexOutOfRange, cursor)
    | some t =>
      if t.Typ != typ then (.error (.expectedType typ t.Typ), cursor)
      else (.ok t, cursor + 1)

/-- The loop of `advanceLines` over the tokens from the cursor on. -/
def skipNewlines : List Token → Nat → Nat
  | [], cursor => cursor
  | t :: rest, cursor => if t.Typ == .Newline then skipNewlines rest (cursor + 1) else cursor

/-- Go `parser.advanceLines`. -/
def advanceLines (ts : List Token) (cursor : Nat) : Nat :=
  skipNewlines (ts.drop cursor) cursor

/-- Go `functionCallTerminators`. -/
def functionCallTerminators : List String :=
  [";", ")", "]", "\x7d", ":=", "::", "<-", "->", "|>"]

/-- Go `isFunctionCallTerminator`. -/
def isFunctionCallTerminator (t : Token) : Bool :=
  t.Typ == .Newline || functionCallTerminators.contains t.Value

/-- Go `parser.parseInteger`. -/
def parseInteger (ts : List Token) (cursor : Nat) : ParseResult Node × Nat :=
  andThen (expectType ts .Integer cursor) fun t c =>
    match ParseInt t.Value with
    | .error e => (.error (.numError e), c)
    | .ok value => (.ok (.leaf .Integer (.int64 value)), c)

/-- Go `parser.parseIdentifier`. -/
def parseIdentifier (ts : List Token) (cursor : Nat) : ParseResult Node × Nat :=
  andThen (expectType ts .Identifier cursor) fun t c =>
    (.ok (.leaf .Identifier (.string t.Value)), c)

/-- Go `parser.parseFloat`. -/
def parseFloat (ts : List Token) (cursor : Nat) : ParseResult Node × Nat :=
  andThen (expectType ts .Float cursor) fun t c =>
    match ParseFloat t.Value with
    | .error e => (.error (.numError e), c)
    | .ok value => (.ok (.leaf .Float (.float64 value)), c)

/-- Go `parser.parseString`: the slice `t.Value[1 : len(t.Value)-1]` aborts on a text
shorter than two bytes; the first and the last character of a String token are
quotes, one byte each. -/
def parseString (ts : List Token) (cursor : Nat) : ParseResult Node × Nat :=
  andThen (expectType ts .String cursor) fun t c =>
    if t.Value.utf8ByteSize < 2 then (.panic .sliceBounds, c)
    else (.ok (.leaf .String (.string (String.mk t.Value.data.tail.dropLast))), c)

/-- The loop of `parsePropertyOrValue`. The result of `p.expectValue(".")` is
dropped by the source; under the loop guard it advances the cursor by one. -/
def parsePropertyOrValueLoop (ts : List Token) : Nat → Node → Nat → ParseResult Node × Nat
  | 0, _, cursor => (.outOfFuel, cursor)
  | fuel + 1, node, cursor =>
    if nextIs ts cursor (fun t => t.Value == ".") then
      andThen (expectType ts .Identifier (expectValue ts "." cursor).2) fun t c =>
        parsePropertyOrValueLoop ts fuel
          (.list .PropertyAccess [node, .leaf .Identifier (.string t.Value)]) c
    else (.ok node, cursor)

mutual
/-- The loop of `parseStatements`. -/
def parseStatementsLoop (ts : List Token) : Nat → List Node → Nat → ParseResult (List Node) × Nat
  | 0, _, cursor => (.outOfFuel, cursor)
  | fuel + 1, statements, cursor =>
    if nextIs ts cursor (fun t => t.Value != "\x7d") then
      andThen (parseExpression ts fuel cursor) fun stmt c1 =>
        parseStatementsLoop ts fuel (statements ++ [stmt])
          (advanceLines ts (if nextIs ts c1 (fun t => t.Value == ";") then c1 + 1 else c1))
    else (.ok statements, cursor)
termination_by structural fuel _ _ => fuel
/-- Go `parser.parseStatements`. -/
def parseStatements (ts : List Token) : Nat → Nat → ParseResult (List Node) × Nat
  | 0, cursor => (.outOfFuel, cursor)
  | fuel + 1, cursor => parseStatementsLoop ts fuel [] (advanceLines ts cursor)
termination_by structural fuel _ => fuel
/-- Go `parser.parseExpression`. -/
def parseExpression (ts : List Token) : Nat → Nat → ParseResult Node × Nat
  | 0, cursor => (.outOfFuel, cursor)
  | fuel + 1, cursor => parseRightBinaryExpression ts fuel cursor
termination_by structural fuel _ => fuel
/-- Go `parser.parseRightBinaryExpression`. -/
def parseRightBinaryExpression (ts : List Token) : Nat → Nat → ParseResult Node × Nat
  | 0, cursor => (.outOfFuel, cursor)
  | fuel + 1, cursor =>
    andThen (parseIntermediate ts fuel cursor) fun lhs c1 =>
      match peek ts c1 with
      | some t =>
        if t.Typ == .ROperator then
          andThen (parseRightBinaryExpression ts fuel (c1 + 1)) fun rhs c2 =>
            (.ok (.list .Binary [lhs, .leaf .Operator (.string t.Value), rhs]), c2)
        else (.ok lhs, c1)
      | none => (.ok lhs, c1)
termination_by structural fuel _ => fuel
/-- The loop of `parseIntermediate` that collects the arguments of a call. -/
def parseIntermediateLoop (ts : List Token) : Nat → List Node → Nat → ParseResult (List Node) × Nat
  | 0, _, cursor => (.outOfFuel, cursor)
  | fuel + 1, nodes, cursor =>
    if nextIs ts cursor (fun t => !isFunctionCallTerminator t) then
      andThen (parsePropertyOrValue ts fuel cursor) fun argBase c1 =>
        andThen (parseLeftBinaryExpression ts fuel argBase c1) fun arg c2 =>
          parseIntermediateLoop ts fuel (nodes ++ [arg])
            (if nextIs ts c2 (fun t => t.Value == ",") then c2 + 1 else c2)
    else (.ok nodes, cursor)
termination_by structural fuel _ _ => fuel
/-- Go `parser.parseIntermediate`. -/
def parseIntermediate (ts : List Token) : Nat → Nat → ParseResult Node × Nat
  | 0, cursor => (.outOfFuel, cursor)
  | fuel + 1, cursor =>
    andThen (parsePropertyOrValue ts fuel cursor) fun node c1 =>
      if nextIs ts c1 (fun t => t.Typ == .LOperator) then
        parseLeftBinaryExpression ts fuel node c1
      else
        andThen (parseIntermediateLoop ts fuel [node] c1) fun nodes c2 =>
          if nodes.length > 1 then (.ok (.list .FunctionCall nodes), c2)
          else (.ok node, c2)
termination_by structural fuel _ => fuel
/-- Go `parser.parseLeftBinaryExpression`. -/
def parseLeftBinaryExpression (ts : List Token) : Nat → Node → Nat → ParseResult Node × Nat
  | 0, _, cursor => (.outOfFuel, cursor)
  | fuel + 1, lhs, cursor =>
    match peek ts cursor with
    | some t =>
      if t.Typ == .LOperator then
        andThen (parsePropertyOrValue ts fuel (cursor + 1)) fun rhs c1 =>
          parseLeftBinaryExpression ts fuel
            (.list .Binary [lhs, .leaf .Operator (.string t.Value), rhs]) c1
      else (.ok lhs, cursor)
    | none => (.ok lhs, cursor)
termination_by structural fuel _ _ => fuel
/-- Go `parser.parsePropertyOrValue`. -/
def parsePropertyOrValue (ts : List Token) : Nat → Nat → ParseResult Node × Nat
  | 0, cursor => (.outOfFuel, cursor)
  | fuel + 1, cursor =>
    andThen (parseValue ts fuel cursor) fun node c1 =>
      parsePropertyOrValueLoop ts fuel node c1
termination_by structural fuel _ => fuel
/-- Go `parser.parseValue`: the alternatives in order, each from the cursor the
previous one left; the last line reads `p.peek()` without a guard. -/
def parseValue (ts : List Token) : Nat → Nat → ParseResult Node × Nat
  | 0, cursor => (.outOfFuel, cursor)
  | fuel + 1, cursor =>
    orElse (parseParens ts fuel cursor) fun c1 =>
    orElse (parseBlock ts fuel c1) fun c2 =>
    orElse (parseIdentifier ts c2) fun c3 =>
    orElse (parseInteger ts c3) fun c4 =>
    orElse (parseFloat ts c4) fun c5 =>
    orElse (parseString ts c5) fun c6 =>
    orElse (parseQuoted ts fuel c6) fun c7 =>
      match peek ts c7 with
      | none => (.panic .indexOutOfRange, c7)
      | some t => (.error (.expectedValueButGot t.Typ), c7)
termination_by structural fuel _ => fuel
/-- Go `parser.parseParens`. -/
def parseParens (ts : List Token) : Nat → Nat → ParseResult Node × Nat
  | 0, cursor => (.outOfFuel, cursor)
  | fuel + 1, cursor =>
    andThen (expectValue ts "(" cursor) fun _ c1 =>
      andThen (parseExpression ts fuel c1) fun inner c2 =>
        andThen (expectValue ts ")" c2) fun _ c3 =>
          (.ok (.list .Parenthesis [inner]), c3)
termination_by structural fuel _ => fuel
/-- Go `parser.parseBlock`. -/
def parseBlock (ts : List Token) : Nat → Nat → ParseResult Node × Nat
  | 0, cursor => (.outOfFuel, cursor)
  | fuel + 1, cursor =>
    andThen (expectValue ts "\x7b" cursor) fun _ c1 =>
      andThen (parseStatements ts fuel (advanceLines ts c1)) fun statements c2 =>
        andThen (expectValue ts "\x7d" (advanceLines ts c2)) fun _ c3 =>
          (.ok (.list .Block statements), c3)
termination_by structural fuel _ => fuel
/-- Go `parser.parseQuoted`. -/
def parseQuoted (ts : List Token) : Nat → Nat → ParseResult Node × Nat
  | 0, cursor => (.outOfFuel, cursor)
  | fuel + 1, cursor =>
    andThen (expectType ts .Quote cursor) fun _ c1 =>
      andThen (parsePropertyOrValue ts fuel c1) fun inner c2 =>
        (.ok (.list .Quoted [inner]), c2)
termination_by structural fuel _ => fuel
end

/-- Go `parser.parse`. -/
def parse (ts : List Token) (fuel cursor : Nat) : ParseResult Node × Nat :=
  andThen (parseStatements ts fuel cursor) fun statements c =>
    (.ok (.list .Program statements), c)

/-- Go `parser.parseExpressions`. -/
def parseExpressions (ts : List Token) (fuel cursor : Nat) : ParseResult Node × Nat :=
  andThen (parseStatements ts fuel cursor) fun statements c =>
    (.ok (.list .Expressions statements), c)

/-- Fuel for a token slice: the call chain of the parser grows by at most nine frames
for each token it consumes. -/
def parseFuel (ts : List Token) : Nat :=
  10 * ts.length + 16

/-- Go `Parse` (`lang.go`), with the final cursor. -/
def Parse (tokens : List Token) : ParseResult Node × Nat :=
  parse tokens (parseFuel tokens) 0

/-- Go `ParseExpression` (`lang.go`), with the final cursor. -/
def ParseExpression (tokens : List Token) : ParseResult Node × Nat :=
  parseExpression tokens (parseFuel tokens) 0

/-- Go `ParseExpressions` (`lang.go`), with the final cursor. -/
def ParseExpressions (tokens : List Token) : ParseResult Node × Nat :=
  parseExpressions tokens (parseFuel tokens) 0

/-! ## Evaluator (`eval.go`)

The callables of the package are the two functions `NewRootContext` binds, `exit`
and `println`; a callable value names one of them. What `println` writes is recorded
as the list of its arguments, one entry per call; a call of `os.Exit` is an outcome.
A binding map is an association list with one entry per name; a frame holds a map of
its own, the nil map, or the map that one of its ancestors holds. -/

/-- The native functions of the root context. -/
inductive Builtin where
  | exit | println
  deriving DecidableEq, Repr

/-- A run-time value (Go `any`): `nil`, `bool`, `int64`, `float64`, `string`, a
callable, a syntax tree, or a Go `int` (which only a host can supply: the parser
produces `int64`). -/
inductive Value where
  | nil
  | bool (b : Bool)
  | int64 (i : Int)
  | float64 (f : F64)
  | string (s : String)
  | func (fn : Builtin)
  | node (n : Node)
  | int (i : Int)
  deriving DecidableEq, Repr

/-- The dynamic types that `%T` prints. -/
inductive GoType where
  | nil | bool | int64 | float64 | string | func | listNode | leafNode | int
  deriving DecidableEq, Repr

/-- The dynamic type of a value. -/
def Value.goType : Value → GoType
  | .nil => .nil
  | .bool _ => .bool
  | .int64 _ => .int64
  | .float64 _ => .float64
  | .string _ => .string
  | .func _ => .func
  | .node (.list _ _) => .listNode
  | .node (.leaf _ _) => .leafNode
  | .int _ => .int

/-- The error values the evaluator builds. -/
inductive EvalError where
  /-- Message `unbound variable "%s"`. -/
  | unboundVariable (name : String)
  /-- Message `expected 1 argument, got %v`. -/
  | expectedOneArgument (got : Nat)
  /-- Message `expected integer but got %v`. -/
  | expectedInteger
  /-- Message `not a function: %v`. -/
  | notAFunction (v : Value)
  /-- Message `expected identifier on left side of assignment`. -/
  | expectedIdentifier
  /-- Message `cannot apply operator "op" to types %T and %T`. -/
  | cannotApplyOperator (op : String) (left right : GoType)
  /-- Message `not implemented`. -/
  | notImplemented
  /-- Message `unexpected node %T`. -/
  | unexpectedNode (t : GoType)
  deriving DecidableEq, Repr

/-- Outcome of an evaluation: a value, an error value, an abort, or the end of the
process through `os.Exit`. -/
inductive EvalResult (α : Type) where
  | ok (a : α)
  | error (e : EvalError)
  | panic (p : Panic)
  | exit (code : Int)
  deriving DecidableEq, Repr

/-- A binding map, `map[string]any`. -/
abbrev Bindings := List (String × Value)

/-- The map read `value, ok := m[name]`. -/
def Bindings.get (m : Bindings) (name : String) : Option Value :=
  m.lookup name

/-- The map write `m[name] = value`. -/
def Bindings.set : Bindings → String → Value → Bindings
  | [], name, value => [(name, value)]
  | (k, v) :: rest, name, value =>
    if k = name then (name, value) :: rest else (k, v) :: Bindings.set rest name value

/-- Go `Context`: a frame and its parent unless it is a root, a finite chain. The
field `Bindings` is a Go map, that is a reference, and `Context` is exported with both
fields, so a host can hand in any chain: the map of a frame can be nil (the zero value
of the field) and several frames can hold the very same map. A frame built by `root`
or `child` holds a map of its own, written with its entries; `rootNil` and `childNil`
hold the nil map; `childShared parent k` holds the map that its `k`-th ancestor holds
(`k = 0` is the parent; the nil map if that ancestor holds nil or there is no such
ancestor). A map that several frames of a chain hold is written once, at the outermost
of them. -/
inductive Context where
  | root (Bindings : Bindings)
  | child (Parent : Context) (Bindings : Bindings)
  | rootNil
  | childNil (Parent : Context)
  | childShared (Parent : Context) (k : Nat)
  deriving DecidableEq, Repr

/-- The field `Parent`. -/
def Context.Parent : Context → Option Context
  | .root _ => none
  | .child parent _ => some parent
  | .rootNil => none
  | .childNil parent => some parent
  | .childShared parent _ => some parent

/-- The map held by the `k`-th frame of a chain, counted from the frame itself
(`k = 0`) outwards: its entries, or `none` for the nil map and beyond the chain. -/
def Context.mapAt : Context → Nat → Option Ergolas.Bindings
  | .root b, 0 => some b
  | .root _, _ + 1 => none
  | .child _ b, 0 => some b
  | .child parent _, k + 1 => parent.mapAt k
  | .rootNil, _ => none
  | .childNil _, 0 => none
  | .childNil parent, k + 1 => parent.mapAt k
  | .childShared parent j, 0 => parent.mapAt j
  | .childShared parent _, k + 1 => parent.mapAt k

/-- The field `Bindings` as a read sees it: the entries of the map the frame holds,
none for the nil map. -/
def Context.Bindings (ctx : Context) : Ergolas.Bindings :=
  (ctx.mapAt 0).getD []

/-- The write `m[name] = value` into the map held by the `k`-th frame of a chain; it
shows in every frame that holds this map. `none` is the abort of a write into the nil
map. -/
def Context.setAt : Context → Nat → String → Value → Option Context
  | .root b, 0, name, value => some (.root (b.set name value))
  | .root _, _ + 1, _, _ => none
  | .child parent b, 0, name, value => some (.child parent (b.set name value))
  | .child parent b, k + 1, name, value =>
    (parent.setAt k name value).map fun p => .child p b
  | .rootNil, _, _, _ => none
  | .childNil _, 0, _, _ => none
  | .childNil parent, k + 1, name, value =>
    (parent.setAt k name value).map fun p => .childNil p
  | .childShared parent j, 0, name, value =>
    (parent.setAt j name value).map fun p => .childShared p j
  | .childShared parent j, k + 1, name, value =>
    (parent.setAt k name value).map fun p => .childShared p j

/-- The assignment `ctx.Bindings[name] = value`: a write into the map the frame holds,
`none` when that map is nil (Go aborts with `assignment to entry in nil map`). -/
def Context.setBinding (ctx : Context) (name : String) (value : Value) : Option Context :=
  ctx.setAt 0 name value

/-- Go `Context.GetKey`; the read of a nil map finds nothing. -/
def Context.GetKey : Context → String → EvalResult Value
  | .root b, name =>
    match b.get name with
    | some value => .ok value
    | none => .error (.unboundVariable name)
  | .child parent b, name =>
    match b.get name with
    | some value => .ok value
    | none => parent.GetKey name
  | .rootNil, name => .error (.unboundVariable name)
  | .childNil parent, name => parent.GetKey name
  | .childShared parent k, name =>
    match (parent.mapAt k).bind fun b => b.get name with
    | some value => .ok value
    | none => parent.GetKey name

/-- Go `NewRootContext`. -/
def NewRootContext : Context :=
  .root [("exit", .func .exit), ("println", .func .println),
         ("true", .bool true), ("false", .bool false)]

/-- What an evaluation can change: the frames reachable from the context pointer
and the text written so far. -/
structure World where
  ctx : Context
  stdout : List (List Value) := []
  deriving DecidableEq, Repr

/-- Go `isTruthy`. -/
def isTruthy : Value → Bool
  | .bool b => b
  | .nil => false
  | _ => true

/-- Reduction of an integer to the `int64` range (two's complement wrap-around). -/
def wrapInt64 (i : Int) : Int :=
  (i + 2 ^ 63) % 2 ^ 64 - 2 ^ 63

/-- The body of a root-context callable. -/
def callBuiltin : Builtin → List Value → World → EvalResult Value × World
  | .exit, args, w =>
    if args.length != 1 then (.error (.expectedOneArgument args.length), w)
    else
      match args with
      | [.int nExitCode] => (.exit nExitCode, w)
      | _ => (.error .expectedInteger, w)
  | .println, args, w => (.ok .nil, { w with stdout := w.stdout ++ [args] })

/-- The value a leaf payload is as a run-time value. -/
def Payload.toValue : Payload → Value
  | .int64 i => .int64 i
  | .float64 f => .float64 f
  | .string s => .string s

/-- The second `switch` of the `Binary` case, on the operator, with the statement
after the outer `switch` that a missing case falls through to. -/
def applyOperator (op : String) (vLhs vRhs : Value) : EvalResult Value :=
  if op = "+" then
    match vLhs, vRhs with
    | .int64 nLhs, .int64 nRhs => .ok (.int64 (wrapInt64 (nLhs + nRhs)))
    | .float64 nLhs, .float64 nRhs => .ok (.float64 (.add nLhs nRhs))
    | .string nLhs, .string nRhs => .ok (.string (nLhs ++ nRhs))
    | _, _ => .error (.cannotApplyOperator "+" vLhs.goType vRhs.goType)
  else if op = "-" then
    match vLhs, vRhs with
    | .int64 nLhs, .int64 nRhs => .ok (.int64 (wrapInt64 (nLhs - nRhs)))
    | .float64 nLhs, .float64 nRhs => .ok (.float64 (.sub nLhs nRhs))
    | _, _ => .error (.cannotApplyOperator "-" vLhs.goType vRhs.goType)
  else if op = "*" then
    match vLhs, vRhs with
    | .int64 nLhs, .int64 nRhs => .ok (.int64 (wrapInt64 (nLhs * nRhs)))
    | .float64 nLhs, .float64 nRhs => .ok (.float64 (.mul nLhs nRhs))
    | _, _ => .error (.cannotApplyOperator "*" vLhs.goType vRhs.goType)
  else if op = "/" then
    match vLhs, vRhs with
    | .int64 nLhs, .int64 nRhs =>
      if nRhs = 0 then .panic .divideByZero
      else .ok (.int64 (wrapInt64 (Int.tdiv nLhs nRhs)))
    | .float64 nLhs, .float64 nRhs => .ok (.float64 (.div nLhs nRhs))
    | _, _ => .error (.cannotApplyOperator "/" vLhs.goType vRhs.goType)
  else if op = "%" then
    match vLhs, vRhs with
    | .int64 nLhs, .int64 nRhs =>
      if nRhs = 0 then .panic .divideByZero
      else .ok (.int64 (wrapInt64 (Int.tmod nLhs nRhs)))
    | .float64 nLhs, .float64 nRhs => .ok (.float64 (.mod nLhs nRhs))
    | _, _ => .error (.cannotApplyOperator "%" vLhs.goType vRhs.goType)
  else .error (.unexpectedNode .listNode)

/-- Sequencing `v, err := eval(..); if err != nil { return nil, err }; ...`. -/
def evalThen {α β : Type} (r : EvalResult α × World)
    (k : α → World → EvalResult β × World) : EvalResult β × World :=
  match r with
  | (.ok a, w) => k a w
  | (.error e, w) => (.error e, w)
  | (.panic p, w) => (.panic p, w)
  | (.exit code, w) => (.exit code, w)

/-- Go `eval` on a leaf node: it has no children and its metadata holds the payload. -/
def evalLeaf (typ : NodeType) (value : Payload) (w : World) : EvalResult Value × World :=
  match typ with
  | .Program => (.ok .nil, w)
  | .Expressions => (.ok .nil, w)
  | .FunctionCall => (.panic .indexOutOfRange, w)
  | .Binary => (.panic .indexOutOfRange, w)
  | .Quoted => (.ok (.node (.leaf typ value)), w)
  | .PropertyAccess => (.error .notImplemented, w)
  | .Parenthesis => (.panic .indexOutOfRange, w)
  | .Identifier =>
    match value with
    | .string name => (w.ctx.GetKey name, w)
    | _ => (.panic .typeAssertion, w)
  | .Block => (.error .notImplemented, w)
  | .Integer => (.ok value.toValue, w)
  | .Float => (.ok value.toValue, w)
  | .String => (.ok value.toValue, w)
  | _ => (.error (.unexpectedNode .leafNode), w)

mutual
/-- Go `eval`. -/
def eval : Node → World → EvalResult Value × World
  | .leaf typ value, w => evalLeaf typ value w
  | .list typ children, w =>
    match typ with
    | .Program => evalProgram children w
    | .Expressions => evalExpressions children .nil w
    | .FunctionCall =>
      match children with
      | [] => (.panic .indexOutOfRange, w)
      | calleeAst :: argsAst =>
        evalThen (eval calleeAst w) fun vCallee w1 =>
          evalThen (evalArgs argsAst [] w1) fun vArgs w2 =>
            match vCallee with
            | .func fn => callBuiltin fn vArgs w2
            | _ => (.error (.notAFunction vCallee), w2)
    | .Binary =>
      match children with
      | [] => (.panic .indexOutOfRange, w)
      | [_] => (.panic .indexOutOfRange, w)
      | lhs :: opNode :: rest =>
        match opNode.MetadataValue with
        | some (.string op) =>
          match rest with
          | [] => (.panic .indexOutOfRange, w)
          | rhs :: _ =>
            if op = ":=" then
              if lhs.Typ != .Identifier then (.error .expectedIdentifier, w)
              else
                match lhs.MetadataValue with
                | some (.string name) =>
                  evalThen (eval rhs w) fun vRhs w1 =>
                    match w1.ctx.setBinding name vRhs with
                    | some ctx => (.ok .nil, { w1 with ctx := ctx })
                    | none => (.panic .nilMap, w1)
                | _ => (.panic .typeAssertion, w)
            else if op = "&&" then
              evalThen (eval lhs w) fun vLhs w1 =>
                if !isTruthy vLhs then (.ok vLhs, w1)
                else evalThen (eval rhs w1) fun vRhs w2 => (.ok vRhs, w2)
            else if op = "||" then
              evalThen (eval lhs w) fun vLhs w1 =>
                if isTruthy vLhs then (.ok vLhs, w1)
                else evalThen (eval rhs w1) fun vRhs w2 => (.ok vRhs, w2)
            else
              evalThen (eval lhs w) fun vLhs w1 =>
                evalThen (eval rhs w1) fun vRhs w2 =>
                  (applyOperator op vLhs vRhs, w2)
        | _ => (.panic .typeAssertion, w)
    | .Quoted => (.ok (.node (.list typ children)), w)
    | .PropertyAccess => (.error .notImplemented, w)
    | .Parenthesis =>
      match children with
      | [] => (.panic .indexOutOfRange, w)
      | inner :: _ => eval inner w
    | .Identifier => (.panic .typeAssertion, w)
    | .Block => (.error .notImplemented, w)
    | .Integer => (.ok .nil, w)
    | .Float => (.ok .nil, w)
    | .String => (.ok .nil, w)
    | _ => (.error (.unexpectedNode .listNode), w)
/-- The loop of the `Program` case. -/
def evalProgram : List Node → World → EvalResult Value × World
  | [], w => (.ok .nil, w)
  | n :: rest, w => evalThen (eval n w) fun _ w1 => evalProgram rest w1
/-- The loop of the `Expressions` case, with the running `lastResult`. -/
def evalExpressions : List Node → Value → World → EvalResult Value × World
  | [], lastResult, w => (.ok lastResult, w)
  | n :: rest, _, w => evalThen (eval n w) fun v w1 => evalExpressions rest v w1
/-- The argument loop of the `FunctionCall` case, with the running `vArgs`. -/
def evalArgs : List Node → List Value → World → EvalResult (List Value) × World
  | [], vArgs, w => (.ok vArgs, w)
  | argAst :: rest, vArgs, w =>
    evalThen (eval argAst w) fun vArg w1 => evalArgs rest (vArgs ++ [vArg]) w1
end

/-- Go `Evaluate`. -/
def Evaluate (node : Node) : EvalResult Value × World :=
  eval node { ctx := NewRootContext }

/-- Go `EvaluateWith`. -/
def EvaluateWith (node : Node) (w : World) : EvalResult Value × World :=
  eval node w

/-! ## Vocabulary of the statements -/

/-- A token as `Tokenize` emits it: the rule table, run on the text of the token,
matches all of it and assigns the class of the token. -/
def Token.lexed (t : Token) : Bool :=
  decide (matchRules t.Value.data = (some { Typ := t.Typ, Value := t.Value }, false))

/-- A simple value token: an identifier, integer, float or string token. -/
def Token.isSimpleValue (t : Token) : Bool :=
  t.lexed && (t.Typ == .Identifier || t.Typ == .Integer || t.Typ == .Float || t.Typ == .String)

/-- A left-operator token. -/
def Token.isLeftOperator (t : Token) : Bool :=
  t.lexed && t.Typ == .LOperator

/-- A right-operator token: `:=` or `::`. -/
def Token.isRightOperator (t : Token) : Bool :=
  t.Typ == .ROperator && (t.Value == ":=" || t.Value == "::")

/-- The literal of a token has a value: an integer literal is below `2^63`, a float
literal does not round to infinity. -/
def Token.literalInRange (t : Token) : Bool :=
  match t.Typ with
  | .Integer => decide (decimalValue t.Value.data < 2 ^ 63)
  | .Float => decide (decimalValue (t.Value.data.takeWhile Char.isDigit) < float64Limit)
  | _ => true

/-- The leaf a simple value token stands for. -/
def simpleNode (t : Token) : Node :=
  match t.Typ with
  | .Integer => .leaf .Integer (.int64 (decimalValue t.Value.data))
  | .Float => .leaf .Float (.float64 (.lit t.Value))
  | .String => .leaf .String (.string (String.mk t.Value.data.tail.dropLast))
  | _ => .leaf .Identifier (.string t.Value)

/-- The node `Binary(lhs, op, rhs)`. -/
def binaryNode (lhs : Node) (op : String) (rhs : Node) : Node :=
  .list .Binary [lhs, .leaf .Operator (.string op), rhs]

/-- The tokens `v0, op1, v1, ..., opn, vn` of a chain, from the first value and the
pairs `(op, v)` that follow it. -/
def chainTokens (v0 : Token) (rest : List (Token × Token)) : List Token :=
  v0 :: rest.flatMap fun p => [p.1, p.2]

/-- The left-nested tree over `lhs` and the pairs `(op, v)`. -/
def leftNested (lhs : Node) (rest : List (Token × Token)) : Node :=
  rest.foldl (fun acc p => binaryNode acc p.1.Value (simpleNode p.2)) lhs

/-- The right-nested tree over `v0` and the pairs `(op, v)`. -/
def rightNested : Token → List (Token × Token) → Node
  | v0, [] => simpleNode v0
  | v0, (op, v) :: rest => binaryNode (simpleNode v0) op.Value (rightNested v rest)

/-- A text that the rule table does not lex as a simple value. -/
def notSimpleText (s : String) : Bool :=
  match (matchRules s.data).1 with
  | some tok => tok.Typ != .Identifier && tok.Typ != .Integer && tok.Typ != .Float && tok.Typ != .String
  | none => true

/-- The frames of a chain, innermost first, each by the entries of the map it holds
(none for the nil map). -/
def Context.frames : Context → List Ergolas.Bindings
  | .root b => [b]
  | .child parent b => b :: parent.frames
  | .rootNil => [[]]
  | .childNil parent => [] :: parent.frames
  | .childShared parent k => (parent.mapAt k).getD [] :: parent.frames

/-- Whether the children of a node carry the operator `:=` in the operator place. -/
def hasAssignOperator : List Node → Bool
  | _ :: opNode :: _ => opNode.MetadataValue == some (.string ":=")
  | _ => false

mutual
/-- Whether a tree contains a `Binary` node with the operator `:=`. -/
def containsAssign : Node → Bool
  | .leaf _ _ => false
  | .list typ children =>
    (typ == .Binary && hasAssignOperator children) || containsAssignList children
/-- Whether one of the trees of a list contains a `Binary` node with the operator `:=`. -/
def containsAssignList : List Node → Bool
  | [] => false
  | n :: ns => containsAssign n || containsAssignList ns
end

/-- The statement proved for every tree: evaluation keeps the frames. -/
def KeepsFrames (n : Node) : Prop :=
  containsAssign n = false → ∀ w, (eval n w).2.ctx = w.ctx

/-- The statement proved for every list of trees: the three loops keep the frames. -/
def KeepFrames (ns : List Node) : Prop :=
  containsAssignList ns = false →
    (∀ n ∈ ns, KeepsFrames n) ∧
    (∀ w, (evalProgram ns w).2.ctx = w.ctx) ∧
    (∀ v w, (evalExpressions ns v w).2.ctx = w.ctx) ∧
    (∀ vs w, (evalArgs ns vs w).2.ctx = w.ctx) ∧
    (∀ vs w, (evalArgs ns.tail vs w).2.ctx = w.ctx)

/-- The scan of the claim: from the offset `k`, with `rest` the text from there on,
skip the text of the first rule that matches, again and again; the result is the
offset reached at which text is left and no rule matches, if there is one. -/
def firstUnmatched : Nat → List Char → Nat → Option Nat
  | 0, _, _ => none
  | _ + 1, [], _ => none
  | fuel + 1, c :: cs, k =>
    match matchRules (c :: cs) with
    | (none, _) => some k
    | (some t, _) => firstUnmatched fuel ((c :: cs).drop t.Value.length) (k + t.Value.utf8ByteSize)

/-- The offset at which the scan of a source from offset 0 finds no matching rule. -/
def unmatchedOffset (source : String) : Option Nat :=
  firstUnmatched (source.length + 1) source.data 0

/-- A newline token as `Tokenize` emits it: of class Newline, its text a line break
followed by white space. -/
def Token.isNewline (t : Token) : Bool :=
  t.lexed && t.Typ == .Newline

/-- The punctuation token that opens a block, `\x7b`. -/
def Token.isOpenBrace (t : Token) : Bool :=
  t.Typ == .Punctuation && t.Value == "\x7b"

/-- The punctuation token that closes a block, `\x7d`. -/
def Token.isCloseBrace (t : Token) : Bool :=
  t.Typ == .Punctuation && t.Value == "\x7d"

/-- The second token sequence is the first with newline tokens inserted, any number
at each place, immediately after opening braces (`afterOpen`), immediately before
closing braces (`beforeClose`) and at the very end (`atEnd`); every other token is kept
as it is (`keep`). -/
inductive NewlinesInside : List Token → List Token → Prop where
  | atEnd (nls : List Token) : (∀ t ∈ nls, t.isNewline = true) → NewlinesInside [] nls
  | keep (t : Token) {s s2 : List Token} : NewlinesInside s s2 →
      NewlinesInside (t :: s) (t :: s2)
  | afterOpen (t : Token) (nls : List Token) {s s2 : List Token} : t.isOpenBrace = true →
      (∀ n ∈ nls, n.isNewline = true) → NewlinesInside s s2 →
      NewlinesInside (t :: s) (t :: (nls ++ s2))
  | beforeClose (t : Token) (nls : List Token) {s s2 : List Token} : t.isCloseBrace = true →
      (∀ n ∈ nls, n.isNewline = true) → NewlinesInside s s2 →
      NewlinesInside (t :: s) (nls ++ t :: s2)

/-- The second token sequence is the first with newline tokens inserted, any number
at each place, at the very start (`nls`), immediately after opening braces, immediately
before closing braces and at the very end. -/
def NewlinesInserted (s s2 : List Token) : Prop :=
  ∃ nls rest, s2 = nls ++ rest ∧ (∀ n ∈ nls, n.isNewline = true) ∧ NewlinesInside s rest

/-- The token under the cursor, if any, is not of class Newline. -/
def HeadNotNewline (s : List Token) : Prop :=
  ∀ t, s.head? = some t → t.Typ ≠ .Newline

/-- Two outcomes of the parser on two token sequences agree: the same node, or an
error on both sides, with the tokens left related by `pOk` or `pErr`; nothing is
asked when the first outcome is an abort or the end of the fuel. -/
def RelOut {α : Type} (ts ts2 : List Token) (pOk pErr : List Token → List Token → Prop) :
    ParseResult α × Nat → ParseResult α × Nat → Prop
  | (.ok a, c), x2 => ∃ c2, x2 = (.ok a, c2) ∧ pOk (ts.drop c) (ts2.drop c2)
  | (.error _, c), x2 => ∃ e2 c2, x2 = (.error e2, c2) ∧ pErr (ts.drop c) (ts2.drop c2)
  | (.panic _, _), _ => True
  | (.outOfFuel, _), _ => True

/-- What the two parsers see under related cursors. -/
inductive HeadView : List Token → List Token → Prop where
  | bothEnd : HeadView [] []
  | endNewline (n : Token) (r : List Token) : n.isNewline = true → HeadView [] (n :: r)
  | same (t : Token) (s r : List Token) : HeadView (t :: s) (t :: r)
  | closeNewline (t n : Token) (s r : List Token) : t.isCloseBrace = true →
      n.isNewline = true → HeadView (t :: s) (n :: r)

/-- The simulation statements of the mutually recursive parsing functions, the
second side running on at least as much fuel as the first. -/
structure ParserSim (ts ts2 : List Token) (fuel fuel2 : Nat) : Prop where
  statementsLoop : ∀ (stmts : List Node) (c c2 : Nat),
    NewlinesInside (ts.drop c) (ts2.drop c2) → HeadNotNewline (ts2.drop c2) →
    RelOut ts ts2 NewlinesInside NewlinesInside
      (parseStatementsLoop ts fuel stmts c) (parseStatementsLoop ts2 fuel2 stmts c2)
  statements : ∀ (c c2 : Nat), NewlinesInserted (ts.drop c) (ts2.drop c2) →
    RelOut ts ts2 NewlinesInside NewlinesInside
      (parseStatements ts fuel c) (parseStatements ts2 fuel2 c2)
  expression : ∀ (c c2 : Nat), NewlinesInside (ts.drop c) (ts2.drop c2) →
    RelOut ts ts2 NewlinesInside NewlinesInside
      (parseExpression ts fuel c) (parseExpression ts2 fuel2 c2)
  rightBinary : ∀ (c c2 : Nat), NewlinesInside (ts.drop c) (ts2.drop c2) →
    RelOut ts ts2 NewlinesInside NewlinesInside
      (parseRightBinaryExpression ts fuel c) (parseRightBinaryExpression ts2 fuel2 c2)
  intermediateLoop : ∀ (nodes : List Node) (c c2 : Nat),
    NewlinesInside (ts.drop c) (ts2.drop c2) →
    RelOut ts ts2 NewlinesInside NewlinesInside
      (parseIntermediateLoop ts fuel nodes c) (parseIntermediateLoop ts2 fuel2 nodes c2)
  intermediate : ∀ (c c2 : Nat), NewlinesInside (ts.drop c) (ts2.drop c2) →
    RelOut ts ts2 NewlinesInside NewlinesInside
      (parseIntermediate ts fuel c) (parseIntermediate ts2 fuel2 c2)
  leftBinary : ∀ (lhs : Node) (c c2 : Nat), NewlinesInside (ts.drop c) (ts2.drop c2) →
    RelOut ts ts2 NewlinesInside NewlinesInside
      (parseLeftBinaryExpression ts fuel lhs c) (parseLeftBinaryExpression ts2 fuel2 lhs c2)
  propertyOrValue : ∀ (c c2 : Nat), NewlinesInside (ts.drop c) (ts2.drop c2) →
    RelOut ts ts2 NewlinesInside NewlinesInside
      (parsePropertyOrValue ts fuel c) (parsePropertyOrValue ts2 fuel2 c2)
  value : ∀ (c c2 : Nat), NewlinesInside (ts.drop c) (ts2.drop c2) →
    RelOut ts ts2 NewlinesInside NewlinesInside
      (parseValue ts fuel c) (parseValue ts2 fuel2 c2)
  parens : ∀ (c c2 : Nat), NewlinesInside (ts.drop c) (ts2.drop c2) →
    RelOut ts ts2 NewlinesInside NewlinesInside
      (parseParens ts fuel c) (parseParens ts2 fuel2 c2)
  block : ∀ (c c2 : Nat), NewlinesInside (ts.drop c) (ts2.drop c2) →
    RelOut ts ts2 NewlinesInside NewlinesInside
      (parseBlock ts fuel c) (parseBlock ts2 fuel2 c2)
  quoted : ∀ (c c2 : Nat), NewlinesInside (ts.drop c) (ts2.drop c2) →
    RelOut ts ts2 NewlinesInside NewlinesInside
      (parseQuoted ts fuel c) (parseQuoted ts2 fuel2 c2)

/-- The source of `ExampleParse_inline_if_blocks` (`lang_test.go`). -/
def inlineIfSource : String :=
  "if \x7b ans == 42 \x7d \x7b println \"Yep\" \x7d \x7b println \"Nope\" \x7d"

/-- The source of `ExampleParse_multiline_if_blocks` (`lang_test.go`). -/
def multilineIfSource : String :=
  "\n\t\tif \x7b ans == 42 \x7d \x7b \n\t\t\tprintln \"Yep\"\n\t\t\x7d \x7b\n\t\t\tprintln \"Nope\"\n\t\t\x7d\n\t"

/-- The tokens of `inlineIfSource`. -/
def inlineIfTokens : List Token :=
  [⟨.Identifier, "if", 0⟩,
   ⟨.Punctuation, "\x7b", 0⟩, ⟨.Identifier, "ans", 0⟩, ⟨.LOperator, "==", 0⟩, ⟨.Integer, "42", 0⟩,
   ⟨.Punctuation, "\x7d", 0⟩,
   ⟨.Punctuation, "\x7b", 0⟩, ⟨.Identifier, "println", 0⟩, ⟨.String, "\"Yep\"", 0⟩,
   ⟨.Punctuation, "\x7d", 0⟩,
   ⟨.Punctuation, "\x7b", 0⟩, ⟨.Identifier, "println", 0⟩, ⟨.String, "\"Nope\"", 0⟩,
   ⟨.Punctuation, "\x7d", 0⟩]

/-- The tokens of `multilineIfSource`: those of `inlineIfSource` and six newline
tokens. -/
def multilineIfTokens : List Token :=
  [⟨.Newline, "\n\t\t", 0⟩, ⟨.Identifier, "if", 0⟩,
   ⟨.Punctuation, "\x7b", 0⟩, ⟨.Identifier, "ans", 0⟩, ⟨.LOperator, "==", 0⟩, ⟨.Integer, "42", 0⟩,
   ⟨.Punctuation, "\x7d", 0⟩,
   ⟨.Punctuation, "\x7b", 0⟩, ⟨.Newline, "\n\t\t\t", 0⟩, ⟨.Identifier, "println", 0⟩,
   ⟨.String, "\"Yep\"", 0⟩, ⟨.Newline, "\n\t\t", 0⟩, ⟨.Punctuation, "\x7d", 0⟩,
   ⟨.Punctuation, "\x7b", 0⟩, ⟨.Newline, "\n\t\t\t", 0⟩, ⟨.Identifier, "println", 0⟩,
   ⟨.String, "\"Nope\"", 0⟩, ⟨.Newline, "\n\t\t", 0⟩, ⟨.Punctuation, "\x7d", 0⟩,
   ⟨.Newline, "\n\t", 0⟩]

/-- The tree both examples of `lang_test.go` print. -/
def ifBlocksTree : Node :=
  .list .Program [.list .FunctionCall
    [.leaf .Identifier (.string "if"),
     .list .Block [.list .Binary [.leaf .Identifier (.string "ans"),
       .leaf .Operator (.string "=="), .leaf .Integer (.int64 42)]],
     .list .Block [.list .FunctionCall [.leaf .Identifier (.string "println"),
       .leaf .String (.string "Yep")]],
     .list .Block [.list .FunctionCall [.leaf .Identifier (.string "println"),
       .leaf .String (.string "Nope")]]]]

/-- A line comment: `#` and the characters up to the end of the line. -/
def isLineComment (cs : List Char) : Bool :=
  match cs with
  | '#' :: rest => rest.all (· != '\n')
  | _ => false

/-- A non-empty run of spaces and tabs. -/
def isBlankRun (cs : List Char) : Bool :=
  !cs.isEmpty && cs.all isBlank

/-- The text of a list of pieces, one after the other. -/
def piecesText (pieces : List (Token × Bool)) : List Char :=
  pieces.flatMap fun p => p.1.Value.data

/-- The pieces that are kept as tokens, in order. -/
def keptTokens (pieces : List (Token × Bool)) : List Token :=
  (pieces.filter fun p => !p.2).map (·.1)

/-- What holds of every piece the loop of `Tokenize` cuts off the source: its text is
not empty, its `Location` is zero, and a piece that is dropped is a line comment or a
run of spaces and tabs. -/
def goodPiece (p : Token × Bool) : Prop :=
  p.1.Value.data ≠ [] ∧ p.1.Location = 0 ∧
    (p.2 = true → isLineComment p.1.Value.data = true ∨ isBlankRun p.1.Value.data = true)

/-- The number of line breaks in a byte sequence. -/
def newlineCount (bs : List Nat) : Nat :=
  bs.count 10

/-- The offset just after the last line break of a byte sequence, or 0 if it has
none: the length less the run of bytes after the last line break. -/
def afterLastNewline (bs : List Nat) : Nat :=
  bs.length - (bs.reverse.takeWhile (· ≠ 10)).length

/-- The shape the evaluator reads off a list node of a kind: a `Binary` node has three
children, the middle one an `Operator` leaf with a text; a `FunctionCall` node has at
least two children; a `Quoted` and a `Parenthesis` node have one child; a
`PropertyAccess` node has two children, the second an `Identifier` leaf; `Program`,
`Expressions` and `Block` nodes have any number; no other kind is a list node. -/
def childrenShaped (typ : NodeType) (children : List Node) : Bool :=
  match typ with
  | .Program => true
  | .Expressions => true
  | .Block => true
  | .FunctionCall => decide (2 ≤ children.length)
  | .Binary =>
    match children with
    | [_, .leaf .Operator (.string _), _] => true
    | _ => false
  | .Quoted => decide (children.length = 1)
  | .Parenthesis => decide (children.length = 1)
  | .PropertyAccess =>
    match children with
    | [_, .leaf .Identifier (.string _)] => true
    | _ => false
  | _ => false

/-- The leaves: the kinds `Identifier`, `String` and `Operator` with a text, `Integer`
with an `int64` and `Float` with a `float64`. -/
def leafShaped (typ : NodeType) (value : Payload) : Bool :=
  match typ, value with
  | .Identifier, .string _ => true
  | .Integer, .int64 _ => true
  | .Float, .float64 _ => true
  | .String, .string _ => true
  | .Operator, .string _ => true
  | _, _ => false

mutual

/-- A tree is well shaped: every leaf and every list node in it is. -/
def wellShaped : Node → Bool
  | .leaf typ value => leafShaped typ value
  | .list typ children => childrenShaped typ children && wellShapedList children

/-- Every tree of a list is well shaped. -/
def wellShapedList : List Node → Bool
  | [] => true
  | n :: ns => wellShaped n && wellShapedList ns
end

/-- Every value a parsing outcome can carry has the property. -/
def okAll {α : Type} (P : α → Prop) (r : ParseResult α × Nat) : Prop :=
  ∀ a, r.1 = .ok a → P a

/-- The outcome of an evaluation is not an abort on a missing child or on a payload
of the wrong type. -/
def noShapeAbort {α : Type} (r : EvalResult α × World) : Prop :=
  r.1 ≠ .panic .indexOutOfRange ∧ r.1 ≠ .panic .typeAssertion

/-- The invariant of the mutually recursive parsing functions: what they return is
well shaped, given that what they are handed is. -/
structure ParserShape (ts : List Token) (fuel : Nat) : Prop where
  statementsLoop : ∀ (stmts : List Node) (c : Nat), wellShapedList stmts = true →
    okAll (fun ns => wellShapedList ns = true) (parseStatementsLoop ts fuel stmts c)
  statements : ∀ (c : Nat),
    okAll (fun ns => wellShapedList ns = true) (parseStatements ts fuel c)
  expression : ∀ (c : Nat), okAll (fun n => wellShaped n = true) (parseExpression ts fuel c)
  rightBinary : ∀ (c : Nat),
    okAll (fun n => wellShaped n = true) (parseRightBinaryExpression ts fuel c)
  intermediateLoop : ∀ (nodes : List Node) (c : Nat), wellShapedList nodes = true →
    okAll (fun ns => wellShapedList ns = true) (parseIntermediateLoop ts fuel nodes c)
  intermediate : ∀ (c : Nat), okAll (fun n => wellShaped n = true) (parseIntermediate ts fuel c)
  leftBinary : ∀ (lhs : Node) (c : Nat), wellShaped lhs = true →
    okAll (fun n => wellShaped n = true) (parseLeftBinaryExpression ts fuel lhs c)
  propertyOrValue : ∀ (c : Nat),
    okAll (fun n => wellShaped n = true) (parsePropertyOrValue ts fuel c)
  value : ∀ (c : Nat), okAll (fun n => wellShaped n = true) (parseValue ts fuel c)
  parens : ∀ (c : Nat), okAll (fun n => wellShaped n = true) (parseParens ts fuel c)
  block : ∀ (c : Nat), okAll (fun n => wellShaped n = true) (parseBlock ts fuel c)
  quoted : ∀ (c : Nat), okAll (fun n => wellShaped n = true) (parseQuoted ts fuel c)

/-- The statement proved for every list of trees. -/
def noShapeAbortList (ns : List Node) : Prop :=
  wellShapedList ns = true →
    (∀ n ∈ ns, wellShaped n = true ∧ ∀ w, noShapeAbort (eval n w)) ∧
    (∀ w, noShapeAbort (evalProgram ns w)) ∧
    (∀ v w, noShapeAbort (evalExpressions ns v w)) ∧
    (∀ vs w, noShapeAbort (evalArgs ns vs w)) ∧
    (∀ vs w, noShapeAbort (evalArgs ns.tail vs w))

/-- What holds of the outcome of a parsing function started at the cursor `c`: the
cursor it leaves is not before `c` and not beyond the number of tokens; under `strict`
a returned value comes with a cursor that has moved on; under `enough` the outcome is
not the end of the fuel. -/
def Behaved {α : Type} (ts : List Token) (c : Nat) (strict enough : Prop)
    (r : ParseResult α × Nat) : Prop :=
  c ≤ r.2 ∧ r.2 ≤ ts.length ∧ (strict → ∀ a, r.1 = .ok a → c < r.2) ∧
    (enough → r.1 ≠ .outOfFuel)

/-- The cursor and the fuel of the mutually recursive parsing functions: each leaves
the cursor between where it started and the number of tokens, the functions that
return a value for an expression move it on, and none runs out of fuel when given
ten units for each token left and a few more. -/
structure ParserBounds (ts : List Token) (fuel : Nat) : Prop where
  statementsLoop : ∀ (stmts : List Node) (c : Nat), c ≤ ts.length →
    Behaved ts c False (10 * (ts.length - c) + 7 ≤ fuel) (parseStatementsLoop ts fuel stmts c)
  statements : ∀ (c : Nat), c ≤ ts.length →
    Behaved ts c False (10 * (ts.length - c) + 8 ≤ fuel) (parseStatements ts fuel c)
  expression : ∀ (c : Nat), c ≤ ts.length →
    Behaved ts c True (10 * (ts.length - c) + 6 ≤ fuel) (parseExpression ts fuel c)
  rightBinary : ∀ (c : Nat), c ≤ ts.length →
    Behaved ts c True (10 * (ts.length - c) + 5 ≤ fuel) (parseRightBinaryExpression ts fuel c)
  intermediateLoop : ∀ (nodes : List Node) (c : Nat), c ≤ ts.length →
    Behaved ts c False (10 * (ts.length - c) + 4 ≤ fuel) (parseIntermediateLoop ts fuel nodes c)
  intermediate : ∀ (c : Nat), c ≤ ts.length →
    Behaved ts c True (10 * (ts.length - c) + 4 ≤ fuel) (parseIntermediate ts fuel c)
  leftBinary : ∀ (lhs : Node) (c : Nat), c ≤ ts.length →
    Behaved ts c False (10 * (ts.length - c) + 3 ≤ fuel) (parseLeftBinaryExpression ts fuel lhs c)
  propertyOrValue : ∀ (c : Nat), c ≤ ts.length →
    Behaved ts c True (10 * (ts.length - c) + 3 ≤ fuel) (parsePropertyOrValue ts fuel c)
  value : ∀ (c : Nat), c ≤ ts.length →
    Behaved ts c True (10 * (ts.length - c) + 2 ≤ fuel) (parseValue ts fuel c)
  parens : ∀ (c : Nat), c ≤ ts.length →
    Behaved ts c True (10 * (ts.length - c) + 1 ≤ fuel) (parseParens ts fuel c)
  block : ∀ (c : Nat), c ≤ ts.length →
    Behaved ts c True (10 * (ts.length - c) + 1 ≤ fuel) (parseBlock ts fuel c)
  quoted : ∀ (c : Nat), c ≤ ts.length →
    Behaved ts c True (10 * (ts.length - c) + 1 ≤ fuel) (parseQuoted ts fuel c)

/-- The arguments of a call are evaluated one after the other, each in the world the
one before it left, and each yields a value: the values in order and the world after
the last. -/
inductive ArgsEvaluated : List Node → World → List Value → World → Prop where
  | nil (w : World) : ArgsEvaluated [] w [] w
  | cons {a : Node} {rest : List Node} {w w1 w2 : World} {v : Value} {vs : List Value} :
      eval a w = (.ok v, w1) → ArgsEvaluated rest w1 vs w2 →
      ArgsEvaluated (a :: rest) w (v :: vs) w2

/-- The first argument of a call that yields no value: the arguments before it are
evaluated one after the other and yield values, and it ends with the outcome `r`, an
error, an abort or an exit, in the world `w2`. -/
inductive FirstArgFails : List Node → World → EvalResult Value → World → Prop where
  | here {a : Node} {rest : List Node} {w w1 : World} {r : EvalResult Value} :
      eval a w = (r, w1) → (∀ v, r ≠ .ok v) → FirstArgFails (a :: rest) w r w1
  | later {a : Node} {rest : List Node} {w w1 w2 : World} {v : Value}
      {r : EvalResult Value} :
      eval a w = (.ok v, w1) → FirstArgFails rest w1 r w2 →
      FirstArgFails (a :: rest) w r w2

/-! ## Lemmas -/

set_option exponentiation.threshold 2000 in
theorem float64Limit_eq : float64Limit = 2 ^ 1024 - 2 ^ 970 := by
  unfold float64Limit
  norm_num

theorem peek_eq_some_of_drop {ts : List Token} {c : Nat} {a : Token} {l : List Token}
    (h : ts.drop c = a :: l) : peek ts c = some a := by
  have := List.head?_drop ts c
  rw [h] at this
  simpa [peek] using this.symm

theorem drop_succ_of_drop {ts : List Token} {c : Nat} {a : Token} {l : List Token}
    (h : ts.drop c = a :: l) : ts.drop (c + 1) = l := by
  have : ts.drop (c + 1) = (ts.drop c).drop 1 := by
    rw [List.drop_drop, Nat.add_comm]
  rw [this, h]; rfl

theorem peek_eq_none_of_drop {ts : List Token} {c : Nat} (h : ts.drop c = []) :
    peek ts c = none := by
  have := List.head?_drop ts c
  rw [h] at this
  simpa [peek] using this.symm

theorem done_eq_false_of_peek {ts : List Token} {c : Nat} {a : Token}
    (h : peek ts c = some a) : done ts c = false := by
  unfold peek at h
  have := (List.getElem?_eq_some_iff.mp h).1
  simp [done]; omega

theorem expectValue_ne {ts : List Token} {c : Nat} {a : Token} {v : String}
    (h : peek ts c = some a) (hv : a.Value ≠ v) :
    expectValue ts v c = (.error (.expectedValue v a.Value), c) := by
  simp [expectValue, done_eq_false_of_peek h, h, hv]

theorem expectType_ne {ts : List Token} {c : Nat} {a : Token} (ty : TokenType)
    (h : peek ts c = some a) (hv : a.Typ ≠ ty) :
    expectType ts ty c = (.error (.expectedType ty a.Typ), c) := by
  simp [expectType, done_eq_false_of_peek h, h, hv]

theorem expectType_eq {ts : List Token} {c : Nat} {a : Token} {ty : TokenType}
    (h : peek ts c = some a) (hv : a.Typ = ty) :
    expectType ts ty c = (.ok a, c + 1) := by
  simp [expectType, done_eq_false_of_peek h, h, hv]

theorem lexed_typ {t : Token} (h : t.lexed = true) :
    (matchRules t.Value.data).1.map (·.Typ) = some t.Typ := by
  simp [Token.lexed] at h
  rw [h]; rfl

theorem value_ne_of_lexed {t : Token} (h : t.lexed = true) (s : String)
    (hs : (matchRules s.data).1.map (·.Typ) ≠ some t.Typ) : t.Value ≠ s := by
  intro e
  apply hs
  rw [← e]; exact lexed_typ h


theorem matchRulesFrom_some {rs : List rule} {cs : List Char} {tok : Token} {ig : Bool}
    (h : matchRulesFrom rs cs = (some tok, ig)) :
    ∃ r ∈ rs, r.Regex cs = tok.Value.data ∧ r.Typ = tok.Typ ∧ tok.Value.data ≠ [] := by
  induction rs with
  | nil => simp [matchRulesFrom] at h
  | cons r rs ih =>
    unfold matchRulesFrom at h
    split at h
    · obtain ⟨r', hr, h'⟩ := ih h
      exact ⟨r', List.mem_cons_of_mem _ hr, h'⟩
    · rename_i m hm
      simp only [Prod.mk.injEq, Option.some.injEq] at h
      refine ⟨r, List.mem_cons_self _ _, ?_, ?_, ?_⟩
      · rw [← h.1]
      · rw [← h.1]
      · rw [← h.1]; exact hm

theorem lexed_regex {t : Token} (h : t.lexed = true) :
    ∃ r ∈ rules, r.Regex t.Value.data = t.Value.data ∧ r.Typ = t.Typ ∧ t.Value.data ≠ [] := by
  simp only [Token.lexed, decide_eq_true_eq, matchRules] at h
  exact @matchRulesFrom_some _ _ { Typ := t.Typ, Value := t.Value } _ h

theorem lexed_integer {t : Token} (h : t.lexed = true) (ht : t.Typ = .Integer) :
    t.Value.data ≠ [] ∧ ∀ c ∈ t.Value.data, c.isDigit = true := by
  obtain ⟨r, hr, h1, h2, h3⟩ := lexed_regex h
  rw [ht] at h2
  simp only [rules, List.mem_cons, List.mem_singleton, List.not_mem_nil, or_false] at hr
  rcases hr with rfl | rfl | rfl | rfl | rfl | rfl | rfl | rfl | rfl | rfl | rfl | rfl <;>
    simp at h2
  refine ⟨h3, ?_⟩
  simp only [matchInteger] at h1
  exact List.takeWhile_eq_self_iff.mp h1

theorem lexed_float {t : Token} (h : t.lexed = true) (ht : t.Typ = .Float) :
    matchFloat t.Value.data = t.Value.data ∧ t.Value.data ≠ [] := by
  obtain ⟨r, hr, h1, h2, h3⟩ := lexed_regex h
  rw [ht] at h2
  simp only [rules, List.mem_cons, List.mem_singleton, List.not_mem_nil, or_false] at hr
  rcases hr with rfl | rfl | rfl | rfl | rfl | rfl | rfl | rfl | rfl | rfl | rfl | rfl <;>
    simp at h2
  exact ⟨h1, h3⟩

theorem lexed_string {t : Token} (h : t.lexed = true) (ht : t.Typ = .String) :
    matchString t.Value.data = t.Value.data ∧ t.Value.data ≠ [] := by
  obtain ⟨r, hr, h1, h2, h3⟩ := lexed_regex h
  rw [ht] at h2
  simp only [rules, List.mem_cons, List.mem_singleton, List.not_mem_nil, or_false] at hr
  rcases hr with rfl | rfl | rfl | rfl | rfl | rfl | rfl | rfl | rfl | rfl | rfl | rfl <;>
    simp at h2
  exact ⟨h1, h3⟩


theorem parseUintLoop_digits (maxVal : Nat) (ds : List Char) (n : Nat)
    (hd : ∀ c ∈ ds, c.isDigit = true)
    (hv : ds.foldl (fun n c => n * 10 + digitValue c) n ≤ maxVal) :
    parseUintLoop maxVal ds n = .ok (ds.foldl (fun n c => n * 10 + digitValue c) n) := by
  induction ds generalizing n with
  | nil => rfl
  | cons c cs ih =>
    have hc : c.isDigit = true := hd c (List.mem_cons_self _ _)
    have hmono : ∀ (l : List Char) (m : Nat), m ≤ l.foldl (fun n c => n * 10 + digitValue c) m := by
      intro l
      induction l with
      | nil => intro m; exact Nat.le_refl _
      | cons d l ihl =>
        intro m
        simp only [List.foldl_cons]
        exact Nat.le_trans (by omega) (ihl (m * 10 + digitValue d))
    simp only [List.foldl_cons] at hv ⊢
    have hle : n * 10 + digitValue c ≤ maxVal := Nat.le_trans (hmono cs _) hv
    simp only [parseUintLoop, hc, if_true]
    rw [if_neg (by omega)]
    exact ih _ (fun d hd' => hd d (List.mem_cons_of_mem _ hd')) hv

theorem isDigit_ne {c : Char} (h : c.isDigit = true) : (c == '+') = false ∧ (c == '-') = false := by
  constructor
  · cases hc : (c == '+')
    · rfl
    · rw [beq_iff_eq] at hc; subst hc; simp at h
  · cases hc : (c == '-')
    · rfl
    · rw [beq_iff_eq] at hc; subst hc; simp at h

theorem ParseInt_digits (s : String) (hne : s.data ≠ [])
    (hd : ∀ c ∈ s.data, c.isDigit = true) (hv : decimalValue s.data < 2 ^ 63) :
    ParseInt s = .ok (decimalValue s.data : Int) := by
  unfold ParseInt
  cases hs : s.data with
  | nil => exact absurd hs hne
  | cons c cs =>
    have hc : c.isDigit = true := hd c (by rw [hs]; exact List.mem_cons_self _ _)
    obtain ⟨h1, h2⟩ := isDigit_ne hc
    have hv' : decimalValue (c :: cs) < 2 ^ 63 := hs ▸ hv
    have hd' : ∀ d ∈ c :: cs, d.isDigit = true := hs ▸ hd
    have hv2 : List.foldl (fun n c => n * 10 + digitValue c) 0 (c :: cs) < 2 ^ 63 := hv'
    have := parseUintLoop_digits (2 ^ 64 - 1) (c :: cs) 0 hd' (by omega)
    simp only [h1, h2, Bool.or_self, Bool.false_eq_true, if_false, this]
    unfold decimalValue
    generalize List.foldl (fun n c => n * 10 + digitValue c) 0 (c :: cs) = v at hv2 ⊢
    simp
    omega


theorem ParseFloat_lexed {t : Token} (h : t.lexed = true) (ht : t.Typ = .Float)
    (hr : t.literalInRange = true) : ParseFloat t.Value = .ok (.lit t.Value) := by
  obtain ⟨h1, h2⟩ := lexed_float h ht
  simp only [Token.literalInRange, ht, decide_eq_true_eq] at hr
  have happ := List.takeWhile_append_dropWhile Char.isDigit t.Value.data
  unfold matchFloat at h1
  unfold ParseFloat
  split at h1
  · exact absurd h1.symm h2
  · rename_i i rest hi hrest
    split at h1
    · exact absurd h1.symm h2
    · rename_i f hf
      rw [hi] at happ
      have hrw : rest.takeWhile Char.isDigit = rest := by
        have := happ.trans h1.symm
        simpa using this.symm
      have hall : ∀ c ∈ rest, c.isDigit = true := List.takeWhile_eq_self_iff.mp hrw
      have hne : rest ≠ [] := by
        intro e; rw [e] at hf; exact hf rfl
      have hfo : floatOverflows (List.takeWhile Char.isDigit t.Value.data) = false := by
        simp [floatOverflows]; exact hr
      simp [hne, hfo]
      exact hall
  · rename_i e1 e2
    exact absurd h1.symm h2

theorem utf8ByteSize_go_ge (cs : List Char) : cs.length ≤ String.utf8ByteSize.go cs := by
  induction cs with
  | nil => simp [String.utf8ByteSize.go]
  | cons c cs ih =>
    simp only [String.utf8ByteSize.go, List.length_cons]
    have := Char.utf8Size_pos c
    omega

theorem lexed_string_size {t : Token} (h : t.lexed = true) (ht : t.Typ = .String) :
    ¬ t.Value.utf8ByteSize < 2 := by
  obtain ⟨h1, h2⟩ := lexed_string h ht
  have hlen : 2 ≤ t.Value.data.length := by
    unfold matchString at h1
    split at h1
    · rename_i rest hd
      split at h1
      · rename_i n hn
        cases rest with
        | nil => simp [matchStringBody] at hn
        | cons d rest => rw [hd]; simp
      · exact absurd h1.symm h2
    · exact absurd h1.symm h2
  have := utf8ByteSize_go_ge t.Value.data
  have e : t.Value.utf8ByteSize = String.utf8ByteSize.go t.Value.data := rfl
  omega


theorem simple_cases {t : Token} (h : t.isSimpleValue = true) :
    t.lexed = true ∧
      (t.Typ = .Identifier ∨ t.Typ = .Integer ∨ t.Typ = .Float ∨ t.Typ = .String) := by
  simp only [Token.isSimpleValue, Bool.and_eq_true, Bool.or_eq_true, beq_iff_eq] at h
  obtain ⟨hl, ((k | k) | k) | k⟩ := h <;> simp [hl, k]

theorem simple_value_ne {t : Token} (h : t.isSimpleValue = true) (s : String)
    (hs : notSimpleText s = true) : t.Value ≠ s := by
  obtain ⟨hl, hk⟩ := simple_cases h
  intro e
  have h1 := lexed_typ hl
  rw [e] at h1
  unfold notSimpleText at hs
  cases hm : (matchRules s.data).1 with
  | none => rw [hm] at h1; simp at h1
  | some tok =>
    rw [hm] at h1 hs
    simp only [Option.map_some', Option.some.injEq] at h1
    simp only [h1] at hs
    rcases hk with k | k | k | k <;> rw [k] at hs <;> simp at hs

theorem leftOp_value_ne {t : Token} (h : t.isLeftOperator = true) (s : String)
    (hs : (matchRules s.data).1.map (·.Typ) ≠ some .LOperator) : t.Value ≠ s := by
  simp only [Token.isLeftOperator, Bool.and_eq_true, beq_iff_eq] at h
  exact value_ne_of_lexed h.1 s (by rw [h.2]; exact hs)

theorem simple_not_terminator {t : Token} (h : t.isSimpleValue = true) :
    isFunctionCallTerminator t = false := by
  have hk := (simple_cases h).2
  have h1 := simple_value_ne h ";" (by decide)
  have h2 := simple_value_ne h ")" (by decide)
  have h3 := simple_value_ne h "]" (by decide)
  have h4 := simple_value_ne h "\x7d" (by decide)
  have h5 := simple_value_ne h ":=" (by decide)
  have h6 := simple_value_ne h "::" (by decide)
  have h7 := simple_value_ne h "<-" (by decide)
  have h8 := simple_value_ne h "->" (by decide)
  have h9 := simple_value_ne h "|>" (by decide)
  have hn : t.Typ ≠ .Newline := by rcases hk with k | k | k | k <;> rw [k] <;> decide
  simp [isFunctionCallTerminator, functionCallTerminators, hn, h1, h2, h3, h4, h5, h6, h7, h8, h9]

theorem parseValue_simple {ts : List Token} {c : Nat} {t : Token} (fuel : Nat) (hf : 2 ≤ fuel)
    (hp : peek ts c = some t) (hs : t.isSimpleValue = true) (hr : t.literalInRange = true) :
    parseValue ts fuel c = (.ok (simpleNode t), c + 1) := by
  obtain ⟨k, rfl⟩ : ∃ k, fuel = k + 1 + 1 := ⟨fuel - 2, by omega⟩
  obtain ⟨hl, hk⟩ := simple_cases hs
  have h1 := simple_value_ne hs "(" (by decide)
  have h2 := simple_value_ne hs "\x7b" (by decide)
  simp only [parseValue, parseParens, parseBlock, expectValue_ne hp h1, expectValue_ne hp h2,
    andThen, orElse]
  rcases hk with k | k | k | k
  · simp [parseIdentifier, expectType_eq hp k, andThen, simpleNode, k]
  · obtain ⟨hne, hd⟩ := lexed_integer hl k
    have hv : decimalValue t.Value.data < 2 ^ 63 := by
      simpa [Token.literalInRange, k] using hr
    simp [parseIdentifier, parseInteger, expectType_eq hp k, expectType_ne .Identifier hp (by rw [k]; decide),
      andThen, simpleNode, k, ParseInt_digits t.Value hne hd hv]
  · simp [parseIdentifier, parseInteger, parseFloat, expectType_eq hp k,
      expectType_ne .Identifier hp (by rw [k]; decide),
      expectType_ne .Integer hp (by rw [k]; decide),
      andThen, simpleNode, k, ParseFloat_lexed hl k hr]
  · simp [parseIdentifier, parseInteger, parseFloat, parseString, expectType_eq hp k,
      expectType_ne .Identifier hp (by rw [k]; decide),
      expectType_ne .Integer hp (by rw [k]; decide),
      expectType_ne .Float hp (by rw [k]; decide),
      andThen, simpleNode, k, lexed_string_size hl k]

theorem parsePropertyOrValue_simple (ts : List Token) {c : Nat} {t : Token} (fuel : Nat)
    (hf : 3 ≤ fuel) (hp : peek ts c = some t) (hs : t.isSimpleValue = true)
    (hr : t.literalInRange = true)
    (hdot : nextIs ts (c + 1) (fun t => t.Value == ".") = false) :
    parsePropertyOrValue ts fuel c = (.ok (simpleNode t), c + 1) := by
  obtain ⟨k, rfl⟩ : ∃ k, fuel = k + 1 + 1 := ⟨fuel - 2, by omega⟩
  simp only [parsePropertyOrValue, parseValue_simple (k + 1) (by omega) hp hs hr, andThen,
    parsePropertyOrValueLoop, hdot]
  simp

theorem nextIs_of_drop {ts : List Token} {c : Nat} {l : List Token} (h : ts.drop c = l)
    (p : Token → Bool) :
    nextIs ts c p = (match l.head? with | some t => p t | none => false) := by
  have := List.head?_drop ts c
  rw [h] at this
  unfold nextIs peek
  rw [← this]

theorem parseLeftBinaryExpression_chain (ts : List Token) (tail : List Token)
    (htail : ∀ t, tail.head? = some t → t.Typ ≠ .LOperator ∧ t.Value ≠ ".")
    (rest : List (Token × Token)) :
    (∀ p ∈ rest, p.1.isLeftOperator = true ∧ p.2.isSimpleValue = true ∧
        p.2.literalInRange = true) →
    ∀ (fuel : Nat) (lhs : Node) (c : Nat), rest.length + 3 ≤ fuel →
      ts.drop c = (rest.flatMap fun p => [p.1, p.2]) ++ tail →
      parseLeftBinaryExpression ts fuel lhs c = (.ok (leftNested lhs rest), c + 2 * rest.length) := by
  induction rest with
  | nil =>
    intro _ fuel lhs c hf hd
    obtain ⟨k, rfl⟩ : ∃ k, fuel = k + 1 := ⟨fuel - 1, by omega⟩
    simp only [List.flatMap_nil, List.nil_append] at hd
    cases tail with
    | nil =>
      simp [parseLeftBinaryExpression, peek_eq_none_of_drop hd, leftNested]
    | cons t tail =>
      have ht := (htail t rfl).1
      simp [parseLeftBinaryExpression, peek_eq_some_of_drop hd, leftNested, ht]
  | cons p more ih =>
    intro hall fuel lhs c hf hd
    obtain ⟨k, rfl⟩ : ∃ k, fuel = k + 1 := ⟨fuel - 1, by omega⟩
    obtain ⟨ho, hv, hr⟩ := hall p (List.mem_cons_self _ _)
    have hmore : ∀ q ∈ more, q.1.isLeftOperator = true ∧ q.2.isSimpleValue = true ∧
        q.2.literalInRange = true := fun q hq => hall q (List.mem_cons_of_mem _ hq)
    simp only [List.flatMap_cons, List.cons_append, List.nil_append] at hd
    have hd1 := drop_succ_of_drop hd
    have hd2 := drop_succ_of_drop hd1
    have hoT : p.1.Typ = .LOperator := by
      simp only [Token.isLeftOperator, Bool.and_eq_true, beq_iff_eq] at ho; exact ho.2
    have hdot : nextIs ts (c + 1 + 1) (fun t => t.Value == ".") = false := by
      rw [nextIs_of_drop hd2]
      cases more with
      | nil =>
        cases tail with
        | nil => rfl
        | cons t tail =>
          have := (htail t rfl).2
          simp [this]
      | cons q more =>
        have hq := (hmore q (List.mem_cons_self _ _)).1
        have := leftOp_value_ne hq "." (by decide)
        simp [this]
    rw [parseLeftBinaryExpression]
    simp only [peek_eq_some_of_drop hd, hoT, beq_self_eq_true, if_true,
      parsePropertyOrValue_simple ts k (by simp at hf; omega) (peek_eq_some_of_drop hd1) hv hr hdot,
      andThen]
    rw [ih hmore k _ (c + 1 + 1) (by simp at hf; omega) hd2]
    simp only [leftNested, List.foldl_cons, binaryNode, List.length_cons]
    congr 1
    omega


theorem chainTokens_length (v0 : Token) (rest : List (Token × Token)) :
    (chainTokens v0 rest).length = 1 + 2 * rest.length := by
  unfold chainTokens
  induction rest with
  | nil => simp
  | cons p more ih =>
    simp only [List.flatMap_cons, List.length_cons, List.cons_append, List.nil_append] at ih ⊢
    omega

theorem ParseExpression_leftChain (v0 : Token) (rest : List (Token × Token))
    (hne : rest ≠ [])
    (hv0 : v0.isSimpleValue = true ∧ v0.literalInRange = true)
    (hall : ∀ p ∈ rest, p.1.isLeftOperator = true ∧ p.2.isSimpleValue = true ∧
        p.2.literalInRange = true) :
    ParseExpression (chainTokens v0 rest) =
      (.ok (leftNested (simpleNode v0) rest), (chainTokens v0 rest).length) := by
  have hlen := chainTokens_length v0 rest
  obtain ⟨p, more, rfl⟩ : ∃ p more, rest = p :: more := by
    cases rest with
    | nil => exact absurd rfl hne
    | cons p more => exact ⟨p, more, rfl⟩
  have hpo := (hall p (List.mem_cons_self _ _)).1
  have hpT : p.1.Typ = .LOperator := by
    simp only [Token.isLeftOperator, Bool.and_eq_true, beq_iff_eq] at hpo; exact hpo.2
  have hd0 : (chainTokens v0 (p :: more)).drop 0 = v0 ::
      (((p :: more).flatMap fun q => [q.1, q.2]) ++ []) := by
    simp [chainTokens]
  have hd1 := drop_succ_of_drop hd0
  have hd0' : (chainTokens v0 (p :: more)).drop 0 = v0 :: p.1 :: p.2 ::
      ((more.flatMap fun q => [q.1, q.2]) ++ []) := by
    simp [chainTokens]
  have hd1' := drop_succ_of_drop hd0'
  have hdot : nextIs (chainTokens v0 (p :: more)) (0 + 1) (fun t => t.Value == ".") = false := by
    rw [nextIs_of_drop hd1']
    simp [leftOp_value_ne hpo "." (by decide)]
  have hlop : nextIs (chainTokens v0 (p :: more)) (0 + 1) (fun t => t.Typ == .LOperator) = true := by
    rw [nextIs_of_drop hd1']
    simp [hpT]
  have hend : (chainTokens v0 (p :: more)).drop (0 + 1 + 2 * (p :: more).length) = [] := by
    apply List.drop_eq_nil_of_le
    omega
  unfold ParseExpression parseFuel
  rw [hlen]
  obtain ⟨F, hF, hF2⟩ : ∃ F, 10 * (1 + 2 * (p :: more).length) + 16 = F + 1 + 1 + 1 ∧
      (p :: more).length + 3 ≤ F := ⟨10 * (1 + 2 * (p :: more).length) + 13, by omega, by omega⟩
  rw [hF, parseExpression, parseRightBinaryExpression, parseIntermediate]
  rw [parsePropertyOrValue_simple _ _ (by omega) (peek_eq_some_of_drop hd0) hv0.1 hv0.2 hdot]
  simp only [andThen, hlop, if_true]
  rw [parseLeftBinaryExpression_chain _ [] (by simp) (p :: more) hall _ _ (0 + 1) hF2 hd1]
  simp only [peek_eq_none_of_drop hend]


theorem ParseExpression_juxtaposition (f x op g y : Token)
    (hf : f.isSimpleValue = true ∧ f.literalInRange = true)
    (hx : x.isSimpleValue = true ∧ x.literalInRange = true)
    (hop : op.isLeftOperator = true)
    (hg : g.isSimpleValue = true ∧ g.literalInRange = true)
    (hy : y.isSimpleValue = true ∧ y.literalInRange = true) :
    ParseExpression [f, x, op, g, y] =
      (.ok (.list .FunctionCall
        [simpleNode f, binaryNode (simpleNode x) op.Value (simpleNode g), simpleNode y]), 5) := by
  have hxT : x.Typ ≠ .LOperator := by
    rcases (simple_cases hx.1).2 with k | k | k | k <;> rw [k] <;> decide
  have hyT : y.Typ ≠ .LOperator := by
    rcases (simple_cases hy.1).2 with k | k | k | k <;> rw [k] <;> decide
  have hxdot := simple_value_ne hx.1 "." (by decide)
  have hydot := simple_value_ne hy.1 "." (by decide)
  have hycomma := simple_value_ne hy.1 "," (by decide)
  have hopdot := leftOp_value_ne hop "." (by decide)
  have hxterm := simple_not_terminator hx.1
  have hyterm := simple_not_terminator hy.1
  have hchain := parseLeftBinaryExpression_chain [f, x, op, g, y] [y]
    (by intro t ht; simp at ht; subst ht; exact ⟨hyT, hydot⟩) [(op, g)]
    (by intro p hp; simp at hp; subst hp; exact ⟨hop, hg.1, hg.2⟩) 62 (simpleNode x) 2
    (by simp) (by simp)
  have hlast := parseLeftBinaryExpression_chain [f, x, op, g, y] [] (by simp) []
    (by simp) 61 (simpleNode y) 5 (by simp) (by simp)
  unfold ParseExpression parseFuel
  simp only [List.length_cons, List.length_nil]
  rw [parseExpression, parseRightBinaryExpression, parseIntermediate]
  rw [parsePropertyOrValue_simple [f, x, op, g, y] (c := 0) (t := f) 63 (by omega) (by simp [peek]) hf.1 hf.2
    (by simp [nextIs, peek, hxdot])]
  simp only [andThen]
  rw [show nextIs [f, x, op, g, y] (0 + 1) (fun t => t.Typ == .LOperator) = false from by
    simp [nextIs, peek, hxT]]
  simp only [Bool.false_eq_true, if_false]
  rw [parseIntermediateLoop]
  rw [show nextIs [f, x, op, g, y] (0 + 1) (fun t => !isFunctionCallTerminator t) = true from by
    simp [nextIs, peek, hxterm]]
  simp only [if_true]
  rw [parsePropertyOrValue_simple [f, x, op, g, y] (c := 0 + 1) (t := x) 62 (by omega) (by simp [peek]) hx.1 hx.2
    (by simp [nextIs, peek, hopdot])]
  simp only [andThen]
  rw [hchain]
  simp only [andThen, leftNested, List.foldl_cons, List.foldl_nil, List.length_cons,
    List.length_nil]
  rw [show nextIs [f, x, op, g, y] (2 + 2 * (0 + 1)) (fun t => t.Value == ",") = false from by
    simp [nextIs, peek, hycomma]]
  simp only [Bool.false_eq_true, if_false]
  rw [parseIntermediateLoop]
  rw [show nextIs [f, x, op, g, y] (2 + 2 * (0 + 1)) (fun t => !isFunctionCallTerminator t) = true from by
    simp [nextIs, peek, hyterm]]
  simp only [if_true]
  rw [parsePropertyOrValue_simple [f, x, op, g, y] (c := 2 + 2 * (0 + 1)) (t := y) 61 (by omega) (by simp [peek]) hy.1 hy.2
    (by simp [nextIs, peek])]
  simp only [andThen]
  rw [hlast]
  simp [andThen, leftNested, parseIntermediateLoop, nextIs, peek]


theorem rightOp_facts {t : Token} (h : t.isRightOperator = true) :
    t.Typ = .ROperator ∧ t.Value ≠ "." ∧ isFunctionCallTerminator t = true := by
  simp only [Token.isRightOperator, Bool.and_eq_true, beq_iff_eq, Bool.or_eq_true] at h
  obtain ⟨h1, h2 | h2⟩ := h <;>
    simp [h1, h2, isFunctionCallTerminator, functionCallTerminators]

theorem parseRightBinaryExpression_chain (ts : List Token) (rest : List (Token × Token)) :
    ∀ (v0 : Token) (fuel c : Nat), v0.isSimpleValue = true → v0.literalInRange = true →
      (∀ p ∈ rest, p.1.isRightOperator = true ∧ p.2.isSimpleValue = true ∧
        p.2.literalInRange = true) →
      rest.length + 5 ≤ fuel → ts.drop c = chainTokens v0 rest →
      parseRightBinaryExpression ts fuel c
        = (.ok (rightNested v0 rest), c + 1 + 2 * rest.length) := by
  induction rest with
  | nil =>
    intro v0 fuel c hs hr _ hf hd
    obtain ⟨F, rfl⟩ : ∃ F, fuel = F + 1 + 1 := ⟨fuel - 2, by omega⟩
    simp only [chainTokens, List.flatMap_nil] at hd
    have hd1 := drop_succ_of_drop hd
    rw [parseRightBinaryExpression, parseIntermediate,
      parsePropertyOrValue_simple ts F (by simp at hf; omega) (peek_eq_some_of_drop hd) hs hr
        (by rw [nextIs_of_drop hd1]; rfl)]
    simp only [andThen]
    rw [nextIs_of_drop hd1]
    simp only [List.head?_nil, Bool.false_eq_true, if_false]
    obtain ⟨G, rfl⟩ : ∃ G, F = G + 1 := ⟨F - 1, by simp at hf; omega⟩
    rw [parseIntermediateLoop, nextIs_of_drop hd1]
    simp [andThen, peek_eq_none_of_drop hd1, rightNested]
  | cons p more ih =>
    intro v0 fuel c hs hr hall hf hd
    obtain ⟨F, rfl⟩ : ∃ F, fuel = F + 1 + 1 := ⟨fuel - 2, by omega⟩
    obtain ⟨ho, hv, hvr⟩ := hall p (List.mem_cons_self _ _)
    obtain ⟨hoT, hodot, hoterm⟩ := rightOp_facts ho
    have hmore : ∀ q ∈ more, q.1.isRightOperator = true ∧ q.2.isSimpleValue = true ∧
        q.2.literalInRange = true := fun q hq => hall q (List.mem_cons_of_mem _ hq)
    have hd' : ts.drop c = v0 :: p.1 :: chainTokens p.2 more := by
      rw [hd]; simp [chainTokens]
    have hd1 := drop_succ_of_drop hd'
    have hd2 := drop_succ_of_drop hd1
    rw [parseRightBinaryExpression, parseIntermediate,
      parsePropertyOrValue_simple ts F (by simp at hf; omega) (peek_eq_some_of_drop hd') hs hr
        (by rw [nextIs_of_drop hd1]; simp [hodot])]
    simp only [andThen]
    rw [nextIs_of_drop hd1]
    simp only [List.head?_cons, hoT, beq_iff_eq, reduceCtorEq, Bool.false_eq_true, if_false]
    obtain ⟨G, rfl⟩ : ∃ G, F = G + 1 := ⟨F - 1, by simp at hf; omega⟩
    rw [parseIntermediateLoop, nextIs_of_drop hd1]
    simp only [List.head?_cons, hoterm, Bool.not_true, Bool.false_eq_true, if_false, andThen,
      List.length_singleton, gt_iff_lt, Nat.lt_irrefl, peek_eq_some_of_drop hd1, hoT,
      beq_self_eq_true, if_true]
    rw [ih p.2 (G + 1 + 1) (c + 1 + 1) hv hvr hmore (by simp at hf; omega) hd2]
    simp only [rightNested, binaryNode, List.length_cons]
    congr 1
    omega

theorem ParseExpression_rightChain (v0 : Token) (rest : List (Token × Token))
    (hv0 : v0.isSimpleValue = true ∧ v0.literalInRange = true)
    (hall : ∀ p ∈ rest, p.1.isRightOperator = true ∧ p.2.isSimpleValue = true ∧
        p.2.literalInRange = true) :
    ParseExpression (chainTokens v0 rest) =
      (.ok (rightNested v0 rest), (chainTokens v0 rest).length) := by
  have hlen := chainTokens_length v0 rest
  unfold ParseExpression parseFuel
  obtain ⟨F, hF, hF2⟩ : ∃ F, 10 * (chainTokens v0 rest).length + 16 = F + 1 ∧
      rest.length + 5 ≤ F := ⟨10 * (chainTokens v0 rest).length + 15, by omega, by omega⟩
  rw [hF, parseExpression,
    parseRightBinaryExpression_chain _ rest v0 F 0 hv0.1 hv0.2 hall hF2 (by simp), hlen]


theorem byteLen_cons (c : Char) (cs : List Char) : byteLen (c :: cs) = byteLen cs + c.utf8Size := rfl

theorem byteLen_nil : byteLen [] = 0 := rfl

theorem byteLen_append (xs ys : List Char) : byteLen (xs ++ ys) = byteLen xs + byteLen ys := by
  induction xs with
  | nil => simp [byteLen_nil]
  | cons c cs ih => simp only [List.cons_append, byteLen_cons, ih]; omega

theorem byteLen_pos {cs : List Char} (h : cs ≠ []) : 0 < byteLen cs := by
  cases cs with
  | nil => exact absurd rfl h
  | cons c cs => rw [byteLen_cons]; have := Char.utf8Size_pos c; omega

theorem sliceFrom_append (pre suf : List Char) : sliceFrom (pre ++ suf) (byteLen pre) = suf := by
  induction pre with
  | nil => cases suf <;> rfl
  | cons c cs ih =>
    have hpos := Char.utf8Size_pos c
    obtain ⟨n, hn⟩ : ∃ n, byteLen (c :: cs) = n + 1 := ⟨byteLen cs + c.utf8Size - 1, by
      rw [byteLen_cons]; omega⟩
    rw [hn, List.cons_append, sliceFrom]
    rw [byteLen_cons] at hn
    have : n + 1 - c.utf8Size = byteLen cs := by omega
    rw [this, ih]

theorem tokenizeLoop_step (source : String) (pre m suf : List Char) (typ : TokenType)
    (ig : Bool) (fuel : Nat) (toks : List Token)
    (hsrc : source.data = pre ++ (m ++ suf)) (hne : m ≠ [])
    (hm : matchRules (m ++ suf) = (some { Typ := typ, Value := String.mk m }, ig)) :
    tokenizeLoop source (fuel + 1) (byteLen pre) toks =
      tokenizeLoop source fuel (byteLen (pre ++ m))
        (if ig then toks else toks ++ [{ Typ := typ, Value := String.mk m }]) := by
  have hsize : source.utf8ByteSize = byteLen (pre ++ (m ++ suf)) := by
    rw [← hsrc]; rfl
  have hlt : byteLen pre < source.utf8ByteSize := by
    rw [hsize, byteLen_append, byteLen_append]
    have := byteLen_pos hne
    omega
  rw [tokenizeLoop]
  simp only [hlt, if_true, hsrc, sliceFrom_append, hm]
  rw [byteLen_append]
  rfl

theorem tokenizeLoop_end (source : String) (fuel : Nat) (toks : List Token) :
    tokenizeLoop source (fuel + 1) (byteLen source.data) toks = .ok toks := by
  rw [tokenizeLoop]
  have : byteLen source.data = source.utf8ByteSize := rfl
  simp [this]


theorem takeWhile_append_run {p : Char → Bool} (ds suf : List Char) (hd : ∀ c ∈ ds, p c = true)
    (hs : ∀ c, suf.head? = some c → p c = false) :
    (ds ++ suf).takeWhile p = ds ∧ (ds ++ suf).dropWhile p = suf := by
  induction ds with
  | nil =>
    cases suf with
    | nil => simp
    | cons c suf =>
      have := hs c rfl
      simp [List.takeWhile, List.dropWhile, this]
  | cons d ds ih =>
    have hd1 := hd d (List.mem_cons_self _ _)
    have := ih (fun c hc => hd c (List.mem_cons_of_mem _ hc))
    simp [List.takeWhile, List.dropWhile, hd1, this]

theorem matchRules_digits (ds suf : List Char) (hne : ds ≠ [])
    (hd : ∀ c ∈ ds, c.isDigit = true)
    (hs : ∀ c, suf.head? = some c → c.isDigit = false ∧ c ≠ '.') :
    matchRules (ds ++ suf) = (some { Typ := .Integer, Value := String.mk ds }, false) := by
  obtain ⟨h1, h2⟩ := takeWhile_append_run ds suf hd (fun c hc => (hs c hc).1)
  have hf : matchFloat (ds ++ suf) = [] := by
    unfold matchFloat
    rw [h1, h2]
    split
    · rfl
    · have := (hs '.' rfl).2
      exact absurd rfl this
    · rfl
  have hi : matchInteger (ds ++ suf) = ds := h1
  cases ds with
  | nil => exact absurd rfl hne
  | cons d ds =>
    simp only [matchRules, rules, matchRulesFrom, hf, hi]

theorem matchRules_space (suf : List Char) (hs : ∀ c, suf.head? = some c → isBlank c = false) :
    matchRules (' ' :: suf) = (some { Typ := .Whitespace, Value := " " }, true) := by
  have hw : matchWhitespace (' ' :: suf) = [' '] := by
    have := (takeWhile_append_run (p := isBlank) [' '] suf (by simp [isBlank]) hs).1
    simpa [matchWhitespace] using this
  simp [matchRules, rules, matchRulesFrom, matchFloat, matchInteger, matchString,
    matchROperator, matchQuote, matchUnquote, matchLOperator, matchPunctuation, matchIdentifier,
    matchNewline, matchComment, hw, List.takeWhile, isOperatorChar, isPunctuationChar, isIdentStart]

theorem matchRules_plus (rest : List Char) :
    matchRules ('+' :: ' ' :: rest) = (some { Typ := .LOperator, Value := "+" }, false) := by
  simp [matchRules, rules, matchRulesFrom, matchFloat, matchInteger, matchString,
    matchROperator, matchQuote, matchUnquote, matchLOperator, List.takeWhile, isOperatorChar]

theorem matchRules_times (rest : List Char) :
    matchRules ('*' :: ' ' :: rest) = (some { Typ := .LOperator, Value := "*" }, false) := by
  simp [matchRules, rules, matchRulesFrom, matchFloat, matchInteger, matchString,
    matchROperator, matchQuote, matchUnquote, matchLOperator, List.takeWhile, isOperatorChar]


theorem isDigit_facts {c : Char} (h : c.isDigit = true) :
    isBlank c = false ∧ c ≠ '.' ∧ c ≠ ' ' := by
  refine ⟨?_, ?_, ?_⟩
  · cases hb : isBlank c
    · rfl
    · simp only [isBlank, Bool.or_eq_true, beq_iff_eq] at hb
      rcases hb with rfl | rfl <;> simp at h
  · rintro rfl; simp at h
  · rintro rfl; simp at h

theorem Tokenize_arith (a b c : List Char)
    (ha : a ≠ [] ∧ ∀ ch ∈ a, ch.isDigit = true)
    (hb : b ≠ [] ∧ ∀ ch ∈ b, ch.isDigit = true)
    (hc : c ≠ [] ∧ ∀ ch ∈ c, ch.isDigit = true) :
    Tokenize (String.mk (a ++ " + ".data ++ b ++ " * ".data ++ c)) =
      .ok [{ Typ := .Integer, Value := String.mk a }, { Typ := .LOperator, Value := "+" },
           { Typ := .Integer, Value := String.mk b }, { Typ := .LOperator, Value := "*" },
           { Typ := .Integer, Value := String.mk c }] := by
  have e1 : " + ".data = [' ', '+', ' '] := rfl
  have e2 : " * ".data = [' ', '*', ' '] := rfl
  rw [e1, e2]
  obtain ⟨b0, bs, rfl⟩ : ∃ b0 bs, b = b0 :: bs := by
    cases b with
    | nil => exact absurd rfl hb.1
    | cons x xs => exact ⟨x, xs, rfl⟩
  obtain ⟨c0, cs, rfl⟩ : ∃ c0 cs, c = c0 :: cs := by
    cases c with
    | nil => exact absurd rfl hc.1
    | cons x xs => exact ⟨x, xs, rfl⟩
  have hb0 := isDigit_facts (hb.2 b0 (List.mem_cons_self _ _))
  have hc0 := isDigit_facts (hc.2 c0 (List.mem_cons_self _ _))
  generalize hsrc : String.mk (a ++ [' ', '+', ' '] ++ b0 :: bs ++ [' ', '*', ' '] ++ c0 :: cs) = src
  have hdata : src.data = a ++ [' ', '+', ' '] ++ b0 :: bs ++ [' ', '*', ' '] ++ c0 :: cs := by
    rw [← hsrc]
  have hsize : src.utf8ByteSize = byteLen src.data := rfl
  obtain ⟨F, hF⟩ : ∃ F, src.utf8ByteSize + 1 = F + 1 + 1 + 1 + 1 + 1 + 1 + 1 + 1 + 1 + 1 := by
    refine ⟨src.utf8ByteSize - 9, ?_⟩
    have p1 := byteLen_pos ha.1
    have p2 := byteLen_pos hb.1
    have p3 := byteLen_pos hc.1
    rw [hsize, hdata]
    simp only [byteLen_append, byteLen_cons, byteLen_nil] at p1 p2 p3 ⊢
    have s1 := Char.utf8Size_pos ' '
    have s2 := Char.utf8Size_pos '+'
    have s3 := Char.utf8Size_pos '*'
    omega
  unfold Tokenize
  rw [hF, show (0 : Nat) = byteLen [] from rfl]
  rw [tokenizeLoop_step src [] a (' ' :: '+' :: ' ' :: b0 :: bs ++ [' ', '*', ' '] ++ c0 :: cs)
    .Integer false _ _ (by rw [hdata]; simp) ha.1
    (matchRules_digits a _ ha.1 ha.2 (by intro ch hch; simp at hch; subst hch; decide))]
  rw [tokenizeLoop_step src ([] ++ a) [' '] ('+' :: ' ' :: b0 :: bs ++ [' ', '*', ' '] ++ c0 :: cs)
    .Whitespace true _ _ (by rw [hdata]; simp) (by simp)
    (matchRules_space _ (by intro ch hch; simp at hch; subst hch; decide))]
  rw [tokenizeLoop_step src ([] ++ a ++ [' ']) ['+'] (' ' :: b0 :: bs ++ [' ', '*', ' '] ++ c0 :: cs)
    .LOperator false _ _ (by rw [hdata]; simp) (by simp) (matchRules_plus _)]
  rw [tokenizeLoop_step src ([] ++ a ++ [' '] ++ ['+']) [' '] (b0 :: bs ++ [' ', '*', ' '] ++ c0 :: cs)
    .Whitespace true _ _ (by rw [hdata]; simp) (by simp)
    (matchRules_space _ (by intro ch hch; simp at hch; subst hch; exact hb0.1))]
  rw [tokenizeLoop_step src ([] ++ a ++ [' '] ++ ['+'] ++ [' ']) (b0 :: bs) (' ' :: '*' :: ' ' :: c0 :: cs)
    .Integer false _ _ (by rw [hdata]; simp) (by simp)
    (matchRules_digits _ _ hb.1 hb.2 (by intro ch hch; simp at hch; subst hch; decide))]
  rw [tokenizeLoop_step src ([] ++ a ++ [' '] ++ ['+'] ++ [' '] ++ b0 :: bs) [' '] ('*' :: ' ' :: c0 :: cs)
    .Whitespace true _ _ (by rw [hdata]; simp) (by simp)
    (matchRules_space _ (by intro ch hch; simp at hch; subst hch; decide))]
  rw [tokenizeLoop_step src ([] ++ a ++ [' '] ++ ['+'] ++ [' '] ++ b0 :: bs ++ [' ']) ['*'] (' ' :: c0 :: cs)
    .LOperator false _ _ (by rw [hdata]; simp) (by simp) (matchRules_times _)]
  rw [tokenizeLoop_step src ([] ++ a ++ [' '] ++ ['+'] ++ [' '] ++ b0 :: bs ++ [' '] ++ ['*']) [' '] (c0 :: cs)
    .Whitespace true _ _ (by rw [hdata]; simp) (by simp)
    (matchRules_space _ (by intro ch hch; simp at hch; subst hch; exact hc0.1))]
  rw [tokenizeLoop_step src ([] ++ a ++ [' '] ++ ['+'] ++ [' '] ++ b0 :: bs ++ [' '] ++ ['*'] ++ [' ']) (c0 :: cs) []
    .Integer false _ _ (by rw [hdata]; simp) (by simp)
    (by have := matchRules_digits _ [] hc.1 hc.2 (by simp); simpa using this)]
  have hfin : [] ++ a ++ [' '] ++ ['+'] ++ [' '] ++ b0 :: bs ++ [' '] ++ ['*'] ++ [' '] ++ c0 :: cs
      = src.data := by rw [hdata]; simp
  rw [hfin, tokenizeLoop_end]
  rfl


theorem lexed_digits (ds : List Char) (hne : ds ≠ []) (hd : ∀ c ∈ ds, c.isDigit = true) :
    Token.lexed ⟨.Integer, String.mk ds, 0⟩ = true := by
  have := matchRules_digits ds [] hne hd (by simp)
  simp only [List.append_nil] at this
  simp [Token.lexed, this]

theorem eval_arith (x y z : Int) (w : World) :
    eval (binaryNode (binaryNode (.leaf .Integer (.int64 x)) "+" (.leaf .Integer (.int64 y))) "*"
        (.leaf .Integer (.int64 z))) w =
      (.ok (.int64 (wrapInt64 (wrapInt64 (x + y) * z))), w) := by
  simp [binaryNode, eval, evalLeaf, evalThen, Node.MetadataValue, applyOperator, Payload.toValue]

theorem arith_pipeline (a b c : List Char)
    (ha : a ≠ [] ∧ (∀ ch ∈ a, ch.isDigit = true) ∧ decimalValue a < 2 ^ 63)
    (hb : b ≠ [] ∧ (∀ ch ∈ b, ch.isDigit = true) ∧ decimalValue b < 2 ^ 63)
    (hc : c ≠ [] ∧ (∀ ch ∈ c, ch.isDigit = true) ∧ decimalValue c < 2 ^ 63) :
    Tokenize (String.mk (a ++ " + ".data ++ b ++ " * ".data ++ c)) =
      .ok [⟨.Integer, String.mk a, 0⟩, ⟨.LOperator, "+", 0⟩, ⟨.Integer, String.mk b, 0⟩,
        ⟨.LOperator, "*", 0⟩, ⟨.Integer, String.mk c, 0⟩] ∧
    ParseExpression [⟨.Integer, String.mk a, 0⟩, ⟨.LOperator, "+", 0⟩,
        ⟨.Integer, String.mk b, 0⟩, ⟨.LOperator, "*", 0⟩, ⟨.Integer, String.mk c, 0⟩] =
      (.ok (binaryNode (binaryNode (.leaf .Integer (.int64 (decimalValue a))) "+"
        (.leaf .Integer (.int64 (decimalValue b)))) "*"
        (.leaf .Integer (.int64 (decimalValue c)))), 5) ∧
    Evaluate (binaryNode (binaryNode (.leaf .Integer (.int64 (decimalValue a))) "+"
        (.leaf .Integer (.int64 (decimalValue b)))) "*"
        (.leaf .Integer (.int64 (decimalValue c)))) =
      (.ok (.int64 (wrapInt64 (wrapInt64 (decimalValue a + decimalValue b) * decimalValue c))),
        { ctx := NewRootContext }) := by
  refine ⟨Tokenize_arith a b c ⟨ha.1, ha.2.1⟩ ⟨hb.1, hb.2.1⟩ ⟨hc.1, hc.2.1⟩, ?_, ?_⟩
  · have hsa : Token.isSimpleValue ⟨.Integer, String.mk a, 0⟩ = true := by
      simp [Token.isSimpleValue, lexed_digits a ha.1 ha.2.1]
    have hsb : Token.isSimpleValue ⟨.Integer, String.mk b, 0⟩ = true := by
      simp [Token.isSimpleValue, lexed_digits b hb.1 hb.2.1]
    have hsc : Token.isSimpleValue ⟨.Integer, String.mk c, 0⟩ = true := by
      simp [Token.isSimpleValue, lexed_digits c hc.1 hc.2.1]
    have hra : Token.literalInRange ⟨.Integer, String.mk a, 0⟩ = true := by
      simp [Token.literalInRange]; exact ha.2.2
    have hrb : Token.literalInRange ⟨.Integer, String.mk b, 0⟩ = true := by
      simp [Token.literalInRange]; exact hb.2.2
    have hrc : Token.literalInRange ⟨.Integer, String.mk c, 0⟩ = true := by
      simp [Token.literalInRange]; exact hc.2.2
    have hplus : Token.isLeftOperator ⟨.LOperator, "+", 0⟩ = true := by decide
    have htimes : Token.isLeftOperator ⟨.LOperator, "*", 0⟩ = true := by decide
    have := ParseExpression_leftChain ⟨.Integer, String.mk a, 0⟩
      [(⟨.LOperator, "+", 0⟩, ⟨.Integer, String.mk b, 0⟩),
       (⟨.LOperator, "*", 0⟩, ⟨.Integer, String.mk c, 0⟩)]
      (by simp) ⟨hsa, hra⟩
      (by
        intro p hp
        simp only [List.mem_cons, List.mem_singleton, List.not_mem_nil, or_false] at hp
        rcases hp with rfl | rfl
        · exact ⟨hplus, hsb, hrb⟩
        · exact ⟨htimes, hsc, hrc⟩)
    exact this
  · exact eval_arith _ _ _ _

theorem evalThen_ok (r : EvalResult Value × World) :
    evalThen r (fun v w => (.ok v, w)) = r := by
  obtain ⟨res, w⟩ := r
  cases res <;> rfl

theorem evalThen_mk_ok {α β : Type} (a : α) (w : World)
    (k : α → World → EvalResult β × World) : evalThen (.ok a, w) k = k a w := rfl

theorem eval_and (l r : Node) (w w1 : World) (v : Value) (hl : eval l w = (.ok v, w1)) :
    eval (binaryNode l "&&" r) w = if isTruthy v then eval r w1 else (.ok v, w1) := by
  simp only [binaryNode, eval, Node.MetadataValue]
  simp only [hl, evalThen_mk_ok, evalThen_ok]
  cases isTruthy v <;> simp

theorem eval_or (l r : Node) (w w1 : World) (v : Value) (hl : eval l w = (.ok v, w1)) :
    eval (binaryNode l "||" r) w = if isTruthy v then (.ok v, w1) else eval r w1 := by
  simp only [binaryNode, eval, Node.MetadataValue]
  simp only [hl, evalThen_mk_ok, evalThen_ok]
  cases isTruthy v <;> simp

theorem isTruthy_eq_false_iff (v : Value) : isTruthy v = false ↔ v = .bool false ∨ v = .nil := by
  cases v <;> simp [isTruthy]


theorem Bindings.get_set_self (m : Bindings) (name : String) (value : Value) :
    (m.set name value).get name = some value := by
  induction m with
  | nil => simp [Bindings.set, Bindings.get, List.lookup]
  | cons p rest ih =>
    obtain ⟨k, v⟩ := p
    unfold Bindings.set
    split
    · simp [Bindings.get, List.lookup]
    · rename_i hk
      have : (name == k) = false := by
        simp only [beq_eq_false_iff_ne, ne_eq]; exact fun e => hk e.symm
      simp only [Bindings.get, List.lookup, this] at ih ⊢
      exact ih

theorem Bindings.get_set_other (m : Bindings) (name other : String) (value : Value)
    (h : other ≠ name) : (m.set name value).get other = m.get other := by
  induction m with
  | nil =>
    have : (other == name) = false := by simpa using h
    simp [Bindings.set, Bindings.get, List.lookup, this]
  | cons p rest ih =>
    obtain ⟨k, v⟩ := p
    unfold Bindings.set
    split
    · rename_i hk
      subst hk
      have : (other == k) = false := by simpa using h
      simp [Bindings.get, List.lookup, this]
    · simp only [Bindings.get, List.lookup] at ih ⊢
      cases (other == k)
      · exact ih
      · rfl

theorem Context.setAt_mapAt (ctx : Context) :
    ∀ (k : Nat) (name : String) (value : Value) (ctx2 : Context),
      ctx.setAt k name value = some ctx2 →
      (∃ b, ctx.mapAt k = some b ∧ ctx2.mapAt k = some (b.set name value)) ∧
      (∀ j, ctx2.mapAt j = ctx.mapAt j ∨
        ctx2.mapAt j = (ctx.mapAt j).map fun b => b.set name value) ∧
      ∀ other, other ≠ name →
        ctx2.frames.map (fun b => b.get other) = ctx.frames.map (fun b => b.get other) := by
  induction ctx with
  | root b =>
    intro k name value ctx2 h
    cases k with
    | zero =>
      simp only [Context.setAt, Option.some.injEq] at h
      subst h
      refine ⟨⟨b, rfl, rfl⟩, ?_, ?_⟩
      · intro j
        cases j with
        | zero => right; rfl
        | succ j => left; rfl
      · intro other ho
        simp [Context.frames, Bindings.get_set_other _ _ _ _ ho]
    | succ k => simp [Context.setAt] at h
  | child parent b ih =>
    intro k name value ctx2 h
    cases k with
    | zero =>
      simp only [Context.setAt, Option.some.injEq] at h
      subst h
      refine ⟨⟨b, rfl, rfl⟩, ?_, ?_⟩
      · intro j
        cases j with
        | zero => right; rfl
        | succ j => left; rfl
      · intro other ho
        simp [Context.frames, Bindings.get_set_other _ _ _ _ ho]
    | succ k =>
      simp only [Context.setAt, Option.map_eq_some'] at h
      obtain ⟨p, hp, rfl⟩ := h
      obtain ⟨h1, h2, h3⟩ := ih k name value p hp
      refine ⟨h1, ?_, ?_⟩
      · intro j
        cases j with
        | zero => left; rfl
        | succ j => exact h2 j
      · intro other ho
        simp [Context.frames, h3 other ho]
  | rootNil => intro k name value ctx2 h; simp [Context.setAt] at h
  | childNil parent ih =>
    intro k name value ctx2 h
    cases k with
    | zero => simp [Context.setAt] at h
    | succ k =>
      simp only [Context.setAt, Option.map_eq_some'] at h
      obtain ⟨p, hp, rfl⟩ := h
      obtain ⟨h1, h2, h3⟩ := ih k name value p hp
      refine ⟨h1, ?_, ?_⟩
      · intro j
        cases j with
        | zero => left; rfl
        | succ j => exact h2 j
      · intro other ho
        simp [Context.frames, h3 other ho]
  | childShared parent i ih =>
    intro k name value ctx2 h
    have hfr : ∀ (p : Context) (q : Nat), parent.setAt q name value = some p →
        ∀ other, other ≠ name →
          (Context.childShared p i).frames.map (fun b => b.get other) =
            (Context.childShared parent i).frames.map (fun b => b.get other) := by
      intro p q hp other ho
      obtain ⟨_, h2, h3⟩ := ih q name value p hp
      simp only [Context.frames, List.map_cons, h3 other ho, List.cons.injEq, and_true]
      rcases h2 i with e | e
      · rw [e]
      · rw [e]
        cases parent.mapAt i with
        | none => rfl
        | some b => simp [Bindings.get_set_other _ _ _ _ ho]
    cases k with
    | zero =>
      simp only [Context.setAt, Option.map_eq_some'] at h
      obtain ⟨p, hp, rfl⟩ := h
      obtain ⟨h1, h2, h3⟩ := ih i name value p hp
      refine ⟨h1, ?_, hfr p i hp⟩
      intro j
      cases j with
      | zero => exact h2 i
      | succ j => exact h2 j
    | succ k =>
      simp only [Context.setAt, Option.map_eq_some'] at h
      obtain ⟨p, hp, rfl⟩ := h
      obtain ⟨h1, h2, h3⟩ := ih k name value p hp
      refine ⟨h1, ?_, hfr p k hp⟩
      intro j
      cases j with
      | zero => exact h2 i
      | succ j => exact h2 j

theorem Context.setAt_eq_none (ctx : Context) :
    ∀ (k : Nat) (name : String) (value : Value),
      ctx.setAt k name value = none ↔ ctx.mapAt k = none := by
  induction ctx with
  | root b => intro k name value; cases k <;> simp [Context.setAt, Context.mapAt]
  | child parent b ih =>
    intro k name value
    cases k with
    | zero => simp [Context.setAt, Context.mapAt]
    | succ k => simp [Context.setAt, Context.mapAt, ih]
  | rootNil => intro k name value; simp [Context.setAt, Context.mapAt]
  | childNil parent ih =>
    intro k name value
    cases k with
    | zero => simp [Context.setAt, Context.mapAt]
    | succ k => simp [Context.setAt, Context.mapAt, ih]
  | childShared parent i ih =>
    intro k name value
    cases k with
    | zero => simp [Context.setAt, Context.mapAt, ih]
    | succ k => simp [Context.setAt, Context.mapAt, ih]

theorem Context.GetKey_of_mapAt (ctx : Context) (name : String) (value : Value)
    (b : Ergolas.Bindings)
    (hm : ctx.mapAt 0 = some b) (hb : b.get name = some value) :
    ctx.GetKey name = .ok value := by
  cases ctx with
  | root b0 =>
    simp only [Context.mapAt, Option.some.injEq] at hm
    subst hm
    simp [Context.GetKey, hb]
  | child parent b0 =>
    simp only [Context.mapAt, Option.some.injEq] at hm
    subst hm
    simp [Context.GetKey, hb]
  | rootNil => simp [Context.mapAt] at hm
  | childNil parent => simp [Context.mapAt] at hm
  | childShared parent k =>
    simp only [Context.mapAt] at hm
    simp [Context.GetKey, hm, hb]

theorem Context.GetKey_setBinding (ctx ctx2 : Context) (name : String) (value : Value)
    (h : ctx.setBinding name value = some ctx2) : ctx2.GetKey name = .ok value := by
  obtain ⟨⟨b, _, hb⟩, _, _⟩ := Context.setAt_mapAt ctx 0 name value ctx2 h
  exact Context.GetKey_of_mapAt ctx2 name value _ hb (Bindings.get_set_self _ _ _)

theorem eval_assign (n : String) (r : Node) (w w1 : World) (v : Value) (ctx : Context)
    (hr : eval r w = (.ok v, w1)) (hs : w1.ctx.setBinding n v = some ctx) :
    eval (binaryNode (.leaf .Identifier (.string n)) ":=" r) w =
      (.ok .nil, { w1 with ctx := ctx }) := by
  simp only [binaryNode, eval, Node.MetadataValue, Node.Typ]
  simp [hr, evalThen_mk_ok, hs]

theorem eval_assign_nil (n : String) (r : Node) (w w1 : World) (v : Value)
    (hr : eval r w = (.ok v, w1)) (hs : w1.ctx.setBinding n v = none) :
    eval (binaryNode (.leaf .Identifier (.string n)) ":=" r) w = (.panic .nilMap, w1) := by
  simp only [binaryNode, eval, Node.MetadataValue, Node.Typ]
  simp [hr, evalThen_mk_ok, hs]

theorem Context.GetKey_frames (ctx : Context) (name : String) :
    ctx.GetKey name =
      match ctx.frames.findSome? (fun b => b.get name) with
      | some value => .ok value
      | none => .error (.unboundVariable name) := by
  induction ctx with
  | root b =>
    simp only [Context.GetKey, Context.frames, List.findSome?]
    cases b.get name <;> rfl
  | child parent b ih =>
    simp only [Context.GetKey, Context.frames, List.findSome?]
    cases b.get name
    · exact ih
    · rfl
  | rootNil => simp [Context.GetKey, Context.frames, List.findSome?, Bindings.get]
  | childNil parent ih =>
    simp only [Context.GetKey, Context.frames, List.findSome?]
    exact ih
  | childShared parent k ih =>
    simp only [Context.GetKey, Context.frames, List.findSome?]
    cases parent.mapAt k with
    | none => simpa [Bindings.get] using ih
    | some b =>
      cases hb : b.get name with
      | none => simpa [hb] using ih
      | some value => simp [hb]

theorem eval_call_notCallable (callee : Node) (args : List Node) (w w1 : World) (v : Value)
    (hc : eval callee w = (.ok v, w1)) (hv : ∀ fn, v ≠ .func fn) :
    eval (.list .FunctionCall (callee :: args)) w =
      evalThen (evalArgs args [] w1) fun _ w2 => (.error (.notAFunction v), w2) := by
  simp only [eval, hc, evalThen_mk_ok]

theorem applyOperator_unsupported (op : String) (vLhs vRhs : Value)
    (hop : op = "+" ∨ op = "-" ∨ op = "*" ∨ op = "/" ∨ op = "%")
    (hint : ¬ (vLhs.goType = .int64 ∧ vRhs.goType = .int64))
    (hfloat : ¬ (vLhs.goType = .float64 ∧ vRhs.goType = .float64))
    (hstr : ¬ (op = "+" ∧ vLhs.goType = .string ∧ vRhs.goType = .string)) :
    applyOperator op vLhs vRhs = .error (.cannotApplyOperator op vLhs.goType vRhs.goType) := by
  rcases hop with rfl | rfl | rfl | rfl | rfl <;>
    cases vLhs <;> cases vRhs <;>
      simp [applyOperator, Value.goType] at hint hfloat hstr ⊢

theorem wrapInt64_of_range (i : Int) (h : -2 ^ 63 ≤ i ∧ i < 2 ^ 63) : wrapInt64 i = i := by
  unfold wrapInt64
  omega

theorem wrapInt64_congr (i j k : Int) (h : i = j + k * 2 ^ 64) : wrapInt64 i = wrapInt64 j := by
  unfold wrapInt64
  omega

theorem tmod_bounds (a b : Int) : -(a.natAbs : Int) ≤ Int.tmod a b ∧ Int.tmod a b ≤ a.natAbs := by
  rcases a with m | m <;> rcases b with n | n
  · show -((m : Int).natAbs : Int) ≤ ((m % n : Nat) : Int) ∧ ((m % n : Nat) : Int) ≤ ((m : Int).natAbs : Int)
    have := Nat.mod_le m n
    simp only [Int.natAbs_ofNat]
    omega
  · show -((m : Int).natAbs : Int) ≤ ((m % (n + 1) : Nat) : Int) ∧ ((m % (n + 1) : Nat) : Int) ≤ ((m : Int).natAbs : Int)
    have := Nat.mod_le m (n + 1)
    simp only [Int.natAbs_ofNat]
    omega
  · show -((Int.negSucc m).natAbs : Int) ≤ -(((m + 1) % n : Nat) : Int) ∧ -(((m + 1) % n : Nat) : Int) ≤ ((Int.negSucc m).natAbs : Int)
    have := Nat.mod_le (m + 1) n
    simp only [Int.natAbs_negSucc]
    omega
  · show -((Int.negSucc m).natAbs : Int) ≤ -(((m + 1) % (n + 1) : Nat) : Int) ∧ -(((m + 1) % (n + 1) : Nat) : Int) ≤ ((Int.negSucc m).natAbs : Int)
    have := Nat.mod_le (m + 1) (n + 1)
    simp only [Int.natAbs_negSucc]
    omega

theorem tdiv_range (a b : Int) (ha : -2 ^ 63 ≤ a ∧ a < 2 ^ 63) (hb : b ≠ 0)
    (hne : ¬ (a = -2 ^ 63 ∧ b = -1)) : -2 ^ 63 ≤ Int.tdiv a b ∧ Int.tdiv a b < 2 ^ 63 := by
  have h1 : ((Int.tdiv a b).natAbs : Int) ≤ a.natAbs := by
    rw [Int.natAbs_tdiv]
    have : (a.natAbs).div b.natAbs ≤ a.natAbs := Nat.div_le_self _ _
    omega
  by_cases hmin : a = -2 ^ 63
  · subst hmin
    by_cases hpos : 0 < b
    · have h2 : Int.tdiv (-2 ^ 63) b = -(Int.tdiv (2 ^ 63) b) := Int.neg_tdiv _ _
      have h3 : 0 ≤ Int.tdiv (2 ^ 63) b := Int.tdiv_nonneg (by omega) (by omega)
      omega
    · have hb2 : 2 ≤ b.natAbs := by omega
      have h4 : ((Int.tdiv (-2 ^ 63) b).natAbs : Int) ≤ 2 ^ 62 := by
        rw [Int.natAbs_tdiv]
        have e : (-2 ^ 63 : Int).natAbs = 2 ^ 63 := by decide
        rw [e]
        have : (2 ^ 63 : Nat).div b.natAbs ≤ 2 ^ 63 / 2 := Nat.div_le_div_left hb2 (by decide)
        have e2 : (2 ^ 63 : Nat) / 2 = 2 ^ 62 := by decide
        have e3 : (2 ^ 63 : Nat).div b.natAbs = 2 ^ 63 / b.natAbs := rfl
        omega
      omega
  · omega

theorem tmod_range (a b : Int) (ha : -2 ^ 63 ≤ a ∧ a < 2 ^ 63) :
    -2 ^ 63 ≤ Int.tmod a b ∧ Int.tmod a b < 2 ^ 63 := by
  have := tmod_bounds a b
  by_cases hmin : a = -2 ^ 63
  · subst hmin
    have e : ((-2 ^ 63 : Int).natAbs : Int) = 2 ^ 63 := by decide
    rw [e] at this
    have hz : Int.tmod (-2 ^ 63) b = -(Int.tmod (2 ^ 63) b) := by
      rw [Int.tmod_def, Int.tmod_def, show (-2 ^ 63 : Int) = -(2 ^ 63) from rfl, Int.neg_tdiv]
      ring
    have hn : 0 ≤ Int.tmod (2 ^ 63) b := Int.tmod_nonneg b (by decide)
    omega
  · omega

theorem wrapInt64_quotient_identity (a b : Int) (ha : -2 ^ 63 ≤ a ∧ a < 2 ^ 63) :
    wrapInt64 (wrapInt64 (Int.tdiv a b) * b + Int.tmod a b) = a := by
  have hq := Int.tdiv_add_tmod' a b
  obtain ⟨k, hk⟩ : ∃ k : Int, wrapInt64 (Int.tdiv a b) = Int.tdiv a b + k * 2 ^ 64 := by
    refine ⟨-((Int.tdiv a b + 2 ^ 63) / 2 ^ 64), ?_⟩
    unfold wrapInt64
    omega
  rw [wrapInt64_congr _ a (k * b) (by rw [hk]; linear_combination hq), wrapInt64_of_range a ha]

theorem eval_binary_operator (l r : Node) (op : String) (w w1 w2 : World) (vLhs vRhs : Value)
    (hop : op ≠ ":=" ∧ op ≠ "&&" ∧ op ≠ "||")
    (hl : eval l w = (.ok vLhs, w1)) (hr : eval r w1 = (.ok vRhs, w2)) :
    eval (binaryNode l op r) w = (applyOperator op vLhs vRhs, w2) := by
  simp only [binaryNode, eval, Node.MetadataValue]
  simp [hop.1, hop.2.1, hop.2.2, hl, hr, evalThen_mk_ok]

theorem parseStatementsLoop_stop (ts : List Token) (fuel : Nat) :
    ∀ (statements : List Node) (c : Nat) (res : List Node) (c2 : Nat),
      parseStatementsLoop ts fuel statements c = (.ok res, c2) →
      nextIs ts c2 (fun t => t.Value != "\x7d") = false := by
  induction fuel with
  | zero => intro statements c res c2 h; simp [parseStatementsLoop] at h
  | succ fuel ih =>
    intro statements c res c2 h
    rw [parseStatementsLoop] at h
    split at h
    · generalize parseExpression ts fuel c = r at h
      obtain ⟨x, c1⟩ := r
      cases x with
      | ok stmt => exact ih _ _ _ _ h
      | error e => simp [andThen] at h
      | panic p => simp [andThen] at h
      | outOfFuel => simp [andThen] at h
    · rename_i hn
      simp only [Prod.mk.injEq, ParseResult.ok.injEq] at h
      rw [← h.2]
      simpa using hn

theorem Parse_ok_stops (ts : List Token) (node : Node) (c : Nat) (h : Parse ts = (.ok node, c)) :
    done ts c = true ∨ ∃ t, peek ts c = some t ∧ t.Value = "\x7d" := by
  unfold Parse parse at h
  generalize hf : parseFuel ts = fuel at h
  cases fuel with
  | zero => simp [parseStatements, andThen] at h
  | succ fuel =>
    rw [parseStatements] at h
    generalize hr : parseStatementsLoop ts fuel [] (advanceLines ts 0) = r at h
    obtain ⟨x, c1⟩ := r
    cases x with
    | ok res =>
      simp only [andThen, Prod.mk.injEq, ParseResult.ok.injEq] at h
      have := parseStatementsLoop_stop ts fuel _ _ _ _ hr
      rw [h.2] at this
      unfold nextIs at this
      cases hp : peek ts c with
      | none =>
        left
        simp only [peek] at hp
        simp [done]
        exact List.getElem?_eq_none_iff.mp hp
      | some t =>
        right
        rw [hp] at this
        exact ⟨t, rfl, by simpa using this⟩
    | error e => simp [andThen] at h
    | panic p => simp [andThen] at h
    | outOfFuel => simp [andThen] at h

theorem evalThen_ctx {α β : Type} (r : EvalResult α × World)
    (k : α → World → EvalResult β × World) (c : Context)
    (hr : r.2.ctx = c) (hk : ∀ a w, w.ctx = c → (k a w).2.ctx = c) :
    (evalThen r k).2.ctx = c := by
  obtain ⟨x, w⟩ := r
  cases x with
  | ok a => exact hk a w hr
  | error e => exact hr
  | panic p => exact hr
  | exit code => exact hr

theorem callBuiltin_ctx (fn : Builtin) (args : List Value) (w : World) :
    (callBuiltin fn args w).2.ctx = w.ctx := by
  cases fn
  · simp only [callBuiltin]
    split
    · rfl
    · split <;> rfl
  · rfl

theorem evalLeaf_ctx (typ : NodeType) (value : Payload) (w : World) :
    (evalLeaf typ value w).2.ctx = w.ctx := by
  unfold evalLeaf
  cases typ <;> try rfl
  cases value <;> rfl

theorem keepsFrames_all (n : Node) : KeepsFrames n := by
  refine Node.rec (motive_1 := KeepsFrames) (motive_2 := KeepFrames) ?_ ?_ ?_ ?_ n
  · intro typ children ih hc w
    simp only [containsAssign, Bool.or_eq_false_iff, Bool.and_eq_false_iff] at hc
    obtain ⟨hmem, hprog, hexpr, _, hargs⟩ := ih hc.2
    cases typ <;> try (simp [eval]; done)
    · simp only [eval]; exact hprog w
    · simp only [eval]; exact hexpr _ w
    · cases children with
      | nil => simp [eval]
      | cons callee args =>
        simp only [eval]
        have hcal := hmem callee (List.mem_cons_self _ _)
        have hc2 := hc.2
        simp only [containsAssignList, Bool.or_eq_false_iff] at hc2
        apply evalThen_ctx _ _ _ (hcal hc2.1 w)
        intro vCallee w1 hw1
        apply evalThen_ctx _ _ _ ((hargs [] w1).trans hw1)
        intro vArgs w2 hw2
        cases vCallee <;> first | exact hw2 | exact (callBuiltin_ctx _ _ _).trans hw2
    · have hop : hasAssignOperator children = false := by
        rcases hc.1 with h | h
        · simp at h
        · exact h
      match children, hmem, hop with
      | [], _, _ => simp [eval]
      | [_], _, _ => simp [eval]
      | lhs :: opNode :: rest, hmem, hop =>
        have hc2 := hc.2
        simp only [eval]
        split
        · rename_i op hopv
          have hne : op ≠ ":=" := by
            intro e
            subst e
            simp [hasAssignOperator, hopv] at hop
          match rest, hmem with
          | [], _ => rfl
          | rhs :: _, hmem =>
            have hl := hmem lhs (by simp)
            have hr := hmem rhs (by simp)
            simp only [containsAssignList, Bool.or_eq_false_iff] at hc2
            obtain ⟨hcl, _, hcr, _⟩ := hc2
            simp only [hne, if_false]
            by_cases h1 : op = "&&"
            · simp only [h1, if_true]
              apply evalThen_ctx _ _ _ (hl hcl w)
              intro vLhs w1 hw1
              split
              · exact hw1
              · apply evalThen_ctx _ _ _ ((hr hcr w1).trans hw1)
                intro _ w2 hw2
                exact hw2
            · simp only [h1, if_false]
              by_cases h2 : op = "||"
              · simp only [h2, if_true]
                apply evalThen_ctx _ _ _ (hl hcl w)
                intro vLhs w1 hw1
                split
                · exact hw1
                · apply evalThen_ctx _ _ _ ((hr hcr w1).trans hw1)
                  intro _ w2 hw2
                  exact hw2
              · simp only [h2, if_false]
                apply evalThen_ctx _ _ _ (hl hcl w)
                intro vLhs w1 hw1
                apply evalThen_ctx _ _ _ ((hr hcr w1).trans hw1)
                intro _ w2 hw2
                exact hw2
        · rfl
    · cases children with
      | nil => simp [eval]
      | cons inner rest =>
        simp only [eval]
        have hc2 := hc.2
        simp only [containsAssignList, Bool.or_eq_false_iff] at hc2
        exact hmem inner (List.mem_cons_self _ _) hc2.1 w
  · intro typ value hc w
    simp only [eval]
    exact evalLeaf_ctx typ value w
  · intro _
    exact ⟨by simp, fun w => rfl, fun v w => rfl, fun vs w => rfl, fun vs w => rfl⟩
  · intro head tail ihh iht hc
    simp only [containsAssignList, Bool.or_eq_false_iff] at hc
    obtain ⟨hmem, hprog, hexpr, hargs, _⟩ := iht hc.2
    refine ⟨?_, ?_, ?_, ?_, hargs⟩
    · intro n hn
      rcases List.mem_cons.mp hn with rfl | hn
      · exact ihh
      · exact hmem n hn
    · intro w
      simp only [evalProgram]
      apply evalThen_ctx _ _ _ (ihh hc.1 w)
      intro _ w1 hw1
      rw [hprog w1, hw1]
    · intro v w
      simp only [evalExpressions]
      apply evalThen_ctx _ _ _ (ihh hc.1 w)
      intro _ w1 hw1
      rw [hexpr _ w1, hw1]
    · intro vs w
      simp only [evalArgs]
      apply evalThen_ctx _ _ _ (ihh hc.1 w)
      intro _ w1 hw1
      rw [hargs _ w1, hw1]

theorem regex_splits (r : rule) (hr : r ∈ rules) (cs : List Char) :
    ∃ rest, cs = r.Regex cs ++ rest := by
  simp only [rules, List.mem_cons, List.mem_singleton, List.not_mem_nil, or_false] at hr
  rcases hr with rfl | rfl | rfl | rfl | rfl | rfl | rfl | rfl | rfl | rfl | rfl | rfl
  · show ∃ rest, cs = matchFloat cs ++ rest
    unfold matchFloat
    split
    · exact ⟨cs, rfl⟩
    · rename_i i rest hi hrest
      split
      · exact ⟨cs, rfl⟩
      · refine ⟨rest.dropWhile Char.isDigit, ?_⟩
        have h1 := List.takeWhile_append_dropWhile Char.isDigit cs
        have h2 := List.takeWhile_append_dropWhile Char.isDigit rest
        rw [hi] at h1
        rw [List.append_assoc, List.cons_append, h2]
        exact h1.symm
    · exact ⟨cs, rfl⟩
  · exact ⟨cs.dropWhile Char.isDigit, (List.takeWhile_append_dropWhile _ _).symm⟩
  · show ∃ rest, cs = matchString cs ++ rest
    unfold matchString
    split
    · split
      · rename_i n _
        exact ⟨_, (List.take_append_drop (n + 1) _).symm⟩
      · exact ⟨_, rfl⟩
    · exact ⟨cs, rfl⟩
  · show ∃ rest, cs = matchROperator cs ++ rest
    unfold matchROperator
    split
    · exact ⟨_, rfl⟩
    · exact ⟨_, rfl⟩
    · exact ⟨cs, rfl⟩
  · show ∃ rest, cs = matchQuote cs ++ rest
    unfold matchQuote
    split
    · exact ⟨_, rfl⟩
    · exact ⟨cs, rfl⟩
  · show ∃ rest, cs = matchUnquote cs ++ rest
    unfold matchUnquote
    split
    · exact ⟨_, rfl⟩
    · exact ⟨cs, rfl⟩
  · exact ⟨cs.dropWhile isOperatorChar, (List.takeWhile_append_dropWhile _ _).symm⟩
  · show ∃ rest, cs = matchPunctuation cs ++ rest
    unfold matchPunctuation
    split
    · split
      · exact ⟨_, rfl⟩
      · exact ⟨_, rfl⟩
    · exact ⟨_, rfl⟩
  · show ∃ rest, cs = matchIdentifier cs ++ rest
    unfold matchIdentifier
    split
    · rename_i c rest
      split
      · exact ⟨rest.dropWhile isIdentChar, by
          rw [List.cons_append, List.takeWhile_append_dropWhile]⟩
      · exact ⟨_, rfl⟩
    · exact ⟨_, rfl⟩
  · show ∃ rest, cs = matchNewline cs ++ rest
    unfold matchNewline
    split
    · rename_i rest
      exact ⟨rest.dropWhile isRegexSpace, by
        rw [List.cons_append, List.takeWhile_append_dropWhile]⟩
    · exact ⟨cs, rfl⟩
  · show ∃ rest, cs = matchComment cs ++ rest
    unfold matchComment
    split
    · rename_i rest
      exact ⟨rest.dropWhile (· != '\n'), by
        rw [List.cons_append, List.takeWhile_append_dropWhile]⟩
    · exact ⟨cs, rfl⟩
  · exact ⟨cs.dropWhile isBlank, (List.takeWhile_append_dropWhile _ _).symm⟩

theorem matchRules_splits {cs : List Char} {t : Token} {ig : Bool}
    (h : matchRules cs = (some t, ig)) :
    t.Value.data ≠ [] ∧ ∃ rest, cs = t.Value.data ++ rest := by
  obtain ⟨r, hr, h1, _, h3⟩ := matchRulesFrom_some h
  obtain ⟨rest, hrest⟩ := regex_splits r hr cs
  rw [h1] at hrest
  exact ⟨h3, rest, hrest⟩

theorem byteLen_ge_length (cs : List Char) : cs.length ≤ byteLen cs := utf8ByteSize_go_ge cs

theorem tokenizeLoop_scan (source : String) (n : Nat) :
    ∀ (pre rest : List Char) (toks : List Token) (fT fS : Nat),
      source.data = pre ++ rest → rest.length ≤ n → rest.length + 1 ≤ fT →
      rest.length + 1 ≤ fS →
      (∀ k, firstUnmatched fS rest (byteLen pre) = some k →
        tokenizeLoop source fT (byteLen pre) toks =
          .error { Location := k, Message := "unexpected character" } ∧
        k < source.utf8ByteSize) ∧
      (firstUnmatched fS rest (byteLen pre) = none →
        ∃ out, tokenizeLoop source fT (byteLen pre) toks = .ok out) := by
  induction n with
  | zero =>
    intro pre rest toks fT fS hsrc hlen hfT hfS
    have hrest : rest = [] := List.length_eq_zero.mp (by omega)
    subst hrest
    obtain ⟨fT, rfl⟩ : ∃ f, fT = f + 1 := ⟨fT - 1, by omega⟩
    obtain ⟨fS, rfl⟩ : ∃ f, fS = f + 1 := ⟨fS - 1, by omega⟩
    have hpre : pre = source.data := by simpa using hsrc.symm
    subst hpre
    constructor
    · intro k hk; simp [firstUnmatched] at hk
    · intro _; exact ⟨toks, tokenizeLoop_end source fT toks⟩
  | succ n ih =>
    intro pre rest toks fT fS hsrc hlen hfT hfS
    obtain ⟨fT, rfl⟩ : ∃ f, fT = f + 1 := ⟨fT - 1, by omega⟩
    obtain ⟨fS, rfl⟩ : ∃ f, fS = f + 1 := ⟨fS - 1, by omega⟩
    cases rest with
    | nil =>
      have hpre : pre = source.data := by simpa using hsrc.symm
      subst hpre
      constructor
      · intro k hk; simp [firstUnmatched] at hk
      · intro _; exact ⟨toks, tokenizeLoop_end source fT toks⟩
    | cons c cs =>
      have hsize : source.utf8ByteSize = byteLen (pre ++ c :: cs) := by rw [← hsrc]; rfl
      have hlt : byteLen pre < source.utf8ByteSize := by
        rw [hsize, byteLen_append]
        have := byteLen_pos (List.cons_ne_nil c cs)
        omega
      rw [tokenizeLoop, firstUnmatched]
      simp only [hlt, if_true, hsrc, sliceFrom_append]
      cases hm : matchRules (c :: cs) with
      | mk ot ig =>
        cases ot with
        | none =>
          constructor
          · intro k hk
            simp only [Option.some.injEq] at hk
            subst hk
            exact ⟨rfl, hlt⟩
          · intro hk; simp at hk
        | some t =>
          obtain ⟨hne, rest2, hsplit⟩ := matchRules_splits hm
          have hdrop : (c :: cs).drop t.Value.length = rest2 := by
            rw [hsplit]
            exact List.drop_left _ _
          have hlen2 : rest2.length < (c :: cs).length := by
            rw [hsplit, List.length_append]
            have := List.length_pos.mpr hne
            omega
          have hcur : byteLen pre + t.Value.utf8ByteSize = byteLen (pre ++ t.Value.data) := by
            rw [byteLen_append]; rfl
          simp only [hdrop, hcur]
          exact ih (pre ++ t.Value.data) rest2 _ fT fS
            (by rw [hsrc, hsplit, List.append_assoc]) (by simp at hlen2 hlen; omega)
            (by simp at hlen2 hfT; omega) (by simp at hlen2 hfS; omega)

theorem newline_facts {t : Token} (h : t.isNewline = true) :
    t.Typ = .Newline ∧ t.Value ≠ "(" ∧ t.Value ≠ ")" ∧ t.Value ≠ "\x7b" ∧ t.Value ≠ "\x7d" ∧
      t.Value ≠ "." ∧ t.Value ≠ "," ∧ t.Value ≠ ";" ∧ isFunctionCallTerminator t = true := by
  simp only [Token.isNewline, Bool.and_eq_true, beq_iff_eq] at h
  obtain ⟨hl, ht⟩ := h
  have hv : ∀ s : String, (matchRules s.data).1.map (·.Typ) ≠ some .Newline → t.Value ≠ s :=
    fun s hs => value_ne_of_lexed hl s (by rw [ht]; exact hs)
  refine ⟨ht, hv _ (by decide), hv _ (by decide), hv _ (by decide), hv _ (by decide),
    hv _ (by decide), hv _ (by decide), hv _ (by decide), ?_⟩
  simp [isFunctionCallTerminator, ht]

theorem closeBrace_facts {t : Token} (h : t.isCloseBrace = true) :
    t.Typ = .Punctuation ∧ t.Value = "\x7d" ∧ isFunctionCallTerminator t = true := by
  simp only [Token.isCloseBrace, Bool.and_eq_true, beq_iff_eq] at h
  refine ⟨h.1, h.2, ?_⟩
  simp [isFunctionCallTerminator, functionCallTerminators, h.2]

theorem openBrace_facts {t : Token} (h : t.isOpenBrace = true) :
    t.Typ = .Punctuation ∧ t.Value = "\x7b" := by
  simpa [Token.isOpenBrace] using h

theorem relOut_andThen {α β : Type} {ts ts2 : List Token}
    {pMid pOk pErr : List Token → List Token → Prop}
    {x x2 : ParseResult α × Nat} {k k2 : α → Nat → ParseResult β × Nat}
    (hx : RelOut ts ts2 pMid pErr x x2)
    (hk : ∀ a c c2, pMid (ts.drop c) (ts2.drop c2) → RelOut ts ts2 pOk pErr (k a c) (k2 a c2)) :
    RelOut ts ts2 pOk pErr (andThen x k) (andThen x2 k2) := by
  obtain ⟨r, c⟩ := x
  cases r with
  | ok a =>
    obtain ⟨c2, rfl, hm⟩ := hx
    exact hk a c c2 hm
  | error e =>
    obtain ⟨e2, c2, rfl, hm⟩ := hx
    exact ⟨e2, c2, rfl, hm⟩
  | panic p => trivial
  | outOfFuel => trivial

theorem relOut_orElse {α : Type} {ts ts2 : List Token}
    {pMid pOk pErr : List Token → List Token → Prop}
    {x x2 : ParseResult α × Nat} {k k2 : Nat → ParseResult α × Nat}
    (hx : RelOut ts ts2 pOk pMid x x2)
    (hk : ∀ c c2, pMid (ts.drop c) (ts2.drop c2) → RelOut ts ts2 pOk pErr (k c) (k2 c2)) :
    RelOut ts ts2 pOk pErr (orElse x k) (orElse x2 k2) := by
  obtain ⟨r, c⟩ := x
  cases r with
  | ok a =>
    obtain ⟨c2, rfl, hm⟩ := hx
    exact ⟨c2, rfl, hm⟩
  | error e =>
    obtain ⟨e2, c2, rfl, hm⟩ := hx
    exact hk c c2 hm
  | panic p => trivial
  | outOfFuel => trivial

theorem peek_eq_head (ts : List Token) (c : Nat) : peek ts c = (ts.drop c).head? := by
  rw [List.head?_drop]; rfl

theorem done_eq_isEmpty (ts : List Token) (c : Nat) : done ts c = (ts.drop c).isEmpty := by
  unfold done
  cases h : ts.drop c with
  | nil =>
    have := List.drop_eq_nil_iff.mp h
    simp [this]
  | cons t s =>
    have : c < ts.length := by
      rcases Nat.lt_or_ge c ts.length with h1 | h1
      · exact h1
      · rw [List.drop_eq_nil_of_le h1] at h; cases h
    simp; omega

theorem drop_succ_eq_tail (ts : List Token) (c : Nat) : ts.drop (c + 1) = (ts.drop c).tail := by
  rw [← List.drop_one, List.drop_drop, Nat.add_comm]

theorem expectValue_view (ts : List Token) (v : String) (c : Nat) :
    expectValue ts v c =
      match ts.drop c with
      | [] => (.error (.expectedValueEof v), c)
      | t :: _ => if t.Value != v then (.error (.expectedValue v t.Value), c) else (.ok (), c + 1) := by
  unfold expectValue
  rw [done_eq_isEmpty, peek_eq_head]
  cases ts.drop c <;> simp

theorem expectType_view (ts : List Token) (ty : TokenType) (c : Nat) :
    expectType ts ty c =
      match ts.drop c with
      | [] => (.error (.expectedTypeEof ty), c)
      | t :: _ => if t.Typ != ty then (.error (.expectedType ty t.Typ), c) else (.ok t, c + 1) := by
  unfold expectType
  rw [done_eq_isEmpty, peek_eq_head]
  cases ts.drop c <;> simp

theorem nextIs_view (ts : List Token) (c : Nat) (p : Token → Bool) :
    nextIs ts c p = match ts.drop c with | [] => false | t :: _ => p t := by
  unfold nextIs
  rw [peek_eq_head]
  cases ts.drop c <;> rfl

theorem headView_of_inside {s s2 : List Token} (h : NewlinesInside s s2) : HeadView s s2 := by
  cases h with
  | atEnd _ hn =>
    match s2, hn with
    | [], _ => exact .bothEnd
    | n :: r, hn => exact .endNewline n r (hn n (List.mem_cons_self _ _))
  | keep t h => exact .same _ _ _
  | afterOpen t nls ho hn h => exact .same _ _ _
  | beforeClose t nls hc hn h =>
    cases nls with
    | nil => exact .same _ _ _
    | cons n r => exact .closeNewline t n _ _ hc (hn n (List.mem_cons_self _ _))

theorem nextIs_sim {ts ts2 : List Token} {c c2 : Nat} (p : Token → Bool)
    (hnl : ∀ t, t.isNewline = true → p t = false)
    (hcl : ∀ t, t.isCloseBrace = true → p t = false)
    (h : NewlinesInside (ts.drop c) (ts2.drop c2)) : nextIs ts c p = nextIs ts2 c2 p := by
  rw [nextIs_view, nextIs_view]
  generalize ts.drop c = s at h
  generalize ts2.drop c2 = s2 at h
  cases headView_of_inside h with
  | bothEnd => rfl
  | endNewline n r hn => simp [hnl n hn]
  | same t s r => rfl
  | closeNewline t n s r ht hn => simp [hnl n hn, hcl t ht]

theorem inside_tail {t : Token} {s s2 : List Token} (h : NewlinesInside (t :: s) s2)
    (ho : t.isOpenBrace = false) (hc : t.isCloseBrace = false) :
    ∃ r, s2 = t :: r ∧ NewlinesInside s r := by
  cases h with
  | keep t h => exact ⟨_, rfl, h⟩
  | afterOpen t nls ho2 hn h => rw [ho2] at ho; cases ho
  | beforeClose t nls hc2 hn h => rw [hc2] at hc; cases hc

theorem advance_sim {ts ts2 : List Token} {c c2 : Nat} {t : Token}
    (h : NewlinesInside (ts.drop c) (ts2.drop c2)) (hp : peek ts c = some t)
    (ho : t.isOpenBrace = false) (hc : t.isCloseBrace = false) :
    peek ts2 c2 = some t ∧ NewlinesInside (ts.drop (c + 1)) (ts2.drop (c2 + 1)) := by
  rw [peek_eq_head] at hp
  rw [peek_eq_head, drop_succ_eq_tail, drop_succ_eq_tail]
  cases hs : ts.drop c with
  | nil => rw [hs] at hp; cases hp
  | cons t0 s =>
    rw [hs] at hp h
    simp only [List.head?_cons, Option.some.injEq] at hp
    subst hp
    obtain ⟨r, hr, hin⟩ := inside_tail h ho hc
    rw [hr]
    exact ⟨rfl, hin⟩

theorem dropNewlines_cons_pos (t : Token) (s : List Token) (h : t.Typ = .Newline) :
    (t :: s).dropWhile (fun t => t.Typ == .Newline) = s.dropWhile (fun t => t.Typ == .Newline) := by
  simp [List.dropWhile, h]

theorem dropNewlines_cons_neg (t : Token) (s : List Token) (h : t.Typ ≠ .Newline) :
    (t :: s).dropWhile (fun t => t.Typ == .Newline) = t :: s := by
  have hb : (t.Typ == TokenType.Newline) = false := by simpa using h
  simp [List.dropWhile, hb]

theorem drop_advanceLines (ts : List Token) (c : Nat) :
    ts.drop (advanceLines ts c) = (ts.drop c).dropWhile (fun t => t.Typ == .Newline) := by
  unfold advanceLines
  have key : ∀ (s : List Token) (c : Nat), ts.drop c = s →
      ts.drop (skipNewlines s c) = s.dropWhile (fun t => t.Typ == .Newline) := by
    intro s
    induction s with
    | nil => intro c h; simpa [skipNewlines] using h
    | cons t s ih =>
      intro c h
      have ht : ts.drop (c + 1) = s := by rw [drop_succ_eq_tail, h]; rfl
      by_cases hn : t.Typ = TokenType.Newline
      · rw [dropNewlines_cons_pos t s hn]
        simp only [skipNewlines, hn, beq_self_eq_true, if_true]
        exact ih (c + 1) ht
      · rw [dropNewlines_cons_neg t s hn]
        simp only [skipNewlines, beq_iff_eq, hn, if_false]
        exact h
  exact key _ c rfl

theorem dropWhile_newlines (nls rest : List Token) (h : ∀ n ∈ nls, n.isNewline = true) :
    (nls ++ rest).dropWhile (fun t => t.Typ == .Newline) =
      rest.dropWhile (fun t => t.Typ == .Newline) := by
  induction nls with
  | nil => rfl
  | cons n r ih =>
    have hn := (newline_facts (h n (List.mem_cons_self _ _))).1
    rw [List.cons_append, dropNewlines_cons_pos _ _ hn]
    exact ih (fun m hm => h m (List.mem_cons_of_mem _ hm))

theorem headNotNewline_dropWhile (s : List Token) :
    HeadNotNewline (s.dropWhile (fun t => t.Typ == .Newline)) := by
  intro t ht
  have := List.head?_dropWhile_not (fun t => t.Typ == TokenType.Newline) s
  rw [ht] at this
  simpa using this

theorem inside_dropWhile {s s2 : List Token} (h : NewlinesInside s s2) :
    NewlinesInside (s.dropWhile (fun t => t.Typ == .Newline))
      (s2.dropWhile (fun t => t.Typ == .Newline)) := by
  induction h with
  | atEnd nls hn =>
    have := dropWhile_newlines nls [] hn
    rw [List.append_nil] at this
    rw [this]
    exact .atEnd [] (by simp)
  | keep t h ih =>
    by_cases hn : t.Typ = TokenType.Newline
    · rw [dropNewlines_cons_pos _ _ hn, dropNewlines_cons_pos _ _ hn]; exact ih
    · rw [dropNewlines_cons_neg _ _ hn, dropNewlines_cons_neg _ _ hn]; exact .keep t h
  | afterOpen t nls ho hn h ih =>
    have hn2 : t.Typ ≠ TokenType.Newline := by
      rw [(openBrace_facts ho).1]; decide
    rw [dropNewlines_cons_neg _ _ hn2, dropNewlines_cons_neg _ _ hn2]
    exact .afterOpen t nls ho hn h
  | beforeClose t nls hc hn h ih =>
    have hn2 : t.Typ ≠ TokenType.Newline := by
      rw [(closeBrace_facts hc).1]; decide
    rw [dropNewlines_cons_neg _ _ hn2, dropWhile_newlines nls _ hn,
      dropNewlines_cons_neg _ _ hn2]
    exact .beforeClose t [] hc (by simp) h

theorem advanceLines_sim {ts ts2 : List Token} {c c2 : Nat}
    (h : NewlinesInserted (ts.drop c) (ts2.drop c2)) :
    NewlinesInside (ts.drop (advanceLines ts c)) (ts2.drop (advanceLines ts2 c2)) ∧
      HeadNotNewline (ts2.drop (advanceLines ts2 c2)) := by
  rw [drop_advanceLines, drop_advanceLines]
  refine ⟨?_, headNotNewline_dropWhile _⟩
  obtain ⟨nls, rest, h2, hn, hin⟩ := h
  rw [h2, dropWhile_newlines nls rest hn]
  exact inside_dropWhile hin

theorem inserted_of_inside {s s2 : List Token} (h : NewlinesInside s s2) :
    NewlinesInserted s s2 :=
  ⟨[], s2, rfl, by simp, h⟩

theorem inside_tail_open {t : Token} {s s2 : List Token} (h : NewlinesInside (t :: s) s2)
    (hc : t.isCloseBrace = false) : ∃ r, s2 = t :: r ∧ NewlinesInserted s r := by
  cases h with
  | keep t h => exact ⟨_, rfl, inserted_of_inside h⟩
  | afterOpen t nls ho hn h => exact ⟨_, rfl, nls, _, rfl, hn, h⟩
  | beforeClose t nls hc2 hn h => rw [hc2] at hc; cases hc

theorem inside_tail_close {t : Token} {s s2 : List Token} (h : NewlinesInside (t :: s) s2)
    (ho : t.isOpenBrace = false) (hh : HeadNotNewline s2) :
    ∃ r, s2 = t :: r ∧ NewlinesInside s r := by
  cases h with
  | keep t h => exact ⟨_, rfl, h⟩
  | afterOpen t nls ho2 hn h => rw [ho2] at ho; cases ho
  | beforeClose t nls hc hn h =>
    cases nls with
    | nil => exact ⟨_, rfl, h⟩
    | cons n r =>
      exact absurd (newline_facts (hn n (List.mem_cons_self _ _))).1 (hh n rfl)

theorem not_openBrace_of_value {t : Token} (h : t.Value ≠ "\x7b") : t.isOpenBrace = false := by
  simp [Token.isOpenBrace, h]

theorem not_closeBrace_of_value {t : Token} (h : t.Value ≠ "\x7d") : t.isCloseBrace = false := by
  simp [Token.isCloseBrace, h]

theorem not_openBrace_of_typ {t : Token} (h : t.Typ ≠ .Punctuation) : t.isOpenBrace = false := by
  simp [Token.isOpenBrace, h]

theorem not_closeBrace_of_typ {t : Token} (h : t.Typ ≠ .Punctuation) : t.isCloseBrace = false := by
  simp [Token.isCloseBrace, h]

/-- The simulation of `expectValue` for a text other than the two braces. -/
theorem expectValue_sim {ts ts2 : List Token} {c c2 : Nat} (v : String)
    (hnl : ∀ t : Token, t.isNewline = true → t.Value ≠ v) (hv1 : v ≠ "\x7b") (hv2 : v ≠ "\x7d")
    (h : NewlinesInside (ts.drop c) (ts2.drop c2)) :
    RelOut ts ts2 NewlinesInside NewlinesInside (expectValue ts v c) (expectValue ts2 v c2) := by
  rw [expectValue_view, expectValue_view]
  have hsucc := drop_succ_eq_tail ts c
  have hsucc2 := drop_succ_eq_tail ts2 c2
  generalize hs : ts.drop c = s at h hsucc ⊢
  generalize hs2 : ts2.drop c2 = s2 at h hsucc2 ⊢
  cases headView_of_inside h with
  | bothEnd => exact ⟨_, _, rfl, by rw [hs, hs2]; exact h⟩
  | endNewline n r hn =>
    have := hnl n hn
    simp only [bne_iff_ne, ne_eq, this, not_false_eq_true, if_true]
    exact ⟨_, _, rfl, by rw [hs, hs2]; exact h⟩
  | same t s r =>
    by_cases hval : t.Value = v
    · simp only [bne_iff_ne, ne_eq, hval, not_true_eq_false, if_false]
      refine ⟨_, rfl, ?_⟩
      obtain ⟨r2, hr, hin⟩ := inside_tail h (not_openBrace_of_value (hval ▸ hv1))
        (not_closeBrace_of_value (hval ▸ hv2))
      rw [hsucc, hsucc2]
      cases hr
      exact hin
    · simp only [bne_iff_ne, ne_eq, hval, not_false_eq_true, if_true]
      exact ⟨_, _, rfl, by rw [hs, hs2]; exact h⟩
  | closeNewline t n s r ht hn =>
    have h1 : t.Value ≠ v := by rw [(closeBrace_facts ht).2.1]; exact fun e => hv2 e.symm
    have := hnl n hn
    simp only [bne_iff_ne, ne_eq, this, h1, not_false_eq_true, if_true]
    exact ⟨_, _, rfl, by rw [hs, hs2]; exact h⟩

/-- The simulation of `expectValue` for the opening brace: newlines may follow it. -/
theorem expectOpen_sim {ts ts2 : List Token} {c c2 : Nat}
    (h : NewlinesInside (ts.drop c) (ts2.drop c2)) :
    RelOut ts ts2 NewlinesInserted NewlinesInside
      (expectValue ts "\x7b" c) (expectValue ts2 "\x7b" c2) := by
  rw [expectValue_view, expectValue_view]
  have hsucc := drop_succ_eq_tail ts c
  have hsucc2 := drop_succ_eq_tail ts2 c2
  generalize hs : ts.drop c = s at h hsucc ⊢
  generalize hs2 : ts2.drop c2 = s2 at h hsucc2 ⊢
  cases headView_of_inside h with
  | bothEnd => exact ⟨_, _, rfl, by rw [hs, hs2]; exact h⟩
  | endNewline n r hn =>
    have := (newline_facts hn).2.2.2.1
    simp only [bne_iff_ne, ne_eq, this, not_false_eq_true, if_true]
    exact ⟨_, _, rfl, by rw [hs, hs2]; exact h⟩
  | same t s r =>
    by_cases hval : t.Value = "\x7b"
    · simp only [bne_iff_ne, ne_eq, hval, not_true_eq_false, if_false]
      refine ⟨_, rfl, ?_⟩
      obtain ⟨r2, hr, hin⟩ := inside_tail_open h
        (not_closeBrace_of_value (by rw [hval]; decide))
      rw [hsucc, hsucc2]
      cases hr
      exact hin
    · simp only [bne_iff_ne, ne_eq, hval, not_false_eq_true, if_true]
      exact ⟨_, _, rfl, by rw [hs, hs2]; exact h⟩
  | closeNewline t n s r ht hn =>
    have h1 : t.Value ≠ "\x7b" := by rw [(closeBrace_facts ht).2.1]; decide
    have := (newline_facts hn).2.2.2.1
    simp only [bne_iff_ne, ne_eq, this, h1, not_false_eq_true, if_true]
    exact ⟨_, _, rfl, by rw [hs, hs2]; exact h⟩

/-- The simulation of `expectValue` for the closing brace, once the newlines before
it are skipped. -/
theorem expectClose_sim {ts ts2 : List Token} {c c2 : Nat}
    (h : NewlinesInside (ts.drop c) (ts2.drop c2)) (hh : HeadNotNewline (ts2.drop c2)) :
    RelOut ts ts2 NewlinesInside NewlinesInside
      (expectValue ts "\x7d" c) (expectValue ts2 "\x7d" c2) := by
  rw [expectValue_view, expectValue_view]
  have hsucc := drop_succ_eq_tail ts c
  have hsucc2 := drop_succ_eq_tail ts2 c2
  generalize hs : ts.drop c = s at h hsucc ⊢
  generalize hs2 : ts2.drop c2 = s2 at h hh hsucc2 ⊢
  cases headView_of_inside h with
  | bothEnd => exact ⟨_, _, rfl, by rw [hs, hs2]; exact h⟩
  | endNewline n r hn => exact absurd (newline_facts hn).1 (hh n rfl)
  | same t s r =>
    by_cases hval : t.Value = "\x7d"
    · simp only [bne_iff_ne, ne_eq, hval, not_true_eq_false, if_false]
      refine ⟨_, rfl, ?_⟩
      obtain ⟨r2, hr, hin⟩ := inside_tail_close h
        (not_openBrace_of_value (by rw [hval]; decide)) hh
      rw [hsucc, hsucc2]
      cases hr
      exact hin
    · simp only [bne_iff_ne, ne_eq, hval, not_false_eq_true, if_true]
      exact ⟨_, _, rfl, by rw [hs, hs2]; exact h⟩
  | closeNewline t n s r ht hn => exact absurd (newline_facts hn).1 (hh n rfl)

/-- The simulation of `expectType` for a type other than newline and punctuation. -/
theorem expectType_sim {ts ts2 : List Token} {c c2 : Nat} (ty : TokenType)
    (hty1 : ty ≠ .Newline) (hty2 : ty ≠ .Punctuation)
    (h : NewlinesInside (ts.drop c) (ts2.drop c2)) :
    RelOut ts ts2 NewlinesInside NewlinesInside (expectType ts ty c) (expectType ts2 ty c2) := by
  rw [expectType_view, expectType_view]
  have hsucc := drop_succ_eq_tail ts c
  have hsucc2 := drop_succ_eq_tail ts2 c2
  generalize hs : ts.drop c = s at h hsucc ⊢
  generalize hs2 : ts2.drop c2 = s2 at h hsucc2 ⊢
  cases headView_of_inside h with
  | bothEnd => exact ⟨_, _, rfl, by rw [hs, hs2]; exact h⟩
  | endNewline n r hn =>
    have : n.Typ ≠ ty := by rw [(newline_facts hn).1]; exact fun e => hty1 e.symm
    simp only [bne_iff_ne, ne_eq, this, not_false_eq_true, if_true]
    exact ⟨_, _, rfl, by rw [hs, hs2]; exact h⟩
  | same t s r =>
    by_cases hval : t.Typ = ty
    · simp only [bne_iff_ne, ne_eq, hval, not_true_eq_false, if_false]
      refine ⟨_, rfl, ?_⟩
      obtain ⟨r2, hr, hin⟩ := inside_tail h (not_openBrace_of_typ (hval ▸ hty2))
        (not_closeBrace_of_typ (hval ▸ hty2))
      rw [hsucc, hsucc2]
      cases hr
      exact hin
    · simp only [bne_iff_ne, ne_eq, hval, not_false_eq_true, if_true]
      exact ⟨_, _, rfl, by rw [hs, hs2]; exact h⟩
  | closeNewline t n s r ht hn =>
    have h1 : t.Typ ≠ ty := by rw [(closeBrace_facts ht).1]; exact fun e => hty2 e.symm
    have : n.Typ ≠ ty := by rw [(newline_facts hn).1]; exact fun e => hty1 e.symm
    simp only [bne_iff_ne, ne_eq, this, h1, not_false_eq_true, if_true]
    exact ⟨_, _, rfl, by rw [hs, hs2]; exact h⟩

/-- The guard of the statement loop reads the same on both sides once the newlines
are skipped. -/
theorem nextIs_notClose_sim {ts ts2 : List Token} {c c2 : Nat}
    (h : NewlinesInside (ts.drop c) (ts2.drop c2)) (hh : HeadNotNewline (ts2.drop c2)) :
    nextIs ts c (fun t => t.Value != "\x7d") = nextIs ts2 c2 (fun t => t.Value != "\x7d") := by
  rw [nextIs_view, nextIs_view]
  generalize ts.drop c = s at h
  generalize ts2.drop c2 = s2 at h hh
  cases headView_of_inside h with
  | bothEnd => rfl
  | endNewline n r hn => exact absurd (newline_facts hn).1 (hh n rfl)
  | same t s r => rfl
  | closeNewline t n s r ht hn => exact absurd (newline_facts hn).1 (hh n rfl)

theorem typ_guard_newline (ty : TokenType) (hty : ty ≠ .Newline) (t : Token)
    (ht : t.isNewline = true) : (t.Typ == ty) = false := by
  rw [(newline_facts ht).1]; simpa using fun e => hty e.symm

theorem typ_guard_open (ty : TokenType) (hty : ty ≠ .Punctuation) (t : Token)
    (ht : t.isOpenBrace = true) : (t.Typ == ty) = false := by
  rw [(openBrace_facts ht).1]; simpa using fun e => hty e.symm

theorem typ_guard_close (ty : TokenType) (hty : ty ≠ .Punctuation) (t : Token)
    (ht : t.isCloseBrace = true) : (t.Typ == ty) = false := by
  rw [(closeBrace_facts ht).1]; simpa using fun e => hty e.symm

/-- Stepping over a token a guard has accepted, when the guard accepts no brace. -/
theorem skip_sim {ts ts2 : List Token} {c c2 : Nat} (p : Token → Bool)
    (hop : ∀ t, t.isOpenBrace = true → p t = false)
    (hcl : ∀ t, t.isCloseBrace = true → p t = false)
    (h : NewlinesInside (ts.drop c) (ts2.drop c2)) (hp : nextIs ts c p = true) :
    NewlinesInside (ts.drop (c + 1)) (ts2.drop (c2 + 1)) := by
  unfold nextIs at hp
  cases hpk : peek ts c with
  | none => rw [hpk] at hp; cases hp
  | some t =>
    rw [hpk] at hp
    dsimp only at hp
    have ho : t.isOpenBrace = false := by
      cases hb : t.isOpenBrace with
      | false => rfl
      | true => rw [hop t hb] at hp; cases hp
    have hc : t.isCloseBrace = false := by
      cases hb : t.isCloseBrace with
      | false => rfl
      | true => rw [hcl t hb] at hp; cases hp
    exact (advance_sim h hpk ho hc).2

/-- The optional separator after a statement or an argument. -/
theorem optional_sim {ts ts2 : List Token} {c c2 : Nat} (p : Token → Bool)
    (hnl : ∀ t, t.isNewline = true → p t = false)
    (hop : ∀ t, t.isOpenBrace = true → p t = false)
    (hcl : ∀ t, t.isCloseBrace = true → p t = false)
    (h : NewlinesInside (ts.drop c) (ts2.drop c2)) :
    NewlinesInside (ts.drop (if nextIs ts c p then c + 1 else c))
      (ts2.drop (if nextIs ts2 c2 p then c2 + 1 else c2)) := by
  rw [← nextIs_sim p hnl hcl h]
  by_cases hp : nextIs ts c p = true
  · rw [if_pos hp, if_pos hp]; exact skip_sim p hop hcl h hp
  · rw [if_neg hp, if_neg hp]; exact h

/-- What the two sides read when the parser looks for an operator. -/
theorem peek_operator_sim {ts ts2 : List Token} {c c2 : Nat} (ty : TokenType)
    (hty1 : ty ≠ .Newline) (hty2 : ty ≠ .Punctuation)
    (h : NewlinesInside (ts.drop c) (ts2.drop c2)) :
    (∃ t, peek ts c = some t ∧ peek ts2 c2 = some t ∧ t.Typ = ty ∧
        NewlinesInside (ts.drop (c + 1)) (ts2.drop (c2 + 1))) ∨
      ((∀ t, peek ts c = some t → t.Typ ≠ ty) ∧ (∀ t, peek ts2 c2 = some t → t.Typ ≠ ty)) := by
  by_cases hp : nextIs ts c (fun t => t.Typ == ty) = true
  · left
    have hs := skip_sim (fun t => t.Typ == ty)
      (typ_guard_open ty hty2) (typ_guard_close ty hty2) h hp
    unfold nextIs at hp
    cases hpk : peek ts c with
    | none => rw [hpk] at hp; cases hp
    | some t =>
      rw [hpk] at hp
      have hty : t.Typ = ty := by simpa using hp
      exact ⟨t, rfl, (advance_sim h hpk (not_openBrace_of_typ (hty ▸ hty2))
        (not_closeBrace_of_typ (hty ▸ hty2))).1, hty, hs⟩
  · right
    have hp2 := hp
    rw [nextIs_sim (fun t => t.Typ == ty) (typ_guard_newline ty hty1)
      (typ_guard_close ty hty2) h] at hp2
    unfold nextIs at hp hp2
    constructor
    · intro t ht; rw [ht] at hp; simpa using hp
    · intro t ht; rw [ht] at hp2; simpa using hp2

/-- Where one side reads a token at the cursor, so does the other. -/
theorem peek_some_sim {ts ts2 : List Token} {c c2 : Nat} {t : Token}
    (h : NewlinesInside (ts.drop c) (ts2.drop c2)) (hp : peek ts c = some t) :
    ∃ t2, peek ts2 c2 = some t2 := by
  rw [peek_eq_head] at hp
  rw [peek_eq_head]
  generalize ts.drop c = s at h hp
  generalize ts2.drop c2 = s2 at h
  cases headView_of_inside h with
  | bothEnd => cases hp
  | endNewline n r hn => cases hp
  | same t s r => exact ⟨_, rfl⟩
  | closeNewline t n s r ht hn => exact ⟨_, rfl⟩

theorem expectValue_snd_of_nextIs {ts : List Token} {c : Nat} {v : String}
    (h : nextIs ts c (fun t => t.Value == v) = true) : (expectValue ts v c).2 = c + 1 := by
  rw [nextIs_view] at h
  rw [expectValue_view]
  cases hs : ts.drop c with
  | nil => rw [hs] at h; cases h
  | cons t s =>
    rw [hs] at h
    have : t.Value = v := by simpa using h
    simp [this]

theorem value_guard_newline (v : String) (hv : ∀ t : Token, t.isNewline = true → t.Value ≠ v)
    (t : Token) (ht : t.isNewline = true) : (t.Value == v) = false := by
  simpa using hv t ht

theorem value_guard_open (v : String) (hv : v ≠ "\x7b") (t : Token)
    (ht : t.isOpenBrace = true) : (t.Value == v) = false := by
  rw [(openBrace_facts ht).2]; simpa using fun e => hv e.symm

theorem value_guard_close (v : String) (hv : v ≠ "\x7d") (t : Token)
    (ht : t.isCloseBrace = true) : (t.Value == v) = false := by
  rw [(closeBrace_facts ht).2.1]; simpa using fun e => hv e.symm

theorem terminator_guard_newline (t : Token) (ht : t.isNewline = true) :
    (!isFunctionCallTerminator t) = false := by
  rw [(newline_facts ht).2.2.2.2.2.2.2.2]; rfl

theorem terminator_guard_close (t : Token) (ht : t.isCloseBrace = true) :
    (!isFunctionCallTerminator t) = false := by
  rw [(closeBrace_facts ht).2.2]; rfl

/-- The simulation of the loop of `parsePropertyOrValue`. -/
theorem parsePropertyOrValueLoop_sim {ts ts2 : List Token} :
    ∀ (fuel fuel2 : Nat), fuel ≤ fuel2 → ∀ (node : Node) (c c2 : Nat),
      NewlinesInside (ts.drop c) (ts2.drop c2) →
      RelOut ts ts2 NewlinesInside NewlinesInside
        (parsePropertyOrValueLoop ts fuel node c) (parsePropertyOrValueLoop ts2 fuel2 node c2) := by
  intro fuel
  induction fuel with
  | zero => intro fuel2 _ node c c2 _; rw [parsePropertyOrValueLoop]; trivial
  | succ fuel ih =>
    intro fuel2 hle node c c2 h
    obtain ⟨fuel2, rfl⟩ : ∃ k, fuel2 = k + 1 := ⟨fuel2 - 1, by omega⟩
    rw [parsePropertyOrValueLoop, parsePropertyOrValueLoop]
    have hg := nextIs_sim (fun t => t.Value == ".")
      (value_guard_newline "." (fun t ht => (newline_facts ht).2.2.2.2.2.1))
      (value_guard_close "." (by decide)) h
    rw [← hg]
    by_cases hp : nextIs ts c (fun t => t.Value == ".") = true
    · rw [if_pos hp, if_pos hp, expectValue_snd_of_nextIs hp,
        expectValue_snd_of_nextIs (hg ▸ hp)]
      have hs := skip_sim (fun t => t.Value == ".") (value_guard_open "." (by decide))
        (value_guard_close "." (by decide)) h hp
      refine relOut_andThen (expectType_sim .Identifier (by decide) (by decide) hs) ?_
      intro t c1 c12 h1
      exact ih fuel2 (by omega) _ c1 c12 h1
    · rw [if_neg hp, if_neg hp]
      exact ⟨c2, rfl, h⟩

theorem parseIdentifier_sim {ts ts2 : List Token} {c c2 : Nat}
    (h : NewlinesInside (ts.drop c) (ts2.drop c2)) :
    RelOut ts ts2 NewlinesInside NewlinesInside (parseIdentifier ts c) (parseIdentifier ts2 c2) := by
  unfold parseIdentifier
  refine relOut_andThen (expectType_sim .Identifier (by decide) (by decide) h) ?_
  intro t c1 c12 h1
  exact ⟨c12, rfl, h1⟩

theorem parseInteger_sim {ts ts2 : List Token} {c c2 : Nat}
    (h : NewlinesInside (ts.drop c) (ts2.drop c2)) :
    RelOut ts ts2 NewlinesInside NewlinesInside (parseInteger ts c) (parseInteger ts2 c2) := by
  unfold parseInteger
  refine relOut_andThen (expectType_sim .Integer (by decide) (by decide) h) ?_
  intro t c1 c12 h1
  cases ParseInt t.Value with
  | error e => exact ⟨_, c12, rfl, h1⟩
  | ok v => exact ⟨c12, rfl, h1⟩

theorem parseFloat_sim {ts ts2 : List Token} {c c2 : Nat}
    (h : NewlinesInside (ts.drop c) (ts2.drop c2)) :
    RelOut ts ts2 NewlinesInside NewlinesInside (parseFloat ts c) (parseFloat ts2 c2) := by
  unfold parseFloat
  refine relOut_andThen (expectType_sim .Float (by decide) (by decide) h) ?_
  intro t c1 c12 h1
  cases ParseFloat t.Value with
  | error e => exact ⟨_, c12, rfl, h1⟩
  | ok v => exact ⟨c12, rfl, h1⟩

theorem parseString_sim {ts ts2 : List Token} {c c2 : Nat}
    (h : NewlinesInside (ts.drop c) (ts2.drop c2)) :
    RelOut ts ts2 NewlinesInside NewlinesInside (parseString ts c) (parseString ts2 c2) := by
  unfold parseString
  refine relOut_andThen (expectType_sim .String (by decide) (by decide) h) ?_
  intro t c1 c12 h1
  by_cases hb : t.Value.utf8ByteSize < 2
  · rw [if_pos hb]; trivial
  · rw [if_neg hb, if_neg hb]; exact ⟨c12, rfl, h1⟩

theorem parserSim_zero (ts ts2 : List Token) (fuel2 : Nat) : ParserSim ts ts2 0 fuel2 := by
  constructor
  · intro stmts c c2 _ _; rw [parseStatementsLoop]; trivial
  · intro c c2 _; rw [parseStatements]; trivial
  · intro c c2 _; rw [parseExpression]; trivial
  · intro c c2 _; rw [parseRightBinaryExpression]; trivial
  · intro nodes c c2 _; rw [parseIntermediateLoop]; trivial
  · intro c c2 _; rw [parseIntermediate]; trivial
  · intro lhs c c2 _; rw [parseLeftBinaryExpression]; trivial
  · intro c c2 _; rw [parsePropertyOrValue]; trivial
  · intro c c2 _; rw [parseValue]; trivial
  · intro c c2 _; rw [parseParens]; trivial
  · intro c c2 _; rw [parseBlock]; trivial
  · intro c c2 _; rw [parseQuoted]; trivial

theorem parserSim_succ {ts ts2 : List Token} {fuel fuel2 : Nat} (hle : fuel ≤ fuel2)
    (ih : ParserSim ts ts2 fuel fuel2) : ParserSim ts ts2 (fuel + 1) (fuel2 + 1) := by
  constructor
  · -- parseStatementsLoop
    intro stmts c c2 h hh
    rw [parseStatementsLoop, parseStatementsLoop, ← nextIs_notClose_sim h hh]
    by_cases hp : nextIs ts c (fun t => t.Value != "\x7d") = true
    · rw [if_pos hp, if_pos hp]
      refine relOut_andThen (ih.expression c c2 h) ?_
      intro stmt c1 c12 h1
      have h2 := optional_sim (fun t => t.Value == ";")
        (value_guard_newline ";" (fun t ht => (newline_facts ht).2.2.2.2.2.2.2.1))
        (value_guard_open ";" (by decide)) (value_guard_close ";" (by decide)) h1
      have h3 := advanceLines_sim (inserted_of_inside h2)
      exact ih.statementsLoop _ _ _ h3.1 h3.2
    · rw [if_neg hp, if_neg hp]
      exact ⟨c2, rfl, h⟩
  · -- parseStatements
    intro c c2 h
    rw [parseStatements, parseStatements]
    have h3 := advanceLines_sim h
    exact ih.statementsLoop _ _ _ h3.1 h3.2
  · -- parseExpression
    intro c c2 h
    rw [parseExpression, parseExpression]
    exact ih.rightBinary c c2 h
  · -- parseRightBinaryExpression
    intro c c2 h
    rw [parseRightBinaryExpression, parseRightBinaryExpression]
    refine relOut_andThen (ih.intermediate c c2 h) ?_
    intro lhs c1 c12 h1
    rcases peek_operator_sim .ROperator (by decide) (by decide) h1 with
      ⟨t, hp, hp2, hty, hs⟩ | ⟨hn, hn2⟩
    · rw [hp, hp2]
      simp only [hty, beq_self_eq_true, if_true]
      refine relOut_andThen (ih.rightBinary _ _ hs) ?_
      intro rhs c3 c32 h3
      exact ⟨c32, rfl, h3⟩
    · cases hpk : peek ts c1 with
      | none =>
        cases hpk2 : peek ts2 c12 with
        | none => exact ⟨c12, rfl, h1⟩
        | some t2 =>
          dsimp only
          rw [if_neg (by simpa using hn2 t2 hpk2)]
          exact ⟨c12, rfl, h1⟩
      | some t =>
        dsimp only
        rw [if_neg (by simpa using hn t hpk)]
        cases hpk2 : peek ts2 c12 with
        | none => exact ⟨c12, rfl, h1⟩
        | some t2 =>
          dsimp only
          rw [if_neg (by simpa using hn2 t2 hpk2)]
          exact ⟨c12, rfl, h1⟩
  · -- parseIntermediateLoop
    intro nodes c c2 h
    rw [parseIntermediateLoop, parseIntermediateLoop,
      ← nextIs_sim (fun t => !isFunctionCallTerminator t) terminator_guard_newline
        terminator_guard_close h]
    by_cases hp : nextIs ts c (fun t => !isFunctionCallTerminator t) = true
    · rw [if_pos hp, if_pos hp]
      refine relOut_andThen (ih.propertyOrValue c c2 h) ?_
      intro argBase c1 c12 h1
      refine relOut_andThen (ih.leftBinary argBase c1 c12 h1) ?_
      intro arg c3 c32 h3
      have h4 := optional_sim (fun t => t.Value == ",")
        (value_guard_newline "," (fun t ht => (newline_facts ht).2.2.2.2.2.2.1))
        (value_guard_open "," (by decide)) (value_guard_close "," (by decide)) h3
      exact ih.intermediateLoop _ _ _ h4
    · rw [if_neg hp, if_neg hp]
      exact ⟨c2, rfl, h⟩
  · -- parseIntermediate
    intro c c2 h
    rw [parseIntermediate, parseIntermediate]
    refine relOut_andThen (ih.propertyOrValue c c2 h) ?_
    intro node c1 c12 h1
    rw [← nextIs_sim (fun t => t.Typ == .LOperator)
      (typ_guard_newline .LOperator (by decide)) (typ_guard_close .LOperator (by decide)) h1]
    by_cases hp : nextIs ts c1 (fun t => t.Typ == .LOperator) = true
    · rw [if_pos hp, if_pos hp]
      exact ih.leftBinary node c1 c12 h1
    · rw [if_neg hp, if_neg hp]
      refine relOut_andThen (ih.intermediateLoop [node] c1 c12 h1) ?_
      intro nodes c3 c32 h3
      by_cases hl : nodes.length > 1
      · rw [if_pos hl, if_pos hl]; exact ⟨c32, rfl, h3⟩
      · rw [if_neg hl, if_neg hl]; exact ⟨c32, rfl, h3⟩
  · -- parseLeftBinaryExpression
    intro lhs c c2 h
    rw [parseLeftBinaryExpression, parseLeftBinaryExpression]
    rcases peek_operator_sim .LOperator (by decide) (by decide) h with
      ⟨t, hp, hp2, hty, hs⟩ | ⟨hn, hn2⟩
    · rw [hp, hp2]
      simp only [hty, beq_self_eq_true, if_true]
      refine relOut_andThen (ih.propertyOrValue _ _ hs) ?_
      intro rhs c3 c32 h3
      exact ih.leftBinary _ _ _ h3
    · cases hpk : peek ts c with
      | none =>
        cases hpk2 : peek ts2 c2 with
        | none => exact ⟨c2, rfl, h⟩
        | some t2 =>
          dsimp only
          rw [if_neg (by simpa using hn2 t2 hpk2)]
          exact ⟨c2, rfl, h⟩
      | some t =>
        dsimp only
        rw [if_neg (by simpa using hn t hpk)]
        cases hpk2 : peek ts2 c2 with
        | none => exact ⟨c2, rfl, h⟩
        | some t2 =>
          dsimp only
          rw [if_neg (by simpa using hn2 t2 hpk2)]
          exact ⟨c2, rfl, h⟩
  · -- parsePropertyOrValue
    intro c c2 h
    rw [parsePropertyOrValue, parsePropertyOrValue]
    refine relOut_andThen (ih.value c c2 h) ?_
    intro node c1 c12 h1
    exact parsePropertyOrValueLoop_sim fuel fuel2 hle node c1 c12 h1
  · -- parseValue
    intro c c2 h
    rw [parseValue, parseValue]
    refine relOut_orElse (ih.parens c c2 h) ?_
    intro c1 c12 h1
    refine relOut_orElse (ih.block _ _ h1) ?_
    intro c3 c32 h3
    refine relOut_orElse (parseIdentifier_sim h3) ?_
    intro c4 c42 h4
    refine relOut_orElse (parseInteger_sim h4) ?_
    intro c5 c52 h5
    refine relOut_orElse (parseFloat_sim h5) ?_
    intro c6 c62 h6
    refine relOut_orElse (parseString_sim h6) ?_
    intro c7 c72 h7
    refine relOut_orElse (ih.quoted _ _ h7) ?_
    intro c8 c82 h8
    cases hpk : peek ts c8 with
    | none => trivial
    | some t =>
      obtain ⟨t2, hp2⟩ := peek_some_sim h8 hpk
      rw [hp2]
      exact ⟨_, c82, rfl, h8⟩
  · -- parseParens
    intro c c2 h
    rw [parseParens, parseParens]
    refine relOut_andThen (expectValue_sim "(" (fun t ht => (newline_facts ht).2.1)
      (by decide) (by decide) h) ?_
    intro _ c1 c12 h1
    refine relOut_andThen (ih.expression _ _ h1) ?_
    intro inner c3 c32 h3
    refine relOut_andThen (expectValue_sim ")" (fun t ht => (newline_facts ht).2.2.1)
      (by decide) (by decide) h3) ?_
    intro _ c4 c42 h4
    exact ⟨c42, rfl, h4⟩
  · -- parseBlock
    intro c c2 h
    rw [parseBlock, parseBlock]
    refine relOut_andThen (expectOpen_sim h) ?_
    intro _ c1 c12 h1
    have h2 := advanceLines_sim h1
    refine relOut_andThen (ih.statements _ _ (inserted_of_inside h2.1)) ?_
    intro stmts c3 c32 h3
    have h4 := advanceLines_sim (inserted_of_inside h3)
    refine relOut_andThen (expectClose_sim h4.1 h4.2) ?_
    intro _ c5 c52 h5
    exact ⟨c52, rfl, h5⟩
  · -- parseQuoted
    intro c c2 h
    rw [parseQuoted, parseQuoted]
    refine relOut_andThen (expectType_sim .Quote (by decide) (by decide) h) ?_
    intro _ c1 c12 h1
    refine relOut_andThen (ih.propertyOrValue _ _ h1) ?_
    intro inner c3 c32 h3
    exact ⟨c32, rfl, h3⟩

/-- The simulation holds for every pair of fuels in order. -/
theorem parserSim {ts ts2 : List Token} :
    ∀ (fuel fuel2 : Nat), fuel ≤ fuel2 → ParserSim ts ts2 fuel fuel2 := by
  intro fuel
  induction fuel with
  | zero => intro fuel2 _; exact parserSim_zero ts ts2 fuel2
  | succ fuel ih =>
    intro fuel2 hle
    obtain ⟨fuel2, rfl⟩ : ∃ k, fuel2 = k + 1 := ⟨fuel2 - 1, by omega⟩
    exact parserSim_succ (by omega) (ih fuel2 (by omega))

theorem inside_length {s s2 : List Token} (h : NewlinesInside s s2) : s.length ≤ s2.length := by
  induction h with
  | atEnd nls hn => simp
  | keep t h ih => simpa using ih
  | afterOpen t nls ho hn h ih => simp only [List.length_cons, List.length_append]; omega
  | beforeClose t nls hc hn h ih => simp only [List.length_cons, List.length_append]; omega

theorem inserted_length {s s2 : List Token} (h : NewlinesInserted s s2) :
    s.length ≤ s2.length := by
  obtain ⟨nls, rest, h2, _, hin⟩ := h
  have := inside_length hin
  rw [h2, List.length_append]; omega

/-- Inserted newlines leave the result of `Parse` as it is. -/
theorem Parse_newlines_inserted {T T2 : List Token} {node : Node} {c : Nat}
    (h : NewlinesInserted T T2) (hp : Parse T = (.ok node, c)) :
    ∃ c2, Parse T2 = (.ok node, c2) := by
  have hle : parseFuel T ≤ parseFuel T2 := by
    have := inserted_length h
    unfold parseFuel; omega
  have hs := (parserSim (parseFuel T) (parseFuel T2) hle).statements 0 0
    (by simpa using h)
  unfold Parse parse at hp ⊢
  have hr : RelOut T T2 NewlinesInside NewlinesInside
      (andThen (parseStatements T (parseFuel T) 0) fun statements c =>
        ((ParseResult.ok (Node.list NodeType.Program statements) : ParseResult Node), c))
      (andThen (parseStatements T2 (parseFuel T2) 0) fun statements c =>
        ((ParseResult.ok (Node.list NodeType.Program statements) : ParseResult Node), c)) :=
    relOut_andThen hs (fun stmts c1 c12 h1 => ⟨c12, rfl, h1⟩)
  rw [hp] at hr
  obtain ⟨c2, h2, _⟩ := hr
  exact ⟨c2, h2⟩

theorem matchRulesFrom_rule {rs : List rule} {cs : List Char} {tok : Token} {ig : Bool}
    (h : matchRulesFrom rs cs = (some tok, ig)) :
    ∃ r ∈ rs, tok = { Typ := r.Typ, Value := String.mk (r.Regex cs) } ∧ ig = r.Ignore ∧
      r.Regex cs ≠ [] := by
  induction rs with
  | nil => simp [matchRulesFrom] at h
  | cons r rs ih =>
    unfold matchRulesFrom at h
    split at h
    · obtain ⟨r2, hr, h2⟩ := ih h
      exact ⟨r2, List.mem_cons_of_mem _ hr, h2⟩
    · rename_i m hm
      simp only [Prod.mk.injEq, Option.some.injEq] at h
      refine ⟨r, List.mem_cons_self _ _, ?_, h.2.symm, ?_⟩
      · rw [← h.1]
      · intro e; exact hm e

theorem all_takeWhile {α : Type} (p : α → Bool) (l : List α) : (l.takeWhile p).all p = true := by
  induction l with
  | nil => rfl
  | cons a l ih =>
    by_cases h : p a = true
    · simp [List.takeWhile_cons, h, ih]
    · simp [List.takeWhile_cons, h]

theorem matchRules_goodPiece {cs : List Char} {t : Token} {ig : Bool}
    (h : matchRules cs = (some t, ig)) : goodPiece (t, ig) := by
  obtain ⟨r, hr, ht, hig, hne⟩ := matchRulesFrom_rule h
  subst ht
  refine ⟨hne, rfl, ?_⟩
  intro hi
  simp only at hi
  rw [hig] at hi
  simp only [rules, List.mem_cons, List.mem_singleton, List.not_mem_nil, or_false] at hr
  rcases hr with rfl | rfl | rfl | rfl | rfl | rfl | rfl | rfl | rfl | rfl | rfl | rfl <;>
    first
    | (exact absurd hi (by decide))
    | skip
  · left
    show isLineComment (matchComment cs) = true
    have hne2 : matchComment cs ≠ [] := hne
    unfold matchComment at hne2 ⊢
    split
    · simp only [isLineComment]
      exact all_takeWhile _ _
    · split at hne2 <;> simp_all
  · right
    show isBlankRun (matchWhitespace cs) = true
    have hne2 : matchWhitespace cs ≠ [] := hne
    unfold isBlankRun
    unfold matchWhitespace at hne2 ⊢
    rw [all_takeWhile]
    cases hx : List.takeWhile isBlank cs with
    | nil => exact absurd hx hne2
    | cons a l => rfl

theorem tokenizeLoop_pieces (source : String) (n : Nat) :
    ∀ (pre rest : List Char) (toks : List Token) (fuel : Nat) (out : List Token),
      source.data = pre ++ rest → rest.length ≤ n →
      tokenizeLoop source fuel (byteLen pre) toks = .ok out →
      ∃ pieces : List (Token × Bool), rest = piecesText pieces ∧
        out = toks ++ keptTokens pieces ∧ ∀ p ∈ pieces, goodPiece p := by
  induction n with
  | zero =>
    intro pre rest toks fuel out hsrc hlen h
    have hrest : rest = [] := List.length_eq_zero.mp (by omega)
    subst hrest
    have hpre : pre = source.data := by simpa using hsrc.symm
    subst hpre
    cases fuel with
    | zero => simp [tokenizeLoop] at h
    | succ fuel =>
      rw [tokenizeLoop_end] at h
      cases h
      exact ⟨[], rfl, by simp [keptTokens], by simp⟩
  | succ n ih =>
    intro pre rest toks fuel out hsrc hlen h
    cases fuel with
    | zero => simp [tokenizeLoop] at h
    | succ fuel =>
      cases rest with
      | nil =>
        have hpre : pre = source.data := by simpa using hsrc.symm
        subst hpre
        rw [tokenizeLoop_end] at h
        cases h
        exact ⟨[], rfl, by simp [keptTokens], by simp⟩
      | cons c cs =>
        have hsize : source.utf8ByteSize = byteLen (pre ++ c :: cs) := by rw [← hsrc]; rfl
        have hlt : byteLen pre < source.utf8ByteSize := by
          rw [hsize, byteLen_append]
          have := byteLen_pos (List.cons_ne_nil c cs)
          omega
        rw [tokenizeLoop] at h
        simp only [hlt, if_true, hsrc, sliceFrom_append] at h
        cases hm : matchRules (c :: cs) with
        | mk ot ig =>
          rw [hm] at h
          cases ot with
          | none => simp at h
          | some t =>
            obtain ⟨hne, rest2, hsplit⟩ := matchRules_splits hm
            have hlen2 : rest2.length < (c :: cs).length := by
              rw [hsplit, List.length_append]
              have := List.length_pos.mpr hne
              omega
            have hcur : byteLen pre + t.Value.utf8ByteSize = byteLen (pre ++ t.Value.data) := by
              rw [byteLen_append]; rfl
            simp only [hcur] at h
            obtain ⟨pieces, hp1, hp2, hp3⟩ := ih (pre ++ t.Value.data) rest2 _ fuel out
              (by rw [hsrc, hsplit, List.append_assoc]) (by simp at hlen2 hlen; omega) h
            refine ⟨(t, ig) :: pieces, ?_, ?_, ?_⟩
            · rw [hsplit, hp1]; simp [piecesText]
            · rw [hp2]
              cases ig <;> simp [keptTokens]
            · intro p hp
              rcases List.mem_cons.mp hp with rfl | hp
              · exact matchRules_goodPiece hm
              · exact hp3 p hp

theorem Tokenize_pieces {source : String} {tokens : List Token}
    (h : Tokenize source = .ok tokens) :
    ∃ pieces : List (Token × Bool), source.data = piecesText pieces ∧
      tokens = keptTokens pieces ∧ ∀ p ∈ pieces, goodPiece p := by
  have hb : byteLen [] = 0 := rfl
  unfold Tokenize at h
  rw [← hb] at h
  obtain ⟨pieces, h1, h2, h3⟩ := tokenizeLoop_pieces source source.data.length [] source.data []
    _ tokens rfl (Nat.le_refl _) h
  exact ⟨pieces, h1, by simpa using h2, h3⟩

theorem splitLines_line (l : List Nat) (h : 10 ∉ l) : splitLines l = [l] := by
  induction l with
  | nil => rfl
  | cons b l ih =>
    have hb : b ≠ 10 := fun e => h (e ▸ List.mem_cons_self _ _)
    have hl : 10 ∉ l := fun e => h (List.mem_cons_of_mem _ e)
    rw [splitLines, if_neg hb, ih hl]

theorem splitLines_append (line rest : List Nat) (h : 10 ∉ line) :
    splitLines (line ++ 10 :: rest) = line :: splitLines rest := by
  induction line with
  | nil => rw [List.nil_append, splitLines, if_pos rfl]
  | cons b l ih =>
    have hb : b ≠ 10 := fun e => h (e ▸ List.mem_cons_self _ _)
    have hl : 10 ∉ l := fun e => h (List.mem_cons_of_mem _ e)
    rw [List.cons_append, splitLines, if_neg hb, ih hl]

theorem takeWhile_append_stop {α : Type} (p : α → Bool) (a : List α) (x : α) (b : List α)
    (hx : p x = false) : (a ++ x :: b).takeWhile p = a.takeWhile p := by
  induction a with
  | nil => simp [List.takeWhile_cons, hx]
  | cons y a ih =>
    by_cases hy : p y = true
    · simp [List.takeWhile_cons, hy, ih]
    · simp [List.takeWhile_cons, hy]

theorem length_takeWhile_le_length {α : Type} (p : α → Bool) (l : List α) :
    (l.takeWhile p).length ≤ l.length := by
  induction l with
  | nil => simp
  | cons a l ih =>
    by_cases h : p a = true
    · simp [List.takeWhile_cons, h, ih]
    · simp [List.takeWhile_cons, h]

theorem afterLastNewline_line (l : List Nat) (h : 10 ∉ l) : afterLastNewline l = 0 := by
  unfold afterLastNewline
  have : l.reverse.takeWhile (· ≠ 10) = l.reverse := by
    rw [List.takeWhile_eq_self_iff]
    intro x hx
    have hx2 : x ∈ l := List.mem_reverse.mp hx
    simpa using fun e : x = 10 => h (e ▸ hx2)
  rw [this, List.length_reverse]; omega

theorem afterLastNewline_append (line m : List Nat) :
    afterLastNewline (line ++ 10 :: m) = line.length + 1 + afterLastNewline m := by
  unfold afterLastNewline
  have hr : (line ++ 10 :: m).reverse = m.reverse ++ 10 :: line.reverse := by simp
  rw [hr, takeWhile_append_stop _ _ _ _ (by simp)]
  have := length_takeWhile_le_length (fun x : Nat => decide (x ≠ 10)) m.reverse
  simp only [List.length_append, List.length_cons, List.length_reverse] at this ⊢
  omega

theorem newlineCount_line (l : List Nat) (h : 10 ∉ l) : newlineCount l = 0 :=
  List.count_eq_zero.mpr h

theorem not_mem_take {l : List Nat} (h : 10 ∉ l) (j : Nat) : 10 ∉ l.take j :=
  fun e => h (List.mem_of_mem_take e)

/-- Every byte sequence is a line without a break, or such a line, a break and a
shorter rest. -/
theorem line_cases (bs : List Nat) :
    10 ∉ bs ∨ ∃ line rest, bs = line ++ 10 :: rest ∧ 10 ∉ line := by
  induction bs with
  | nil => left; simp
  | cons b bs ih =>
    by_cases hb : b = 10
    · right; exact ⟨[], bs, by simp [hb], by simp⟩
    · rcases ih with h | ⟨line, rest, h1, h2⟩
      · left
        intro e
        rcases List.mem_cons.mp e with e | e
        · exact hb e.symm
        · exact h e
      · right
        refine ⟨b :: line, rest, by simp [h1], ?_⟩
        intro e
        rcases List.mem_cons.mp e with e | e
        · exact hb e.symm
        · exact h2 e

theorem lineColumnLoop_spec (n : Nat) :
    ∀ (bs : List Nat) (k total : Int), bs.length ≤ n →
      (∀ j : Nat, j ≤ bs.length →
        lineColumnLoop (splitLines bs) k total (total + j) =
          some (k + 1 + newlineCount (bs.take j),
            (j : Int) - afterLastNewline (bs.take j) + 1)) ∧
      (∀ index : Int, total + bs.length < index →
        lineColumnLoop (splitLines bs) k total index = none) := by
  induction n with
  | zero =>
    intro bs k total hlen
    have hbs : bs = [] := List.length_eq_zero.mp (by omega)
    subst hbs
    constructor
    · intro j hj
      have hj0 : j = 0 := by simpa using hj
      subst hj0
      simp [splitLines, lineColumnLoop, newlineCount, afterLastNewline]
    · intro index hi
      simp only [List.length_nil, Nat.cast_zero, add_zero] at hi
      simp only [splitLines, lineColumnLoop, List.length_nil, Nat.cast_zero, zero_add]
      rw [if_neg (by omega)]
  | succ n ih =>
    intro bs k total hlen
    rcases line_cases bs with h | ⟨line, rest, h1, h2⟩
    · rw [splitLines_line bs h]
      constructor
      · intro j hj
        rw [lineColumnLoop, if_pos (by omega), newlineCount_line _ (not_mem_take h j),
          afterLastNewline_line _ (not_mem_take h j)]
        simp
      · intro index hi
        rw [lineColumnLoop, if_neg (by omega), lineColumnLoop]
    · subst h1
      rw [splitLines_append line rest h2]
      have hl : rest.length ≤ n := by
        simp only [List.length_append, List.length_cons] at hlen; omega
      obtain ⟨ih1, ih2⟩ := ih rest (k + 1) (total + (line.length + 1)) hl
      constructor
      · intro j hj
        rw [lineColumnLoop]
        by_cases hjl : j ≤ line.length
        · rw [if_pos (by omega)]
          have ht : (line ++ 10 :: rest).take j = line.take j := by
            rw [List.take_append_of_le_length hjl]
          rw [ht, newlineCount_line _ (not_mem_take h2 j),
            afterLastNewline_line _ (not_mem_take h2 j)]
          simp
        · rw [if_neg (by omega)]
          obtain ⟨j2, rfl⟩ : ∃ j2, j = line.length + 1 + j2 := ⟨j - (line.length + 1), by omega⟩
          have hj2 : j2 ≤ rest.length := by
            simp only [List.length_append, List.length_cons] at hj; omega
          have ht : (line ++ 10 :: rest).take (line.length + 1 + j2) =
              line ++ 10 :: rest.take j2 := by
            rw [List.take_append_eq_append_take]
            have e1 : line.length + 1 + j2 - line.length = j2 + 1 := by omega
            rw [List.take_of_length_le (by omega), e1, List.take_succ_cons]
          have hc : newlineCount (line ++ 10 :: rest.take j2) =
              1 + newlineCount (rest.take j2) := by
            unfold newlineCount
            rw [List.count_append, List.count_cons_self]
            have := newlineCount_line line h2
            unfold newlineCount at this
            omega
          have e2 : total + ((line.length + 1 + j2 : Nat) : Int) =
              total + (line.length + 1) + (j2 : Int) := by push_cast; ring
          rw [ht, hc, afterLastNewline_append, e2, ih1 j2 hj2]
          congr 1
          ext1
          · push_cast; ring
          · push_cast; ring
      · intro index hi
        simp only [List.length_append, List.length_cons] at hi
        rw [lineColumnLoop, if_neg (by push_cast at hi; omega)]
        exact ih2 index (by push_cast at hi ⊢; omega)

theorem bytesOf_length (s : String) : (bytesOf s).length = s.utf8ByteSize := by
  have := String.size_toUTF8 s
  unfold bytesOf
  rw [List.length_map]
  simpa [ByteArray.size] using this

theorem lineColumnLoop_before (bs : List Nat) (k total index : Int) (h : index < total) :
    lineColumnLoop (splitLines bs) k total index = some (k + 1, index - total + 1) := by
  rcases line_cases bs with h1 | ⟨line, rest, h1, h2⟩
  · rw [splitLines_line bs h1, lineColumnLoop, if_pos (by omega)]
  · rw [h1, splitLines_append line rest h2, lineColumnLoop, if_pos (by omega)]

theorem computeLineColumn_spec (source : String) :
    (∀ i : Nat, i ≤ source.utf8ByteSize →
      computeLineColumn source i =
        some (1 + (newlineCount ((bytesOf source).take i) : Int),
          1 + (i : Int) - afterLastNewline ((bytesOf source).take i))) ∧
    (∀ index : Int, computeLineColumn source index = none ↔
      (source.utf8ByteSize : Int) < index) := by
  obtain ⟨h1, h2⟩ := lineColumnLoop_spec (bytesOf source).length (bytesOf source) 0 0
    (Nat.le_refl _)
  rw [bytesOf_length] at h1 h2
  have hsome : ∀ i : Nat, i ≤ source.utf8ByteSize →
      computeLineColumn source i =
        some (1 + (newlineCount ((bytesOf source).take i) : Int),
          1 + (i : Int) - afterLastNewline ((bytesOf source).take i)) := by
    intro i hi
    have := h1 i hi
    rw [zero_add] at this
    unfold computeLineColumn
    rw [this]
    congr 1
    ext1
    · simp
    · simp only; ring
  refine ⟨hsome, ?_⟩
  intro index
  constructor
  · intro hn
    by_contra hlt
    rcases Int.lt_or_le index 0 with hneg | hpos
    · have := lineColumnLoop_before (bytesOf source) 0 0 index hneg
      unfold computeLineColumn at hn
      rw [this] at hn
      cases hn
    · obtain ⟨i, rfl⟩ : ∃ i : Nat, index = i := ⟨index.toNat, by omega⟩
      rw [hsome i (by omega)] at hn
      cases hn
  · intro hlt
    exact h2 index (by omega)

theorem okAll_andThen {α β : Type} {P : α → Prop} {Q : β → Prop}
    {x : ParseResult α × Nat} {k : α → Nat → ParseResult β × Nat}
    (hx : okAll P x) (hk : ∀ a c, P a → okAll Q (k a c)) : okAll Q (andThen x k) := by
  obtain ⟨r, c⟩ := x
  cases r with
  | ok a => exact hk a c (hx a rfl)
  | error e => intro b hb; cases hb
  | panic p => intro b hb; cases hb
  | outOfFuel => intro b hb; cases hb

theorem okAll_orElse {α : Type} {P : α → Prop}
    {x : ParseResult α × Nat} {k : Nat → ParseResult α × Nat}
    (hx : okAll P x) (hk : ∀ c, okAll P (k c)) : okAll P (orElse x k) := by
  obtain ⟨r, c⟩ := x
  cases r with
  | ok a => exact hx
  | error e => exact hk c
  | panic p => exact hx
  | outOfFuel => exact hx

theorem okAll_ok {α : Type} {P : α → Prop} {a : α} {c : Nat} (h : P a) :
    okAll P ((ParseResult.ok a : ParseResult α), c) := by
  intro b hb
  cases hb
  exact h

theorem okAll_of_not_ok {α : Type} {P : α → Prop} {x : ParseResult α × Nat}
    (h : ∀ a, x.1 ≠ .ok a) : okAll P x :=
  fun a ha => absurd ha (h a)

theorem wellShapedList_append (a b : List Node) :
    wellShapedList (a ++ b) = (wellShapedList a && wellShapedList b) := by
  induction a with
  | nil => simp [wellShapedList]
  | cons n ns ih => simp [wellShapedList, ih, Bool.and_assoc]

theorem wellShapedList_snoc (a : List Node) (n : Node) (ha : wellShapedList a = true)
    (hn : wellShaped n = true) : wellShapedList (a ++ [n]) = true := by
  rw [wellShapedList_append]
  simp [wellShapedList, ha, hn]

theorem wellShaped_binary (lhs rhs : Node) (op : String) (hl : wellShaped lhs = true)
    (hr : wellShaped rhs = true) :
    wellShaped (.list .Binary [lhs, .leaf .Operator (.string op), rhs]) = true := by
  simp [wellShaped, wellShapedList, childrenShaped, leafShaped, hl, hr]

theorem expectType_okAll (ts : List Token) (ty : TokenType) (c : Nat) :
    okAll (fun _ => True) (expectType ts ty c) := fun _ _ => trivial

theorem parsePropertyOrValueLoop_shape (ts : List Token) :
    ∀ (fuel : Nat) (node : Node) (c : Nat), wellShaped node = true →
      okAll (fun n => wellShaped n = true) (parsePropertyOrValueLoop ts fuel node c) := by
  intro fuel
  induction fuel with
  | zero => intro node c _; rw [parsePropertyOrValueLoop]; exact okAll_of_not_ok (by simp)
  | succ fuel ih =>
    intro node c hn
    rw [parsePropertyOrValueLoop]
    split
    · refine okAll_andThen (expectType_okAll ts _ _) ?_
      intro t c1 _
      apply ih
      simp [wellShaped, wellShapedList, childrenShaped, leafShaped, hn]
    · exact okAll_ok hn

theorem parserShape (ts : List Token) : ∀ fuel, ParserShape ts fuel := by
  intro fuel
  induction fuel with
  | zero =>
    constructor
    · intro stmts c _; rw [parseStatementsLoop]; exact okAll_of_not_ok (by simp)
    · intro c; rw [parseStatements]; exact okAll_of_not_ok (by simp)
    · intro c; rw [parseExpression]; exact okAll_of_not_ok (by simp)
    · intro c; rw [parseRightBinaryExpression]; exact okAll_of_not_ok (by simp)
    · intro nodes c _; rw [parseIntermediateLoop]; exact okAll_of_not_ok (by simp)
    · intro c; rw [parseIntermediate]; exact okAll_of_not_ok (by simp)
    · intro lhs c _; rw [parseLeftBinaryExpression]; exact okAll_of_not_ok (by simp)
    · intro c; rw [parsePropertyOrValue]; exact okAll_of_not_ok (by simp)
    · intro c; rw [parseValue]; exact okAll_of_not_ok (by simp)
    · intro c; rw [parseParens]; exact okAll_of_not_ok (by simp)
    · intro c; rw [parseBlock]; exact okAll_of_not_ok (by simp)
    · intro c; rw [parseQuoted]; exact okAll_of_not_ok (by simp)
  | succ fuel ih =>
    constructor
    · intro stmts c hs
      rw [parseStatementsLoop]
      split
      · refine okAll_andThen (ih.expression c) ?_
        intro stmt c1 h1
        exact ih.statementsLoop _ _ (wellShapedList_snoc _ _ hs h1)
      · exact okAll_ok hs
    · intro c
      rw [parseStatements]
      exact ih.statementsLoop _ _ rfl
    · intro c
      rw [parseExpression]
      exact ih.rightBinary c
    · intro c
      rw [parseRightBinaryExpression]
      refine okAll_andThen (ih.intermediate c) ?_
      intro lhs c1 h1
      split
      · split
        · refine okAll_andThen (ih.rightBinary _) ?_
          intro rhs c2 h2
          exact okAll_ok (wellShaped_binary _ _ _ h1 h2)
        · exact okAll_ok h1
      · exact okAll_ok h1
    · intro nodes c hs
      rw [parseIntermediateLoop]
      split
      · refine okAll_andThen (ih.propertyOrValue c) ?_
        intro argBase c1 h1
        refine okAll_andThen (ih.leftBinary argBase c1 h1) ?_
        intro arg c2 h2
        exact ih.intermediateLoop _ _ (wellShapedList_snoc _ _ hs h2)
      · exact okAll_ok hs
    · intro c
      rw [parseIntermediate]
      refine okAll_andThen (ih.propertyOrValue c) ?_
      intro node c1 h1
      split
      · exact ih.leftBinary node c1 h1
      · refine okAll_andThen (ih.intermediateLoop [node] c1 (by simp [wellShapedList, h1])) ?_
        intro nodes c2 h2
        split
        · rename_i hlen
          apply okAll_ok
          simp only [wellShaped, childrenShaped, h2, Bool.and_true, decide_eq_true_eq]
          omega
        · exact okAll_ok h1
    · intro lhs c hl
      rw [parseLeftBinaryExpression]
      split
      · split
        · refine okAll_andThen (ih.propertyOrValue _) ?_
          intro rhs c1 h1
          exact ih.leftBinary _ _ (wellShaped_binary _ _ _ hl h1)
        · exact okAll_ok hl
      · exact okAll_ok hl
    · intro c
      rw [parsePropertyOrValue]
      refine okAll_andThen (ih.value c) ?_
      intro node c1 h1
      exact parsePropertyOrValueLoop_shape ts fuel node c1 h1
    · intro c
      rw [parseValue]
      refine okAll_orElse (ih.parens c) ?_
      intro c1
      refine okAll_orElse (ih.block c1) ?_
      intro c2
      refine okAll_orElse ?_ ?_
      · unfold parseIdentifier
        refine okAll_andThen (expectType_okAll ts _ _) ?_
        intro t c3 _
        exact okAll_ok (by simp [wellShaped, leafShaped])
      intro c3
      refine okAll_orElse ?_ ?_
      · unfold parseInteger
        refine okAll_andThen (expectType_okAll ts _ _) ?_
        intro t c4 _
        cases ParseInt t.Value with
        | error e => exact okAll_of_not_ok (by simp)
        | ok v => exact okAll_ok (by simp [wellShaped, leafShaped])
      intro c4
      refine okAll_orElse ?_ ?_
      · unfold parseFloat
        refine okAll_andThen (expectType_okAll ts _ _) ?_
        intro t c5 _
        cases ParseFloat t.Value with
        | error e => exact okAll_of_not_ok (by simp)
        | ok v => exact okAll_ok (by simp [wellShaped, leafShaped])
      intro c5
      refine okAll_orElse ?_ ?_
      · unfold parseString
        refine okAll_andThen (expectType_okAll ts _ _) ?_
        intro t c6 _
        split
        · exact okAll_of_not_ok (by simp)
        · exact okAll_ok (by simp [wellShaped, leafShaped])
      intro c6
      refine okAll_orElse (ih.quoted c6) ?_
      intro c7
      split
      · exact okAll_of_not_ok (by simp)
      · exact okAll_of_not_ok (by simp)
    · intro c
      rw [parseParens]
      refine okAll_andThen (P := fun _ => True) (fun _ _ => trivial) ?_
      intro _ c1 _
      refine okAll_andThen (ih.expression c1) ?_
      intro inner c2 h2
      refine okAll_andThen (P := fun _ => True) (fun _ _ => trivial) ?_
      intro _ c3 _
      exact okAll_ok (by simp [wellShaped, wellShapedList, childrenShaped, h2])
    · intro c
      rw [parseBlock]
      refine okAll_andThen (P := fun _ => True) (fun _ _ => trivial) ?_
      intro _ c1 _
      refine okAll_andThen (ih.statements _) ?_
      intro stmts c2 h2
      refine okAll_andThen (P := fun _ => True) (fun _ _ => trivial) ?_
      intro _ c3 _
      exact okAll_ok (by simp [wellShaped, childrenShaped, h2])
    · intro c
      rw [parseQuoted]
      refine okAll_andThen (expectType_okAll ts _ _) ?_
      intro _ c1 _
      refine okAll_andThen (ih.propertyOrValue c1) ?_
      intro inner c2 h2
      exact okAll_ok (by simp [wellShaped, wellShapedList, childrenShaped, h2])

theorem evalThen_noAbort {α β : Type} {x : EvalResult α × World}
    {k : α → World → EvalResult β × World}
    (hx : noShapeAbort x) (hk : ∀ a w, noShapeAbort (k a w)) : noShapeAbort (evalThen x k) := by
  obtain ⟨r, w⟩ := x
  cases r with
  | ok a => exact hk a w
  | error e => exact ⟨by simp [evalThen], by simp [evalThen]⟩
  | panic p => exact ⟨by simpa [evalThen] using hx.1, by simpa [evalThen] using hx.2⟩
  | exit code => exact ⟨by simp [evalThen], by simp [evalThen]⟩

theorem GetKey_ne_panic (ctx : Context) (name : String) (p : Panic) :
    ctx.GetKey name ≠ .panic p := by
  induction ctx with
  | root b =>
    unfold Context.GetKey
    split <;> simp
  | child parent b ih =>
    unfold Context.GetKey
    split
    · simp
    · exact ih
  | rootNil => simp [Context.GetKey]
  | childNil parent ih => unfold Context.GetKey; exact ih
  | childShared parent k ih =>
    unfold Context.GetKey
    split
    · simp
    · exact ih

theorem callBuiltin_noAbort (fn : Builtin) (args : List Value) (w : World) :
    noShapeAbort (callBuiltin fn args w) := by
  cases fn
  · simp only [callBuiltin]
    split
    · exact ⟨by simp, by simp⟩
    · split <;> exact ⟨by simp, by simp⟩
  · exact ⟨by simp [callBuiltin], by simp [callBuiltin]⟩

theorem applyOperator_noAbort (op : String) (l r : Value) :
    applyOperator op l r ≠ .panic .indexOutOfRange ∧
      applyOperator op l r ≠ .panic .typeAssertion := by
  unfold applyOperator
  constructor <;> (repeat' split) <;> simp

theorem evalLeaf_noAbort (typ : NodeType) (value : Payload) (w : World)
    (h : leafShaped typ value = true) : noShapeAbort (evalLeaf typ value w) := by
  cases typ <;> cases value <;> simp [leafShaped] at h <;>
    simp [evalLeaf, noShapeAbort, GetKey_ne_panic]

theorem identifier_of_wellShaped {n : Node} (h : wellShaped n = true)
    (ht : n.Typ = .Identifier) : ∃ name, n = .leaf .Identifier (.string name) := by
  cases n with
  | list typ children =>
    simp only [Node.Typ] at ht
    subst ht
    simp [wellShaped, childrenShaped] at h
  | leaf typ value =>
    simp only [Node.Typ] at ht
    subst ht
    cases value <;> simp [wellShaped, leafShaped] at h
    exact ⟨_, rfl⟩

theorem eval_noAbort (n : Node) : wellShaped n = true → ∀ w, noShapeAbort (eval n w) := by
  refine Node.rec (motive_1 := fun n => wellShaped n = true → ∀ w, noShapeAbort (eval n w))
    (motive_2 := noShapeAbortList) ?_ ?_ ?_ ?_ n
  · intro typ children ih hc w
    simp only [wellShaped, Bool.and_eq_true] at hc
    obtain ⟨hmem, hprog, hexpr, _, hargs⟩ := ih hc.2
    have hsh := hc.1
    cases typ <;> simp only [childrenShaped] at hsh <;> try (cases hsh; done)
    · simp only [eval]; exact hprog w
    · simp only [eval]; exact hexpr _ w
    · match children, hmem, hsh, hargs with
      | callee :: args, hmem, _, hargs =>
        simp only [eval]
        refine evalThen_noAbort ((hmem callee (List.mem_cons_self _ _)).2 w) ?_
        intro vCallee w1
        refine evalThen_noAbort (hargs [] w1) ?_
        intro vArgs w2
        cases vCallee <;> first
          | exact callBuiltin_noAbort _ _ _
          | exact ⟨by simp, by simp⟩
    · match children, hmem, hsh with
      | [lhs, .leaf .Operator (.string op), rhs], hmem, _ =>
        have hl := hmem lhs (by simp)
        have hr := hmem rhs (by simp)
        simp only [eval, Node.MetadataValue]
        by_cases h0 : op = ":="
        · simp only [h0, if_true]
          by_cases hid : lhs.Typ = .Identifier
          · obtain ⟨name, rfl⟩ := identifier_of_wellShaped hl.1 hid
            simp only [Node.Typ, bne_self_eq_false, Bool.false_eq_true, if_false,
              Node.MetadataValue]
            refine evalThen_noAbort (hr.2 w) ?_
            intro vRhs w1
            split <;> exact ⟨by simp, by simp⟩
          · have : (lhs.Typ != NodeType.Identifier) = true := by simpa using hid
            rw [if_pos this]
            exact ⟨by simp, by simp⟩
        · simp only [h0, if_false]
          by_cases h1 : op = "&&"
          · simp only [h1, if_true]
            refine evalThen_noAbort (hl.2 w) ?_
            intro vLhs w1
            split
            · exact ⟨by simp, by simp⟩
            · refine evalThen_noAbort (hr.2 w1) ?_
              intro vRhs w2
              exact ⟨by simp, by simp⟩
          · simp only [h1, if_false]
            by_cases h2 : op = "||"
            · simp only [h2, if_true]
              refine evalThen_noAbort (hl.2 w) ?_
              intro vLhs w1
              split
              · exact ⟨by simp, by simp⟩
              · refine evalThen_noAbort (hr.2 w1) ?_
                intro vRhs w2
                exact ⟨by simp, by simp⟩
            · simp only [h2, if_false]
              refine evalThen_noAbort (hl.2 w) ?_
              intro vLhs w1
              refine evalThen_noAbort (hr.2 w1) ?_
              intro vRhs w2
              exact applyOperator_noAbort op vLhs vRhs
    · simp only [eval]; exact ⟨by simp, by simp⟩
    · simp only [eval]; exact ⟨by simp, by simp⟩
    · match children, hmem, hsh with
      | [inner], hmem, _ =>
        simp only [eval]
        exact (hmem inner (by simp)).2 w
    · simp only [eval]; exact ⟨by simp, by simp⟩
  · intro typ value hc w
    simp only [wellShaped] at hc
    simp only [eval]
    exact evalLeaf_noAbort typ value w hc
  · intro _
    exact ⟨by simp, fun w => ⟨by simp [evalProgram], by simp [evalProgram]⟩,
      fun v w => ⟨by simp [evalExpressions], by simp [evalExpressions]⟩,
      fun vs w => ⟨by simp [evalArgs], by simp [evalArgs]⟩,
      fun vs w => ⟨by simp [evalArgs], by simp [evalArgs]⟩⟩
  · intro head tail ihh iht hc
    simp only [wellShapedList, Bool.and_eq_true] at hc
    obtain ⟨hmem, hprog, hexpr, hargs, _⟩ := iht hc.2
    refine ⟨?_, ?_, ?_, ?_, hargs⟩
    · intro n hn
      rcases List.mem_cons.mp hn with rfl | hn
      · exact ⟨hc.1, ihh hc.1⟩
      · exact hmem n hn
    · intro w
      simp only [evalProgram]
      exact evalThen_noAbort (ihh hc.1 w) (fun _ w1 => hprog w1)
    · intro v w
      simp only [evalExpressions]
      exact evalThen_noAbort (ihh hc.1 w) (fun v1 w1 => hexpr v1 w1)
    · intro vs w
      simp only [evalArgs]
      exact evalThen_noAbort (ihh hc.1 w) (fun v1 w1 => hargs _ w1)

theorem entry_wellShaped {tokens : List Token} {node : Node} {c : Nat}
    (h : Parse tokens = (.ok node, c) ∨ ParseExpression tokens = (.ok node, c) ∨
      ParseExpressions tokens = (.ok node, c)) : wellShaped node = true := by
  have hs := parserShape tokens (parseFuel tokens)
  rcases h with h | h | h
  · have : okAll (fun n => wellShaped n = true) (Parse tokens) := by
      unfold Parse parse
      refine okAll_andThen (hs.statements 0) ?_
      intro stmts c1 h1
      exact okAll_ok (by simp [wellShaped, childrenShaped, h1])
    exact this node (by rw [h])
  · have : okAll (fun n => wellShaped n = true) (ParseExpression tokens) := hs.expression 0
    exact this node (by rw [h])
  · have : okAll (fun n => wellShaped n = true) (ParseExpressions tokens) := by
      unfold ParseExpressions parseExpressions
      refine okAll_andThen (hs.statements 0) ?_
      intro stmts c1 h1
      exact okAll_ok (by simp [wellShaped, childrenShaped, h1])
    exact this node (by rw [h])

theorem behaved_weaken {α : Type} {ts : List Token} {c : Nat} {s e s2 e2 : Prop}
    {r : ParseResult α × Nat} (h : Behaved ts c s e r) (hs : s2 → s) (he : e2 → e) :
    Behaved ts c s2 e2 r :=
  ⟨h.1, h.2.1, fun x => h.2.2.1 (hs x), fun x => h.2.2.2 (he x)⟩

theorem behaved_ok {α : Type} {ts : List Token} {c c1 : Nat} {s e : Prop} (a : α)
    (h1 : c ≤ c1) (h2 : c1 ≤ ts.length) (h3 : s → c < c1) :
    Behaved ts c s e ((ParseResult.ok a : ParseResult α), c1) := by
  refine ⟨h1, h2, ?_, ?_⟩
  · intro x _ _; exact h3 x
  · intro _ h; cases h

theorem behaved_error {α : Type} {ts : List Token} {c c1 : Nat} {s e : Prop} (err : ParseError)
    (h1 : c ≤ c1) (h2 : c1 ≤ ts.length) :
    Behaved ts c s e ((ParseResult.error err : ParseResult α), c1) := by
  refine ⟨h1, h2, ?_, ?_⟩
  · intro _ _ h; cases h
  · intro _ h; cases h

theorem behaved_panic {α : Type} {ts : List Token} {c c1 : Nat} {s e : Prop} (p : Panic)
    (h1 : c ≤ c1) (h2 : c1 ≤ ts.length) :
    Behaved ts c s e ((ParseResult.panic p : ParseResult α), c1) := by
  refine ⟨h1, h2, ?_, ?_⟩
  · intro _ _ h; cases h
  · intro _ h; cases h

theorem behaved_zero {α : Type} {ts : List Token} {c : Nat} {s e : Prop}
    (h2 : c ≤ ts.length) (he : ¬ e) :
    Behaved ts c s e ((ParseResult.outOfFuel : ParseResult α), c) := by
  refine ⟨Nat.le_refl _, h2, ?_, ?_⟩
  · intro _ _ h; cases h
  · intro x; exact absurd x he

/-- Sequencing: the continuation starts where the first step stopped. -/
theorem behaved_andThen {α β : Type} {ts : List Token} {c : Nat} {q u s e : Prop}
    {x : ParseResult α × Nat} {k : α → Nat → ParseResult β × Nat}
    (hx : Behaved ts c q u x) (he : e → u)
    (hk : ∀ a c1, c ≤ c1 → c1 ≤ ts.length → (q → c < c1) →
      ∃ s1 : Prop, (s → c < c1 ∨ s1) ∧ Behaved ts c1 s1 e (k a c1)) :
    Behaved ts c s e (andThen x k) := by
  obtain ⟨r, c1⟩ := x
  obtain ⟨h1, h2, h3, h4⟩ := hx
  cases r with
  | ok a =>
    obtain ⟨s1, hs1, g1, g2, g3, g4⟩ := hk a c1 h1 h2 (fun x => h3 x a rfl)
    refine ⟨Nat.le_trans h1 g1, g2, ?_, g4⟩
    intro hs b hb
    rcases hs1 hs with h | h
    · exact Nat.lt_of_lt_of_le h g1
    · exact Nat.lt_of_le_of_lt h1 (g3 h b hb)
  | error err => exact behaved_error err h1 h2
  | panic p => exact behaved_panic p h1 h2
  | outOfFuel =>
    refine ⟨h1, h2, ?_, ?_⟩
    · intro _ _ h; cases h
    · intro x; exact absurd rfl (h4 (he x))

/-- Alternatives: the next one starts where the failed one stopped. -/
theorem behaved_orElse {α : Type} {ts : List Token} {c : Nat} {ex s e : Prop}
    {x : ParseResult α × Nat} {k : Nat → ParseResult α × Nat}
    (hx : Behaved ts c s ex x) (he : e → ex)
    (hk : ∀ c1, c ≤ c1 → c1 ≤ ts.length → Behaved ts c1 s e (k c1)) :
    Behaved ts c s e (orElse x k) := by
  obtain ⟨r, c1⟩ := x
  obtain ⟨h1, h2, h3, h4⟩ := hx
  cases r with
  | ok a =>
    refine ⟨h1, h2, h3, ?_⟩
    intro _ h; cases h
  | error err =>
    obtain ⟨g1, g2, g3, g4⟩ := hk c1 h1 h2
    refine ⟨Nat.le_trans h1 g1, g2, ?_, g4⟩
    intro hs b hb
    exact Nat.lt_of_le_of_lt h1 (g3 hs b hb)
  | panic p => exact behaved_panic p h1 h2
  | outOfFuel =>
    refine ⟨h1, h2, ?_, ?_⟩
    · intro _ _ h; cases h
    · intro x; exact absurd rfl (h4 (he x))

theorem lt_length_of_peek {ts : List Token} {c : Nat} {t : Token} (h : peek ts c = some t) :
    c < ts.length := by
  unfold peek at h
  by_contra hc
  rw [List.getElem?_eq_none (by omega)] at h
  cases h

theorem lt_length_of_nextIs {ts : List Token} {c : Nat} {p : Token → Bool}
    (h : nextIs ts c p = true) : c < ts.length := by
  unfold nextIs at h
  cases hp : peek ts c with
  | none => rw [hp] at h; cases h
  | some t => exact lt_length_of_peek hp

theorem expectValue_behaved (ts : List Token) (v : String) (c : Nat) (h : c ≤ ts.length)
    (s e : Prop) : Behaved ts c s e (expectValue ts v c) := by
  unfold expectValue
  split
  · exact behaved_error _ (Nat.le_refl _) h
  · split
    · exact behaved_panic _ (Nat.le_refl _) h
    · rename_i t ht
      have := lt_length_of_peek ht
      split
      · exact behaved_error _ (Nat.le_refl _) h
      · exact behaved_ok _ (Nat.le_succ _) this (fun _ => Nat.lt_succ_self _)

theorem expectType_behaved (ts : List Token) (ty : TokenType) (c : Nat) (h : c ≤ ts.length)
    (s e : Prop) : Behaved ts c s e (expectType ts ty c) := by
  unfold expectType
  split
  · exact behaved_error _ (Nat.le_refl _) h
  · split
    · exact behaved_panic _ (Nat.le_refl _) h
    · rename_i t ht
      have := lt_length_of_peek ht
      split
      · exact behaved_error _ (Nat.le_refl _) h
      · exact behaved_ok _ (Nat.le_succ _) this (fun _ => Nat.lt_succ_self _)

theorem skipNewlines_bounds (s : List Token) (c : Nat) :
    c ≤ skipNewlines s c ∧ skipNewlines s c ≤ c + s.length := by
  induction s generalizing c with
  | nil => simp [skipNewlines]
  | cons t s ih =>
    rw [skipNewlines]
    split
    · have := ih (c + 1)
      simp only [List.length_cons]
      omega
    · simp

theorem advanceLines_bounds (ts : List Token) (c : Nat) (h : c ≤ ts.length) :
    c ≤ advanceLines ts c ∧ advanceLines ts c ≤ ts.length := by
  unfold advanceLines
  have := skipNewlines_bounds (ts.drop c) c
  rw [List.length_drop] at this
  omega

theorem optional_bounds (ts : List Token) (c : Nat) (p : Token → Bool) (h : c ≤ ts.length) :
    c ≤ (if nextIs ts c p then c + 1 else c) ∧
      (if nextIs ts c p then c + 1 else c) ≤ ts.length := by
  by_cases hp : nextIs ts c p = true
  · rw [if_pos hp]
    have := lt_length_of_nextIs hp
    omega
  · rw [if_neg hp]
    omega

theorem parsePropertyOrValueLoop_behaved (ts : List Token) :
    ∀ (fuel : Nat) (node : Node) (c : Nat), c ≤ ts.length →
      Behaved ts c False (ts.length - c + 1 ≤ fuel) (parsePropertyOrValueLoop ts fuel node c) := by
  intro fuel
  induction fuel with
  | zero =>
    intro node c hc
    rw [parsePropertyOrValueLoop]
    exact behaved_zero hc (by omega)
  | succ fuel ih =>
    intro node c hc
    rw [parsePropertyOrValueLoop]
    split
    · rename_i hp
      have hlt := lt_length_of_nextIs hp
      have hev := expectValue_behaved ts "." c hc True True
      have hstep : (expectValue ts "." c).2 = c + 1 := by
        unfold nextIs at hp
        unfold expectValue done
        cases hpk : peek ts c with
        | none => rw [hpk] at hp; cases hp
        | some t =>
          rw [hpk] at hp
          have hv : t.Value = "." := by simpa using hp
          have hge : ¬ c ≥ ts.length := by omega
          simp [hv, hge]
      rw [hstep]
      have hx := expectType_behaved ts .Identifier (c + 1) (by omega) True True
      have := behaved_andThen (s := False) (e := ts.length - c + 1 ≤ fuel + 1) hx (fun _ => trivial)
        (k := fun t c => parsePropertyOrValueLoop ts fuel
          (.list .PropertyAccess [node, .leaf .Identifier (.string t.Value)]) c)
        (by
          intro t c1 h1 h2 h3
          refine ⟨False, fun x => x.elim, ?_⟩
          exact behaved_weaken (ih _ c1 h2) id (by have := h3 trivial; omega))
      exact ⟨by have := this.1; omega, this.2.1, fun x => x.elim, this.2.2.2⟩
    · exact behaved_ok _ (Nat.le_refl _) hc (fun x => x.elim)

theorem behaved_mono {α : Type} {ts : List Token} {c c2 : Nat} {s e s2 e2 : Prop}
    {r : ParseResult α × Nat} (h : Behaved ts c2 s e r) (hc : c ≤ c2) (hs : s2 → s)
    (he : e2 → e) : Behaved ts c s2 e2 r := by
  obtain ⟨h1, h2, h3, h4⟩ := h
  refine ⟨Nat.le_trans hc h1, h2, ?_, fun x => h4 (he x)⟩
  intro x a ha
  exact Nat.lt_of_le_of_lt hc (h3 (hs x) a ha)

theorem parseIdentifier_behaved (ts : List Token) (c : Nat) (hc : c ≤ ts.length) (e : Prop) :
    Behaved ts c True e (parseIdentifier ts c) := by
  unfold parseIdentifier
  refine behaved_andThen (expectType_behaved ts _ c hc True True) (fun _ => trivial) ?_
  intro t c1 h1 h2 h3
  exact ⟨False, fun _ => Or.inl (h3 trivial), behaved_ok _ (Nat.le_refl _) h2 (fun x => x.elim)⟩

theorem parseInteger_behaved (ts : List Token) (c : Nat) (hc : c ≤ ts.length) (e : Prop) :
    Behaved ts c True e (parseInteger ts c) := by
  unfold parseInteger
  refine behaved_andThen (expectType_behaved ts _ c hc True True) (fun _ => trivial) ?_
  intro t c1 h1 h2 h3
  refine ⟨False, fun _ => Or.inl (h3 trivial), ?_⟩
  cases ParseInt t.Value with
  | error err => exact behaved_error _ (Nat.le_refl _) h2
  | ok v => exact behaved_ok _ (Nat.le_refl _) h2 (fun x => x.elim)

theorem parseFloat_behaved (ts : List Token) (c : Nat) (hc : c ≤ ts.length) (e : Prop) :
    Behaved ts c True e (parseFloat ts c) := by
  unfold parseFloat
  refine behaved_andThen (expectType_behaved ts _ c hc True True) (fun _ => trivial) ?_
  intro t c1 h1 h2 h3
  refine ⟨False, fun _ => Or.inl (h3 trivial), ?_⟩
  cases ParseFloat t.Value with
  | error err => exact behaved_error _ (Nat.le_refl _) h2
  | ok v => exact behaved_ok _ (Nat.le_refl _) h2 (fun x => x.elim)

theorem parseString_behaved (ts : List Token) (c : Nat) (hc : c ≤ ts.length) (e : Prop) :
    Behaved ts c True e (parseString ts c) := by
  unfold parseString
  refine behaved_andThen (expectType_behaved ts _ c hc True True) (fun _ => trivial) ?_
  intro t c1 h1 h2 h3
  refine ⟨False, fun _ => Or.inl (h3 trivial), ?_⟩
  split
  · exact behaved_panic _ (Nat.le_refl _) h2
  · exact behaved_ok _ (Nat.le_refl _) h2 (fun x => x.elim)

theorem parserBounds_zero (ts : List Token) : ParserBounds ts 0 := by
  constructor
  · intro stmts c hc; rw [parseStatementsLoop]; exact behaved_zero hc (by omega)
  · intro c hc; rw [parseStatements]; exact behaved_zero hc (by omega)
  · intro c hc; rw [parseExpression]; exact behaved_zero hc (by omega)
  · intro c hc; rw [parseRightBinaryExpression]; exact behaved_zero hc (by omega)
  · intro nodes c hc; rw [parseIntermediateLoop]; exact behaved_zero hc (by omega)
  · intro c hc; rw [parseIntermediate]; exact behaved_zero hc (by omega)
  · intro lhs c hc; rw [parseLeftBinaryExpression]; exact behaved_zero hc (by omega)
  · intro c hc; rw [parsePropertyOrValue]; exact behaved_zero hc (by omega)
  · intro c hc; rw [parseValue]; exact behaved_zero hc (by omega)
  · intro c hc; rw [parseParens]; exact behaved_zero hc (by omega)
  · intro c hc; rw [parseBlock]; exact behaved_zero hc (by omega)
  · intro c hc; rw [parseQuoted]; exact behaved_zero hc (by omega)

theorem parserBounds_succ {ts : List Token} {fuel : Nat} (ih : ParserBounds ts fuel) :
    ParserBounds ts (fuel + 1) := by
  constructor
  · -- parseStatementsLoop
    intro stmts c hc
    rw [parseStatementsLoop]
    split
    · refine behaved_andThen (q := True) (ih.expression c hc) (fun h => by omega) ?_
      intro stmt c1 h1 h2 h3
      have hlt := h3 trivial
      have ho := optional_bounds ts c1 (fun t => t.Value == ";") h2
      have ha := advanceLines_bounds ts _ ho.2
      exact ⟨False, fun x => x.elim,
        behaved_mono (ih.statementsLoop (stmts ++ [stmt]) _ ha.2) (by omega) id
          (fun h => by omega)⟩
    · exact behaved_ok _ (Nat.le_refl _) hc (fun x => x.elim)
  · -- parseStatements
    intro c hc
    rw [parseStatements]
    have ha := advanceLines_bounds ts c hc
    exact behaved_mono (ih.statementsLoop [] _ ha.2) ha.1 id (fun h => by omega)
  · -- parseExpression
    intro c hc
    rw [parseExpression]
    exact behaved_mono (ih.rightBinary c hc) (Nat.le_refl _) id (fun h => by omega)
  · -- parseRightBinaryExpression
    intro c hc
    rw [parseRightBinaryExpression]
    refine behaved_andThen (q := True) (ih.intermediate c hc) (fun h => by omega) ?_
    intro lhs c1 h1 h2 h3
    have hlt := h3 trivial
    refine ⟨False, fun _ => Or.inl hlt, ?_⟩
    split
    · rename_i t hpk
      have hl := lt_length_of_peek hpk
      split
      · refine behaved_andThen (q := True)
          (behaved_mono (ih.rightBinary (c1 + 1) (by omega)) (Nat.le_succ _) id
            (fun h => by omega)) id ?_
        intro rhs c2 g1 g2 _
        exact ⟨False, fun x => x.elim, behaved_ok _ (Nat.le_refl _) g2 (fun x => x.elim)⟩
      · exact behaved_ok _ (Nat.le_refl _) h2 (fun x => x.elim)
    · exact behaved_ok _ (Nat.le_refl _) h2 (fun x => x.elim)
  · -- parseIntermediateLoop
    intro nodes c hc
    rw [parseIntermediateLoop]
    split
    · refine behaved_andThen (q := True) (ih.propertyOrValue c hc) (fun h => by omega) ?_
      intro argBase c1 h1 h2 h3
      have hlt := h3 trivial
      refine ⟨False, fun x => x.elim, ?_⟩
      refine behaved_andThen (q := False)
        (behaved_mono (ih.leftBinary argBase c1 h2) (Nat.le_refl _) id (fun h => by omega))
        id ?_
      intro arg c2 g1 g2 _
      have ho := optional_bounds ts c2 (fun t => t.Value == ",") g2
      exact ⟨False, fun x => x.elim,
        behaved_mono (ih.intermediateLoop (nodes ++ [arg]) _ ho.2) ho.1 id
          (fun h => by omega)⟩
    · exact behaved_ok _ (Nat.le_refl _) hc (fun x => x.elim)
  · -- parseIntermediate
    intro c hc
    rw [parseIntermediate]
    refine behaved_andThen (q := True) (ih.propertyOrValue c hc) (fun h => by omega) ?_
    intro node c1 h1 h2 h3
    have hlt := h3 trivial
    refine ⟨False, fun _ => Or.inl hlt, ?_⟩
    split
    · exact behaved_mono (ih.leftBinary node c1 h2) (Nat.le_refl _) id (fun h => by omega)
    · refine behaved_andThen (q := False)
        (behaved_mono (ih.intermediateLoop [node] c1 h2) (Nat.le_refl _) id
          (fun h => by omega)) id ?_
      intro nodes c2 g1 g2 _
      refine ⟨False, fun x => x.elim, ?_⟩
      split <;> exact behaved_ok _ (Nat.le_refl _) g2 (fun x => x.elim)
  · -- parseLeftBinaryExpression
    intro lhs c hc
    rw [parseLeftBinaryExpression]
    split
    · rename_i t hpk
      have hl := lt_length_of_peek hpk
      split
      · refine behaved_andThen (q := True)
          (behaved_mono (ih.propertyOrValue (c + 1) (by omega)) (Nat.le_succ _) id
            (fun h => by omega)) id ?_
        intro rhs c1 g1 g2 g3
        have hlt := g3 trivial
        exact ⟨False, fun x => x.elim,
          behaved_mono (ih.leftBinary _ c1 g2) (Nat.le_refl _) id (fun h => by omega)⟩
      · exact behaved_ok _ (Nat.le_refl _) hc (fun x => x.elim)
    · exact behaved_ok _ (Nat.le_refl _) hc (fun x => x.elim)
  · -- parsePropertyOrValue
    intro c hc
    rw [parsePropertyOrValue]
    refine behaved_andThen (q := True) (ih.value c hc) (fun h => by omega) ?_
    intro node c1 h1 h2 h3
    have hlt := h3 trivial
    exact ⟨False, fun _ => Or.inl hlt,
      behaved_mono (parsePropertyOrValueLoop_behaved ts fuel node c1 h2) (Nat.le_refl _) id
        (fun h => by omega)⟩
  · -- parseValue
    intro c hc
    rw [parseValue]
    refine behaved_orElse (ih.parens c hc) (fun h => by omega) ?_
    intro c1 h1 h2
    refine behaved_orElse (ih.block c1 h2) (fun h => by omega) ?_
    intro c2 g1 g2
    refine behaved_orElse (parseIdentifier_behaved ts c2 g2 True) (fun _ => trivial) ?_
    intro c3 k1 k2
    refine behaved_orElse (parseInteger_behaved ts c3 k2 True) (fun _ => trivial) ?_
    intro c4 l1 l2
    refine behaved_orElse (parseFloat_behaved ts c4 l2 True) (fun _ => trivial) ?_
    intro c5 m1 m2
    refine behaved_orElse (parseString_behaved ts c5 m2 True) (fun _ => trivial) ?_
    intro c6 n1 n2
    refine behaved_orElse (ih.quoted c6 n2) (fun h => by omega) ?_
    intro c7 o1 o2
    split
    · exact behaved_panic _ (Nat.le_refl _) o2
    · exact behaved_error _ (Nat.le_refl _) o2
  · -- parseParens
    intro c hc
    rw [parseParens]
    refine behaved_andThen (q := True) (expectValue_behaved ts _ c hc True True)
      (fun _ => trivial) ?_
    intro _ c1 h1 h2 h3
    have hlt := h3 trivial
    refine ⟨False, fun _ => Or.inl hlt, ?_⟩
    refine behaved_andThen (q := False)
      (behaved_mono (ih.expression c1 h2) (Nat.le_refl _) (fun x => x.elim)
        (fun h => by omega)) id ?_
    intro inner c2 g1 g2 _
    refine ⟨False, fun x => x.elim, ?_⟩
    refine behaved_andThen (q := False) (expectValue_behaved ts _ c2 g2 False _) id ?_
    intro _ c3 k1 k2 _
    exact ⟨False, fun x => x.elim, behaved_ok _ (Nat.le_refl _) k2 (fun x => x.elim)⟩
  · -- parseBlock
    intro c hc
    rw [parseBlock]
    refine behaved_andThen (q := True) (expectValue_behaved ts _ c hc True True)
      (fun _ => trivial) ?_
    intro _ c1 h1 h2 h3
    have hlt := h3 trivial
    have ha := advanceLines_bounds ts c1 h2
    refine ⟨False, fun _ => Or.inl hlt, ?_⟩
    refine behaved_andThen (q := False)
      (behaved_mono (ih.statements _ ha.2) ha.1 (fun x => x.elim) (fun h => by omega)) id ?_
    intro stmts c2 g1 g2 _
    have ha2 := advanceLines_bounds ts c2 g2
    refine ⟨False, fun x => x.elim, ?_⟩
    refine behaved_andThen (q := False)
      (behaved_mono (expectValue_behaved ts _ _ ha2.2 False _) ha2.1 id id) id ?_
    intro _ c3 k1 k2 _
    exact ⟨False, fun x => x.elim, behaved_ok _ (Nat.le_refl _) k2 (fun x => x.elim)⟩
  · -- parseQuoted
    intro c hc
    rw [parseQuoted]
    refine behaved_andThen (q := True) (expectType_behaved ts _ c hc True True)
      (fun _ => trivial) ?_
    intro _ c1 h1 h2 h3
    have hlt := h3 trivial
    refine ⟨False, fun _ => Or.inl hlt, ?_⟩
    refine behaved_andThen (q := False)
      (behaved_mono (ih.propertyOrValue c1 h2) (Nat.le_refl _) (fun x => x.elim)
        (fun h => by omega)) id ?_
    intro inner c2 g1 g2 _
    exact ⟨False, fun x => x.elim, behaved_ok _ (Nat.le_refl _) g2 (fun x => x.elim)⟩

theorem parserBounds (ts : List Token) : ∀ fuel, ParserBounds ts fuel := by
  intro fuel
  induction fuel with
  | zero => exact parserBounds_zero ts
  | succ fuel ih => exact parserBounds_succ ih

theorem entries_terminate (tokens : List Token) (fuel : Nat) (h : parseFuel tokens ≤ fuel) :
    (parse tokens fuel 0).1 ≠ .outOfFuel ∧ (parseExpression tokens fuel 0).1 ≠ .outOfFuel ∧
      (parseExpressions tokens fuel 0).1 ≠ .outOfFuel := by
  have hb := parserBounds tokens fuel
  unfold parseFuel at h
  have hs := (hb.statements 0 (Nat.zero_le _)).2.2.2 (by omega)
  have he := (hb.expression 0 (Nat.zero_le _)).2.2.2 (by omega)
  refine ⟨?_, he, ?_⟩
  · unfold parse
    cases hx : parseStatements tokens fuel 0 with
    | mk r c =>
      rw [hx] at hs
      cases r <;> simp [andThen] at hs ⊢
  · unfold parseExpressions
    cases hx : parseStatements tokens fuel 0 with
    | mk r c =>
      rw [hx] at hs
      cases r <;> simp [andThen] at hs ⊢

theorem entries_cursor (tokens : List Token) (fuel : Nat) :
    (parse tokens fuel 0).2 ≤ tokens.length ∧ (parseExpression tokens fuel 0).2 ≤ tokens.length ∧
      (parseExpressions tokens fuel 0).2 ≤ tokens.length := by
  have hb := parserBounds tokens fuel
  have hs := (hb.statements 0 (Nat.zero_le _)).2.1
  have he := (hb.expression 0 (Nat.zero_le _)).2.1
  refine ⟨?_, he, ?_⟩
  · unfold parse
    cases hx : parseStatements tokens fuel 0 with
    | mk r c =>
      rw [hx] at hs
      cases r <;> simpa [andThen] using hs
  · unfold parseExpressions
    cases hx : parseStatements tokens fuel 0 with
    | mk r c =>
      rw [hx] at hs
      cases r <;> simpa [andThen] using hs

theorem evalArgs_of_evaluated {args : List Node} {w w2 : World} {vs : List Value}
    (h : ArgsEvaluated args w vs w2) :
    ∀ acc, evalArgs args acc w = (.ok (acc ++ vs), w2) := by
  induction h with
  | nil w => intro acc; simp [evalArgs]
  | cons ha _ ih =>
    intro acc
    rw [evalArgs, ha, evalThen_mk_ok, ih]
    simp

theorem evalArgs_of_fails {args : List Node} {w w2 : World} {r : EvalResult Value}
    (h : FirstArgFails args w r w2) :
    ∀ (acc : List Value) (k : List Value → World → EvalResult Value × World),
      evalThen (evalArgs args acc w) k = (r, w2) := by
  induction h with
  | here ha hr =>
    intro acc k
    rename_i a rest w w1 r
    rw [evalArgs, ha]
    cases r with
    | ok v => exact absurd rfl (hr v)
    | error e => rfl
    | panic p => rfl
    | exit code => rfl
  | later ha _ ih =>
    intro acc k
    rw [evalArgs, ha, evalThen_mk_ok]
    exact ih _ k

theorem args_evaluated_or_fail (args : List Node) :
    ∀ w, (∃ vs w2, ArgsEvaluated args w vs w2) ∨ (∃ r w2, FirstArgFails args w r w2) := by
  induction args with
  | nil => intro w; exact Or.inl ⟨[], w, .nil w⟩
  | cons a rest ih =>
    intro w
    cases ha : eval a w with
    | mk r w1 =>
      cases r with
      | ok v =>
        rcases ih w1 with ⟨vs, w2, h⟩ | ⟨r, w2, h⟩
        · exact Or.inl ⟨v :: vs, w2, .cons ha h⟩
        · exact Or.inr ⟨r, w2, .later ha h⟩
      | error e => exact Or.inr ⟨_, w1, .here ha (fun v h => by cases h)⟩
      | panic p => exact Or.inr ⟨_, w1, .here ha (fun v h => by cases h)⟩
      | exit code => exact Or.inr ⟨_, w1, .here ha (fun v h => by cases h)⟩

/-! ## Claims -/

/-- C1, counterexample. The integer token `9223372036854775808` is a simple value
token, and with it in the place of `x` the tokens `f x + g y` do not parse to a call:
`ParseExpression` returns the error `expected value but got LOperator`. -/
theorem juxtaposition_call_counterexample :
    Token.isSimpleValue ⟨.Identifier, "f", 0⟩ = true ∧
    Token.isSimpleValue ⟨.Integer, "9223372036854775808", 0⟩ = true ∧
    Token.isLeftOperator ⟨.LOperator, "+", 0⟩ = true ∧
    Token.isSimpleValue ⟨.Identifier, "g", 0⟩ = true ∧
    Token.isSimpleValue ⟨.Identifier, "y", 0⟩ = true ∧
    ParseExpression [⟨.Identifier, "f", 0⟩, ⟨.Integer, "9223372036854775808", 0⟩,
        ⟨.LOperator, "+", 0⟩, ⟨.Identifier, "g", 0⟩, ⟨.Identifier, "y", 0⟩] =
      (.error (.expectedValueButGot .LOperator), 2) := by
  decide

/-- C1, amended. For simple value tokens `f`, `x`, `g`, `y` whose literals have a
value (an integer literal below `2^63`, a float literal that does not round to
infinity) and every left-operator token `op`, `ParseExpression` on `[f, x, op, g, y]`
consumes the five tokens and returns `FunctionCall(f, Binary(x, Operator op, g), y)`: a
call with two arguments, the first of which absorbed its own operator chain. -/
theorem juxtaposition_call_arguments (f x op g y : Token)
    (hf : f.isSimpleValue = true ∧ f.literalInRange = true)
    (hx : x.isSimpleValue = true ∧ x.literalInRange = true)
    (hop : op.isLeftOperator = true)
    (hg : g.isSimpleValue = true ∧ g.literalInRange = true)
    (hy : y.isSimpleValue = true ∧ y.literalInRange = true) :
    ParseExpression [f, x, op, g, y] =
      (.ok (.list .FunctionCall
        [simpleNode f, binaryNode (simpleNode x) op.Value (simpleNode g), simpleNode y]), 5) :=
  ParseExpression_juxtaposition f x op g y hf hx hop hg hy

/-- C1, witness: the tokens of `f x + f y`. -/
theorem juxtaposition_call_witness :
    ParseExpression [⟨.Identifier, "f", 0⟩, ⟨.Identifier, "x", 0⟩, ⟨.LOperator, "+", 0⟩,
        ⟨.Identifier, "f", 0⟩, ⟨.Identifier, "y", 0⟩] =
      (.ok (.list .FunctionCall
        [.leaf .Identifier (.string "f"),
         .list .Binary [.leaf .Identifier (.string "x"), .leaf .Operator (.string "+"),
           .leaf .Identifier (.string "f")],
         .leaf .Identifier (.string "y")]), 5) :=
  juxtaposition_call_arguments ⟨.Identifier, "f", 0⟩ ⟨.Identifier, "x", 0⟩ ⟨.LOperator, "+", 0⟩
    ⟨.Identifier, "f", 0⟩ ⟨.Identifier, "y", 0⟩ (by decide) (by decide) (by decide) (by decide)
    (by decide)

/-- C2. For decimal integer literals `a`, `b`, `c` (non-empty runs of digits) below
`2^63`, the source `a + b * c` tokenizes to five tokens, `ParseExpression` consumes
them all and returns `Binary(Binary(a, +, b), *, c)`, and `Evaluate` on that tree, in a
fresh root environment, yields the `int64` `(a + b) * c` with wrap-around and leaves
the environment as it was. -/
theorem arithmetic_left_to_right (a b c : List Char)
    (ha : a ≠ [] ∧ (∀ ch ∈ a, ch.isDigit = true) ∧ decimalValue a < 2 ^ 63)
    (hb : b ≠ [] ∧ (∀ ch ∈ b, ch.isDigit = true) ∧ decimalValue b < 2 ^ 63)
    (hc : c ≠ [] ∧ (∀ ch ∈ c, ch.isDigit = true) ∧ decimalValue c < 2 ^ 63) :
    Tokenize (String.mk (a ++ " + ".data ++ b ++ " * ".data ++ c)) =
      .ok [⟨.Integer, String.mk a, 0⟩, ⟨.LOperator, "+", 0⟩, ⟨.Integer, String.mk b, 0⟩,
        ⟨.LOperator, "*", 0⟩, ⟨.Integer, String.mk c, 0⟩] ∧
    ParseExpression [⟨.Integer, String.mk a, 0⟩, ⟨.LOperator, "+", 0⟩,
        ⟨.Integer, String.mk b, 0⟩, ⟨.LOperator, "*", 0⟩, ⟨.Integer, String.mk c, 0⟩] =
      (.ok (binaryNode (binaryNode (.leaf .Integer (.int64 (decimalValue a))) "+"
        (.leaf .Integer (.int64 (decimalValue b)))) "*"
        (.leaf .Integer (.int64 (decimalValue c)))), 5) ∧
    Evaluate (binaryNode (binaryNode (.leaf .Integer (.int64 (decimalValue a))) "+"
        (.leaf .Integer (.int64 (decimalValue b)))) "*"
        (.leaf .Integer (.int64 (decimalValue c)))) =
      (.ok (.int64 (wrapInt64 (wrapInt64 (decimalValue a + decimalValue b) * decimalValue c))),
        { ctx := NewRootContext }) :=
  arith_pipeline a b c ha hb hc

/-- C2, witness: `1 + 2 * 3` evaluates to `9`. -/
theorem arithmetic_left_to_right_witness :
    Tokenize "1 + 2 * 3" =
      .ok [⟨.Integer, "1", 0⟩, ⟨.LOperator, "+", 0⟩, ⟨.Integer, "2", 0⟩,
        ⟨.LOperator, "*", 0⟩, ⟨.Integer, "3", 0⟩] ∧
    ParseExpression [⟨.Integer, "1", 0⟩, ⟨.LOperator, "+", 0⟩, ⟨.Integer, "2", 0⟩,
        ⟨.LOperator, "*", 0⟩, ⟨.Integer, "3", 0⟩] =
      (.ok (binaryNode (binaryNode (.leaf .Integer (.int64 1)) "+" (.leaf .Integer (.int64 2)))
        "*" (.leaf .Integer (.int64 3))), 5) ∧
    Evaluate (binaryNode (binaryNode (.leaf .Integer (.int64 1)) "+" (.leaf .Integer (.int64 2)))
        "*" (.leaf .Integer (.int64 3))) =
      (.ok (.int64 9), { ctx := NewRootContext }) :=
  arithmetic_left_to_right ['1'] ['2'] ['3'] (by decide) (by decide) (by decide)

/-- C3, the code at the failing input. The source `:(1 + 2 + $(2 * 2))` tokenizes to
thirteen tokens, the seventh of class `Unquote`; `parseValue` has no alternative for
that class, and `ParseExpression` returns the error `expected value but got Unquote`
with the cursor on that token, not a `Quoted` tree. -/
theorem unquote_is_not_parsed :
    Tokenize ":(1 + 2 + $(2 * 2))" =
      .ok [⟨.Quote, ":", 0⟩, ⟨.Punctuation, "(", 0⟩, ⟨.Integer, "1", 0⟩, ⟨.LOperator, "+", 0⟩,
        ⟨.Integer, "2", 0⟩, ⟨.LOperator, "+", 0⟩, ⟨.Unquote, "$", 0⟩, ⟨.Punctuation, "(", 0⟩,
        ⟨.Integer, "2", 0⟩, ⟨.LOperator, "*", 0⟩, ⟨.Integer, "2", 0⟩, ⟨.Punctuation, ")", 0⟩,
        ⟨.Punctuation, ")", 0⟩] ∧
    ParseExpression [⟨.Quote, ":", 0⟩, ⟨.Punctuation, "(", 0⟩, ⟨.Integer, "1", 0⟩,
        ⟨.LOperator, "+", 0⟩, ⟨.Integer, "2", 0⟩, ⟨.LOperator, "+", 0⟩, ⟨.Unquote, "$", 0⟩,
        ⟨.Punctuation, "(", 0⟩, ⟨.Integer, "2", 0⟩, ⟨.LOperator, "*", 0⟩, ⟨.Integer, "2", 0⟩,
        ⟨.Punctuation, ")", 0⟩, ⟨.Punctuation, ")", 0⟩] =
      (.error (.expectedValueButGot .Unquote), 6) := by
  decide

/-- C4. When `l` evaluates without error to `v`, `Binary(l, "&&", r)` returns `v`
itself with the environment `l` left (so `r` is not evaluated) if `v` is the boolean
`false` or unit, and otherwise exactly the outcome of evaluating `r` after `l`;
`Binary(l, "||", r)` returns exactly the outcome of evaluating `r` after `l` if `v` is
the boolean `false` or unit, and otherwise `v` itself with the environment `l` left. -/
theorem logical_operators_short_circuit (l r : Node) (w w1 : World) (v : Value)
    (hl : eval l w = (.ok v, w1)) :
    eval (binaryNode l "&&" r) w =
      (if v = .bool false ∨ v = .nil then (.ok v, w1) else eval r w1) ∧
    eval (binaryNode l "||" r) w =
      (if v = .bool false ∨ v = .nil then eval r w1 else (.ok v, w1)) := by
  rw [eval_and l r w w1 v hl, eval_or l r w w1 v hl]
  by_cases hv : v = .bool false ∨ v = .nil
  · have := (isTruthy_eq_false_iff v).mpr hv
    simp [hv, this]
  · have : isTruthy v = true := by
      cases ht : isTruthy v
      · exact absurd ((isTruthy_eq_false_iff v).mp ht) hv
      · rfl
    simp [hv, this]

/-- C4, witness: `"hi" && false` in the root environment; the left operand is the
text `hi`, which is not falsy, so the result is the value of `false`. -/
theorem logical_operators_short_circuit_witness :
    eval (.leaf .String (.string "hi")) { ctx := NewRootContext } =
      (.ok (.string "hi"), { ctx := NewRootContext }) ∧
    eval (.leaf .Identifier (.string "false")) { ctx := NewRootContext } =
      (.ok (.bool false), { ctx := NewRootContext }) ∧
    (eval (binaryNode (.leaf .String (.string "hi")) "&&" (.leaf .Identifier (.string "false")))
        { ctx := NewRootContext } =
      (if Value.string "hi" = .bool false ∨ Value.string "hi" = .nil then
        (.ok (.string "hi"), { ctx := NewRootContext })
      else eval (.leaf .Identifier (.string "false")) { ctx := NewRootContext }) ∧
    eval (binaryNode (.leaf .String (.string "hi")) "||" (.leaf .Identifier (.string "false")))
        { ctx := NewRootContext } =
      (if Value.string "hi" = .bool false ∨ Value.string "hi" = .nil then
        eval (.leaf .Identifier (.string "false")) { ctx := NewRootContext }
      else (.ok (.string "hi"), { ctx := NewRootContext }))) :=
  ⟨by decide, by decide,
    logical_operators_short_circuit (.leaf .String (.string "hi"))
      (.leaf .Identifier (.string "false")) { ctx := NewRootContext } { ctx := NewRootContext }
      (.string "hi") (by decide)⟩

/-- C5, counterexample. In `1 + 9223372036854775808` both values are integer tokens
and `+` is a left-operator token, yet `ParseExpression` does not return a tree: the
literal is beyond `int64`, `parseInteger` fails after it consumed the token, and the
unguarded `peek` at the end of `parseValue` aborts. -/
theorem left_chain_counterexample :
    Token.isSimpleValue ⟨.Integer, "1", 0⟩ = true ∧
    Token.isLeftOperator ⟨.LOperator, "+", 0⟩ = true ∧
    Token.isSimpleValue ⟨.Integer, "9223372036854775808", 0⟩ = true ∧
    ParseExpression (chainTokens ⟨.Integer, "1", 0⟩
        [(⟨.LOperator, "+", 0⟩, ⟨.Integer, "9223372036854775808", 0⟩)]) =
      (.panic .indexOutOfRange, 3) := by
  decide

/-- C5, amended. For `n >= 1`, simple value tokens `v0..vn` whose literals have a
value (an integer literal below `2^63`, a float literal that does not round to
infinity) and left-operator tokens `op1..opn`, `ParseExpression` on
`[v0, op1, v1, ..., opn, vn]` consumes every token and returns the left-nested tree
`Binary(...Binary(Binary(v0, op1, v1), op2, v2)..., opn, vn)`. -/
theorem left_chain_folds_left (v0 : Token) (rest : List (Token × Token))
    (hne : rest ≠ [])
    (hv0 : v0.isSimpleValue = true ∧ v0.literalInRange = true)
    (hall : ∀ p ∈ rest, p.1.isLeftOperator = true ∧ p.2.isSimpleValue = true ∧
        p.2.literalInRange = true) :
    ParseExpression (chainTokens v0 rest) =
      (.ok (leftNested (simpleNode v0) rest), (chainTokens v0 rest).length) :=
  ParseExpression_leftChain v0 rest hne hv0 hall

/-- C5, witness: `a + b - c` parses as `(a + b) - c`. -/
theorem left_chain_folds_left_witness :
    ParseExpression [⟨.Identifier, "a", 0⟩, ⟨.LOperator, "+", 0⟩, ⟨.Identifier, "b", 0⟩,
        ⟨.LOperator, "-", 0⟩, ⟨.Identifier, "c", 0⟩] =
      (.ok (binaryNode (binaryNode (.leaf .Identifier (.string "a")) "+"
        (.leaf .Identifier (.string "b"))) "-" (.leaf .Identifier (.string "c"))), 5) :=
  left_chain_folds_left ⟨.Identifier, "a", 0⟩
    [(⟨.LOperator, "+", 0⟩, ⟨.Identifier, "b", 0⟩), (⟨.LOperator, "-", 0⟩, ⟨.Identifier, "c", 0⟩)]
    (by decide) (by decide) (by decide)

/-- C6, counterexample. In `a := 9223372036854775808` both values are simple value
tokens and `:=` is a right-operator token, yet `ParseExpression` does not return a
tree: the literal is beyond `int64` and the parser aborts at the end of the input. -/
theorem right_chain_counterexample :
    Token.isSimpleValue ⟨.Identifier, "a", 0⟩ = true ∧
    Token.isRightOperator ⟨.ROperator, ":=", 0⟩ = true ∧
    Token.isSimpleValue ⟨.Integer, "9223372036854775808", 0⟩ = true ∧
    ParseExpression (chainTokens ⟨.Identifier, "a", 0⟩
        [(⟨.ROperator, ":=", 0⟩, ⟨.Integer, "9223372036854775808", 0⟩)]) =
      (.panic .indexOutOfRange, 3) := by
  decide

/-- C6, amended. For every `n` (in particular `n >= 1`), simple value tokens `v0..vn` whose literals have a
value (an integer literal below `2^63`, a float literal that does not round to
infinity) and right-operator tokens `r1..rn` (`:=` or `::`), `ParseExpression` on
`[v0, r1, v1, ..., rn, vn]` consumes every token and returns the right-nested tree
`Binary(v0, r1, Binary(v1, r2, ... Binary(v(n-1), rn, vn)))`. -/
theorem right_chain_nests_right (v0 : Token) (rest : List (Token × Token))
    (hv0 : v0.isSimpleValue = true ∧ v0.literalInRange = true)
    (hall : ∀ p ∈ rest, p.1.isRightOperator = true ∧ p.2.isSimpleValue = true ∧
        p.2.literalInRange = true) :
    ParseExpression (chainTokens v0 rest) =
      (.ok (rightNested v0 rest), (chainTokens v0 rest).length) :=
  ParseExpression_rightChain v0 rest hv0 hall

/-- C6, witness: `a := b := c` parses as `a := (b := c)`. -/
theorem right_chain_nests_right_witness :
    ParseExpression [⟨.Identifier, "a", 0⟩, ⟨.ROperator, ":=", 0⟩, ⟨.Identifier, "b", 0⟩,
        ⟨.ROperator, ":=", 0⟩, ⟨.Identifier, "c", 0⟩] =
      (.ok (binaryNode (.leaf .Identifier (.string "a")) ":="
        (binaryNode (.leaf .Identifier (.string "b")) ":=" (.leaf .Identifier (.string "c")))),
        5) :=
  right_chain_nests_right ⟨.Identifier, "a", 0⟩
    [(⟨.ROperator, ":=", 0⟩, ⟨.Identifier, "b", 0⟩), (⟨.ROperator, ":=", 0⟩, ⟨.Identifier, "c", 0⟩)]
    (by decide) (by decide)

/-- C7, counterexample. On a frame whose map is nil, evaluating `2` yields the value
and evaluating `x := 2` aborts with `assignment to entry in nil map` instead of yielding
unit. On a frame that holds the map of its parent, which binds `x` to `1`, evaluating
`x := 2` yields unit and the parent binds `x` to `2` afterwards: its binding is
changed, not shadowed. -/
theorem assignment_binds_counterexample :
    eval (.leaf .Integer (.int64 2)) { ctx := .rootNil } =
      (.ok (.int64 2), { ctx := .rootNil }) ∧
    eval (binaryNode (.leaf .Identifier (.string "x")) ":=" (.leaf .Integer (.int64 2)))
      { ctx := .rootNil } = (.panic .nilMap, { ctx := .rootNil }) ∧
    eval (.leaf .Integer (.int64 2)) { ctx := .childShared (.root [("x", .int64 1)]) 0 } =
      (.ok (.int64 2), { ctx := .childShared (.root [("x", .int64 1)]) 0 }) ∧
    eval (binaryNode (.leaf .Identifier (.string "x")) ":=" (.leaf .Integer (.int64 2)))
      { ctx := .childShared (.root [("x", .int64 1)]) 0 } =
      (.ok .nil, { ctx := .childShared (.root [("x", .int64 2)]) 0 }) ∧
    (Context.childShared (.root [("x", .int64 1)]) 0).Parent =
      some (.root [("x", .int64 1)]) ∧
    (Context.childShared (.root [("x", .int64 2)]) 0).Parent =
      some (.root [("x", .int64 2)]) := by
  decide

/-- C7, amended. Let evaluating `r` in an environment yield the value `v` and leave the
world `w1`. If the map of the active frame is nil, evaluating
`Binary(Identifier n, ":=", r)` aborts there with `assignment to entry in nil map`.
Otherwise it yields unit, looking `n` up from the active frame afterwards yields `v`,
the binding of every other name in every frame of the chain is what evaluating `r`
alone left, and nothing more is written to the output. If moreover the active frame
holds a map of its own, which no frame of its parent chain holds, the chain afterwards
is the one `r` left with `n` set to `v` in the active frame: the parent chain is not
changed, a name bound there is shadowed. -/
theorem assignment_binds_in_active_frame (n : String) (r : Node) (w w1 : World) (v : Value)
    (hr : eval r w = (.ok v, w1)) :
    (w1.ctx.mapAt 0 = none →
      eval (binaryNode (.leaf .Identifier (.string n)) ":=" r) w = (.panic .nilMap, w1)) ∧
    (w1.ctx.mapAt 0 ≠ none →
      (eval (binaryNode (.leaf .Identifier (.string n)) ":=" r) w).1 = .ok .nil ∧
      (eval (binaryNode (.leaf .Identifier (.string n)) ":=" r) w).2.ctx.GetKey n = .ok v ∧
      (∀ m, m ≠ n →
        (eval (binaryNode (.leaf .Identifier (.string n)) ":=" r) w).2.ctx.frames.map
            (fun b => b.get m) = w1.ctx.frames.map (fun b => b.get m)) ∧
      (eval (binaryNode (.leaf .Identifier (.string n)) ":=" r) w).2.stdout = w1.stdout) ∧
    (∀ b, w1.ctx = .root b →
      eval (binaryNode (.leaf .Identifier (.string n)) ":=" r) w =
        (.ok .nil, { w1 with ctx := .root (b.set n v) })) ∧
    (∀ p b, w1.ctx = .child p b →
      eval (binaryNode (.leaf .Identifier (.string n)) ":=" r) w =
        (.ok .nil, { w1 with ctx := .child p (b.set n v) })) := by
  refine ⟨?_, ?_, ?_, ?_⟩
  · intro hn
    exact eval_assign_nil n r w w1 v hr ((Context.setAt_eq_none _ 0 n v).mpr hn)
  · intro hn
    cases hs : w1.ctx.setBinding n v with
    | none => exact absurd ((Context.setAt_eq_none _ 0 n v).mp hs) hn
    | some ctx =>
      rw [eval_assign n r w w1 v ctx hr hs]
      obtain ⟨_, _, h3⟩ := Context.setAt_mapAt w1.ctx 0 n v ctx hs
      exact ⟨rfl, Context.GetKey_setBinding _ _ _ _ hs, h3, rfl⟩
  · intro b hb
    exact eval_assign n r w w1 v _ hr (by rw [hb]; rfl)
  · intro p b hb
    exact eval_assign n r w w1 v _ hr (by rw [hb]; rfl)

/-- C7, witness: `x := 2` in a frame with a map of its own whose parent binds `x` to
`1`; afterwards `x` is `2` seen from the frame and the parent still binds `x` to `1`. -/
theorem assignment_binds_in_active_frame_witness :
    eval (.leaf .Integer (.int64 2)) { ctx := .child (.root [("x", .int64 1)]) [] } =
      (.ok (.int64 2), { ctx := .child (.root [("x", .int64 1)]) [] }) ∧
    (eval (binaryNode (.leaf .Identifier (.string "x")) ":=" (.leaf .Integer (.int64 2)))
      { ctx := .child (.root [("x", .int64 1)]) [] }).2.ctx.GetKey "x" = .ok (.int64 2) ∧
    eval (binaryNode (.leaf .Identifier (.string "x")) ":=" (.leaf .Integer (.int64 2)))
      { ctx := .child (.root [("x", .int64 1)]) [] } =
      (.ok .nil, { ctx := .child (.root [("x", .int64 1)]) [("x", .int64 2)] }) :=
  ⟨by decide,
    ((assignment_binds_in_active_frame "x" (.leaf .Integer (.int64 2))
      { ctx := .child (.root [("x", .int64 1)]) [] }
      { ctx := .child (.root [("x", .int64 1)]) [] } (.int64 2) (by decide)).2.1
        (by decide)).2.1,
    (assignment_binds_in_active_frame "x" (.leaf .Integer (.int64 2))
      { ctx := .child (.root [("x", .int64 1)]) [] }
      { ctx := .child (.root [("x", .int64 1)]) [] } (.int64 2) (by decide)).2.2.2
        (.root [("x", .int64 1)]) [] rfl⟩

/-- C8. `GetKey` returns the value bound in the first frame of the chain, innermost
first, that binds the name; it returns the unbound-variable error exactly when no
frame of the chain binds the name, so never unit for a name bound nowhere; and
evaluating `Identifier name` is `GetKey` on the active frame, with no other effect. -/
theorem lookup_walks_chain_innermost_first (ctx : Context) (name : String)
    (stdout : List (List Value)) :
    ctx.GetKey name =
      (match ctx.frames.findSome? (fun b => b.get name) with
        | some value => .ok value
        | none => .error (.unboundVariable name)) ∧
    (ctx.GetKey name = .error (.unboundVariable name) ↔
      ∀ b ∈ ctx.frames, b.get name = none) ∧
    ((∀ b ∈ ctx.frames, b.get name = none) → ctx.GetKey name ≠ .ok .nil) ∧
    eval (.leaf .Identifier (.string name)) { ctx := ctx, stdout := stdout } =
      (ctx.GetKey name, { ctx := ctx, stdout := stdout }) := by
  have h := Context.GetKey_frames ctx name
  have hiff : ctx.GetKey name = .error (.unboundVariable name) ↔
      ∀ b ∈ ctx.frames, b.get name = none := by
    rw [h, ← List.findSome?_eq_none_iff]
    cases ctx.frames.findSome? (fun b => b.get name) <;> simp
  refine ⟨h, hiff, ?_, rfl⟩
  intro hall
  rw [hiff.mpr hall]
  simp

/-- C9, counterexample. The source `1 (x := 2)` parses to a call whose callee `1`
evaluates to an integer; evaluating the call in a fresh root environment fails with
the not-callable error, but the argument was evaluated first: the environment now
binds `x` to `2`. And in the call `1 y` the argument fails first, so the error is the
unbound variable `y`, not the not-callable error. -/
theorem call_callee_check_counterexample :
    Tokenize "1 (x := 2)" =
      .ok [⟨.Integer, "1", 0⟩, ⟨.Punctuation, "(", 0⟩, ⟨.Identifier, "x", 0⟩,
        ⟨.ROperator, ":=", 0⟩, ⟨.Integer, "2", 0⟩, ⟨.Punctuation, ")", 0⟩] ∧
    ParseExpression [⟨.Integer, "1", 0⟩, ⟨.Punctuation, "(", 0⟩, ⟨.Identifier, "x", 0⟩,
        ⟨.ROperator, ":=", 0⟩, ⟨.Integer, "2", 0⟩, ⟨.Punctuation, ")", 0⟩] =
      (.ok (.list .FunctionCall [.leaf .Integer (.int64 1), .list .Parenthesis
        [binaryNode (.leaf .Identifier (.string "x")) ":=" (.leaf .Integer (.int64 2))]]), 6) ∧
    (Evaluate (.list .FunctionCall [.leaf .Integer (.int64 1), .list .Parenthesis
        [binaryNode (.leaf .Identifier (.string "x")) ":=" (.leaf .Integer (.int64 2))]])).1 =
      .error (.notAFunction (.int64 1)) ∧
    NewRootContext.GetKey "x" = .error (.unboundVariable "x") ∧
    (Evaluate (.list .FunctionCall [.leaf .Integer (.int64 1), .list .Parenthesis
        [binaryNode (.leaf .Identifier (.string "x")) ":=" (.leaf .Integer (.int64 2))]])).2.ctx.GetKey
      "x" = .ok (.int64 2) ∧
    (Evaluate (.list .FunctionCall [.leaf .Integer (.int64 1),
        .leaf .Identifier (.string "y")])).1 = .error (.unboundVariable "y") := by
  decide

/-- C9, amended. Let the callee of a call evaluate without error to a value `v` that
is not a callable, leaving the world `w1`. The arguments are then evaluated from left
to right, each in the world the one before it left, before the callee is checked: if
every argument yields a value, the call fails with the not-callable error in the
world the last argument left; if one does not, the call ends with the outcome of the
first such argument, in the world that argument left, and no later argument is
evaluated. One of the two is always the case. -/
theorem call_checks_callee_after_arguments (callee : Node) (args : List Node) (w w1 : World)
    (v : Value) (hc : eval callee w = (.ok v, w1)) (hv : ∀ fn, v ≠ .func fn) :
    (∀ vs w2, ArgsEvaluated args w1 vs w2 →
      eval (.list .FunctionCall (callee :: args)) w = (.error (.notAFunction v), w2)) ∧
    (∀ r w2, FirstArgFails args w1 r w2 →
      eval (.list .FunctionCall (callee :: args)) w = (r, w2)) ∧
    ((∃ vs w2, ArgsEvaluated args w1 vs w2) ∨ (∃ r w2, FirstArgFails args w1 r w2)) := by
  rw [eval_call_notCallable callee args w w1 v hc hv]
  refine ⟨?_, ?_, args_evaluated_or_fail args w1⟩
  · intro vs w2 h
    rw [evalArgs_of_evaluated h, evalThen_mk_ok]
  · intro r w2 h
    exact evalArgs_of_fails h _ _

/-- C9, witness: in a fresh root environment the call `1 (x := 2)` fails with the
not-callable error and leaves `x` bound to `2`, and the call `1 y (x := 2)` fails with
the unbound variable `y` and leaves the environment as it was. -/
theorem call_checks_callee_after_arguments_witness :
    eval (.leaf .Integer (.int64 1)) { ctx := NewRootContext } =
      (.ok (.int64 1), { ctx := NewRootContext }) ∧
    eval (.list .FunctionCall [.leaf .Integer (.int64 1), .list .Parenthesis
        [binaryNode (.leaf .Identifier (.string "x")) ":=" (.leaf .Integer (.int64 2))]])
        { ctx := NewRootContext } =
      (.error (.notAFunction (.int64 1)),
        { ctx := .root [("exit", .func .exit), ("println", .func .println),
            ("true", .bool true), ("false", .bool false), ("x", .int64 2)] }) ∧
    eval (.list .FunctionCall [.leaf .Integer (.int64 1), .leaf .Identifier (.string "y"),
        .list .Parenthesis
          [binaryNode (.leaf .Identifier (.string "x")) ":=" (.leaf .Integer (.int64 2))]])
        { ctx := NewRootContext } =
      (.error (.unboundVariable "y"), { ctx := NewRootContext }) :=
  ⟨by decide,
    (call_checks_callee_after_arguments (.leaf .Integer (.int64 1)) _
      { ctx := NewRootContext } { ctx := NewRootContext } (.int64 1) (by decide)
      (fun _ h => Value.noConfusion h)).1
      [.nil] _ (.cons (by decide) (.nil _)),
    (call_checks_callee_after_arguments (.leaf .Integer (.int64 1)) _
      { ctx := NewRootContext } { ctx := NewRootContext } (.int64 1) (by decide)
      (fun _ h => Value.noConfusion h)).2.1
      _ _ (.here (by decide) (fun _ h => EvalResult.noConfusion h))⟩

/-- C10, the code at the failing input. The source `1 == 1` parses to
`Binary(1, "==", 1)`; both operands evaluate to integers, the operator switch has no
case for `==` and no default, and evaluation ends in the statement after the outer
switch: the error is `unexpected node`, which names neither the operator nor the
operand types. -/
theorem unknown_operator_falls_through :
    Tokenize "1 == 1" =
      .ok [⟨.Integer, "1", 0⟩, ⟨.LOperator, "==", 0⟩, ⟨.Integer, "1", 0⟩] ∧
    ParseExpression [⟨.Integer, "1", 0⟩, ⟨.LOperator, "==", 0⟩, ⟨.Integer, "1", 0⟩] =
      (.ok (binaryNode (.leaf .Integer (.int64 1)) "==" (.leaf .Integer (.int64 1))), 3) ∧
    Evaluate (binaryNode (.leaf .Integer (.int64 1)) "==" (.leaf .Integer (.int64 1))) =
      (.error (.unexpectedNode .listNode), { ctx := NewRootContext }) ∧
    Evaluate (binaryNode (.leaf .Integer (.int64 1)) "==" (.leaf .Integer (.int64 1))) ≠
      (.error (.cannotApplyOperator "==" .int64 .int64), { ctx := NewRootContext }) := by
  decide

/-- C11. When the operands evaluate to the `int64` values `a` and `b`: for `b` not
zero, `a / b` yields the quotient truncated toward zero and `a % b` the remainder of
that division, with `(a / b) * b + (a % b) = a` in 64-bit wrap-around arithmetic; the
quotient is exact unless `a = -2^63` and `b = -1`, where it wraps to `-2^63` and the
remainder is zero. For `b` zero both evaluations abort with the division-by-zero
failure and yield no value. -/
theorem integer_division_truncates (l r : Node) (w w1 w2 : World) (a b : Int)
    (ha : -2 ^ 63 ≤ a ∧ a < 2 ^ 63) (hb : -2 ^ 63 ≤ b ∧ b < 2 ^ 63)
    (hl : eval l w = (.ok (.int64 a), w1)) (hr : eval r w1 = (.ok (.int64 b), w2)) :
    (b ≠ 0 →
      eval (binaryNode l "/" r) w = (.ok (.int64 (wrapInt64 (Int.tdiv a b))), w2) ∧
      eval (binaryNode l "%" r) w = (.ok (.int64 (Int.tmod a b)), w2) ∧
      (¬ (a = -2 ^ 63 ∧ b = -1) → wrapInt64 (Int.tdiv a b) = Int.tdiv a b) ∧
      (a = -2 ^ 63 ∧ b = -1 → wrapInt64 (Int.tdiv a b) = -2 ^ 63 ∧ Int.tmod a b = 0) ∧
      wrapInt64 (wrapInt64 (Int.tdiv a b) * b + Int.tmod a b) = a) ∧
    (b = 0 →
      eval (binaryNode l "/" r) w = (.panic .divideByZero, w2) ∧
      eval (binaryNode l "%" r) w = (.panic .divideByZero, w2)) := by
  have e1 := eval_binary_operator l r "/" w w1 w2 _ _ (by decide) hl hr
  have e2 := eval_binary_operator l r "%" w w1 w2 _ _ (by decide) hl hr
  have _ := hb
  constructor
  · intro hb0
    refine ⟨?_, ?_, ?_, ?_, wrapInt64_quotient_identity a b ha⟩
    · rw [e1]; simp [applyOperator, hb0]
    · rw [e2]; simp [applyOperator, hb0, wrapInt64_of_range _ (tmod_range a b ha)]
    · intro hne
      exact wrapInt64_of_range _ (tdiv_range a b ha hb0 hne)
    · rintro ⟨rfl, rfl⟩
      decide
  · intro hb0
    subst hb0
    rw [e1, e2]
    simp [applyOperator]

/-- C11, witness: `(0 - 7) / 2` is `-3` and `(0 - 7) % 2` is `-1`. -/
theorem integer_division_truncates_witness :
    wrapInt64 (Int.tdiv (-7) 2) = -3 ∧ Int.tmod (-7) 2 = -1 ∧
    eval (binaryNode (binaryNode (.leaf .Integer (.int64 0)) "-" (.leaf .Integer (.int64 7))) "/"
        (.leaf .Integer (.int64 2))) { ctx := NewRootContext } =
      (.ok (.int64 (wrapInt64 (Int.tdiv (-7) 2))), { ctx := NewRootContext }) ∧
    eval (binaryNode (binaryNode (.leaf .Integer (.int64 0)) "-" (.leaf .Integer (.int64 7))) "%"
        (.leaf .Integer (.int64 2))) { ctx := NewRootContext } =
      (.ok (.int64 (Int.tmod (-7) 2)), { ctx := NewRootContext }) :=
  ⟨by decide, by decide,
    ((integer_division_truncates
      (binaryNode (.leaf .Integer (.int64 0)) "-" (.leaf .Integer (.int64 7)))
      (.leaf .Integer (.int64 2)) { ctx := NewRootContext } { ctx := NewRootContext }
      { ctx := NewRootContext } (-7) 2 (by decide) (by decide) (by decide) (by decide)).1
      (by decide)).1,
    ((integer_division_truncates
      (binaryNode (.leaf .Integer (.int64 0)) "-" (.leaf .Integer (.int64 7)))
      (.leaf .Integer (.int64 2)) { ctx := NewRootContext } { ctx := NewRootContext }
      { ctx := NewRootContext } (-7) 2 (by decide) (by decide) (by decide) (by decide)).1
      (by decide)).2.1⟩

/-- C12. A value is falsy exactly when it is the boolean `false` or unit; the integer
`0`, the float `0.0`, the empty text, every quoted tree and every callable are
truthy. -/
theorem truthiness (v : Value) :
    (isTruthy v = false ↔ v = .bool false ∨ v = .nil) ∧
    isTruthy (.int64 0) = true ∧
    isTruthy (.float64 (.lit "0.0")) = true ∧
    isTruthy (.string "") = true ∧
    (∀ n : Node, isTruthy (.node n) = true) ∧
    (∀ fn : Builtin, isTruthy (.func fn) = true) :=
  ⟨isTruthy_eq_false_iff v, rfl, rfl, rfl, fun _ => rfl, fun _ => rfl⟩

/-- C13, counterexample. Evaluating `Quoted(Identifier example)` yields the `Quoted`
node, not its child `Identifier example`. -/
theorem quoted_value_counterexample :
    eval (.list .Quoted [.leaf .Identifier (.string "example")]) { ctx := NewRootContext } =
      (.ok (.node (.list .Quoted [.leaf .Identifier (.string "example")])),
        { ctx := NewRootContext }) ∧
    eval (.list .Quoted [.leaf .Identifier (.string "example")]) { ctx := NewRootContext } ≠
      (.ok (.node (.leaf .Identifier (.string "example"))), { ctx := NewRootContext }) := by
  decide

/-- C13, amended. Evaluating a `Quoted` node succeeds in every environment, yields as
value the `Quoted` node itself (the node that wraps the subtree), evaluates none of
its children, whatever they are, and leaves the environment unchanged. -/
theorem quoted_evaluates_to_itself (children : List Node) (value : Payload) (w : World) :
    eval (.list .Quoted children) w = (.ok (.node (.list .Quoted children)), w) ∧
    eval (.leaf .Quoted value) w = (.ok (.node (.leaf .Quoted value)), w) := by
  constructor
  · simp [eval]
  · simp [eval, evalLeaf]

/-- C14, counterexample. A node of kind `Unquote`, which is none of the kinds `eval`
knows, fails with the error `unexpected node`, not with `not implemented`. -/
theorem unquote_evaluation_counterexample :
    eval (.list (.other "Unquote") [.list .Parenthesis [.leaf .Integer (.int64 1)]])
      { ctx := NewRootContext } =
      (.error (.unexpectedNode .listNode), { ctx := NewRootContext }) ∧
    eval (.list (.other "Unquote") [.list .Parenthesis [.leaf .Integer (.int64 1)]])
      { ctx := NewRootContext } ≠ (.error .notImplemented, { ctx := NewRootContext }) := by
  decide

/-- C14, amended. For every environment and every node whose kind is `Block` or
`PropertyAccess`, whatever its children or payload, evaluation fails with the
not-implemented error and leaves the environment unchanged. -/
theorem block_and_property_access_not_implemented (children : List Node) (value : Payload)
    (w : World) :
    eval (.list .Block children) w = (.error .notImplemented, w) ∧
    eval (.list .PropertyAccess children) w = (.error .notImplemented, w) ∧
    eval (.leaf .Block value) w = (.error .notImplemented, w) ∧
    eval (.leaf .PropertyAccess value) w = (.error .notImplemented, w) := by
  refine ⟨?_, ?_, ?_, ?_⟩ <;> simp [eval, evalLeaf]

/-- C15, the code at the failing input. The source `exit 0` parses to the call of
`exit` with the integer literal `0`, whose value is an `int64`; the builtin asserts
the Go type `int`, so the call returns the error `expected integer` and the process
goes on. Only a Go `int`, which no literal produces, reaches `os.Exit`. -/
theorem exit_rejects_integer_literal :
    Tokenize "exit 0" = .ok [⟨.Identifier, "exit", 0⟩, ⟨.Integer, "0", 0⟩] ∧
    ParseExpression [⟨.Identifier, "exit", 0⟩, ⟨.Integer, "0", 0⟩] =
      (.ok (.list .FunctionCall [.leaf .Identifier (.string "exit"),
        .leaf .Integer (.int64 0)]), 2) ∧
    Evaluate (.list .FunctionCall [.leaf .Identifier (.string "exit"),
        .leaf .Integer (.int64 0)]) =
      (.error .expectedInteger, { ctx := NewRootContext }) ∧
    callBuiltin .exit [.int64 0] { ctx := NewRootContext } =
      (.error .expectedInteger, { ctx := NewRootContext }) ∧
    callBuiltin .exit [.int 0] { ctx := NewRootContext } = (.exit 0, { ctx := NewRootContext }) := by
  decide

/-- C16, the code at the failing inputs. On the empty token sequence, on the tokens
of `1 +` and on the tokens of `(1` the parser runs out of tokens where a value is
expected; every alternative of `parseValue` fails and its last line reads the token
under the cursor without a guard, which aborts with an index out of range instead of
returning a parse error. -/
theorem parser_aborts_at_end_of_input :
    ParseExpression [] = (.panic .indexOutOfRange, 0) ∧
    Tokenize "1 +" = .ok [⟨.Integer, "1", 0⟩, ⟨.LOperator, "+", 0⟩] ∧
    ParseExpression [⟨.Integer, "1", 0⟩, ⟨.LOperator, "+", 0⟩] = (.panic .indexOutOfRange, 2) ∧
    Tokenize "(1" = .ok [⟨.Punctuation, "(", 0⟩, ⟨.Integer, "1", 0⟩] ∧
    ParseExpression [⟨.Punctuation, "(", 0⟩, ⟨.Integer, "1", 0⟩] = (.panic .indexOutOfRange, 2) ∧
    Parse [⟨.Integer, "1", 0⟩, ⟨.LOperator, "+", 0⟩] = (.panic .indexOutOfRange, 2) ∧
    ParseExpressions [⟨.Punctuation, "(", 0⟩, ⟨.Integer, "1", 0⟩] =
      (.panic .indexOutOfRange, 2) := by
  decide

/-- C17, counterexample. On the tokens of `a } b` the entry point `Parse` returns the
program of the single statement `a` with the cursor at 1 of 3: it stops at the `}` and
ignores the two tokens left. -/
theorem parse_trailing_tokens_counterexample :
    Tokenize "a \x7d b" =
      .ok [⟨.Identifier, "a", 0⟩, ⟨.Punctuation, "\x7d", 0⟩, ⟨.Identifier, "b", 0⟩] ∧
    Parse [⟨.Identifier, "a", 0⟩, ⟨.Punctuation, "\x7d", 0⟩, ⟨.Identifier, "b", 0⟩] =
      (.ok (.list .Program [.leaf .Identifier (.string "a")]), 1) ∧
    done [⟨.Identifier, "a", 0⟩, ⟨.Punctuation, "\x7d", 0⟩, ⟨.Identifier, "b", 0⟩] 1 = false := by
  decide

/-- C17, amended. No entry point verifies that the whole token sequence was
consumed. For every token sequence on which `Parse` returns a node, the cursor is at
the end of the input or on a token with the text `}`, where the statement loop stops;
`ParseExpression` and `ParseExpressions` may return a node with tokens left over. -/
theorem parse_stops_at_end_or_closing_brace (ts : List Token) (node : Node) (c : Nat)
    (h : Parse ts = (.ok node, c)) :
    (done ts c = true ∨ ∃ t, peek ts c = some t ∧ t.Value = "\x7d") ∧
    (ParseExpression [⟨.Identifier, "a", 0⟩, ⟨.Punctuation, ";", 0⟩, ⟨.Identifier, "b", 0⟩] =
      (.ok (.leaf .Identifier (.string "a")), 1) ∧
     ParseExpressions [⟨.Identifier, "a", 0⟩, ⟨.Punctuation, "\x7d", 0⟩, ⟨.Identifier, "b", 0⟩] =
      (.ok (.list .Expressions [.leaf .Identifier (.string "a")]), 1)) :=
  ⟨Parse_ok_stops ts node c h, by decide⟩

/-- C17, witness: the tokens of `a } b`, on which `Parse` stops on the `}`. -/
theorem parse_stops_at_end_or_closing_brace_witness :
    done [⟨.Identifier, "a", 0⟩, ⟨.Punctuation, "\x7d", 0⟩, ⟨.Identifier, "b", 0⟩] 1 = true ∨
      ∃ t, peek [⟨.Identifier, "a", 0⟩, ⟨.Punctuation, "\x7d", 0⟩, ⟨.Identifier, "b", 0⟩] 1 =
        some t ∧ t.Value = "\x7d" :=
  (parse_stops_at_end_or_closing_brace
    [⟨.Identifier, "a", 0⟩, ⟨.Punctuation, "\x7d", 0⟩, ⟨.Identifier, "b", 0⟩]
    (.list .Program [.leaf .Identifier (.string "a")]) 1 (by decide)).1

/-- C18. `Tokenize` returns an error exactly when the scan from offset 0, which skips
the text of the first matching rule again and again, reaches an offset with text left
at which no rule matches; the `Location` of the error is that offset, a byte offset
below the length of the source, and its message is `unexpected character`. The error
outcome carries no tokens, and the loop stops there. -/
theorem tokenize_fails_at_first_unmatched (source : String) :
    (∀ e, Tokenize source = .error e ↔
      (unmatchedOffset source = some e.Location ∧ e.Message = "unexpected character")) ∧
    (∀ e, Tokenize source = .error e → e.Location < source.utf8ByteSize) ∧
    (unmatchedOffset source = none → ∃ tokens, Tokenize source = .ok tokens) := by
  have hlen : source.data.length + 1 ≤ source.utf8ByteSize + 1 := by
    have := byteLen_ge_length source.data
    have e : byteLen source.data = source.utf8ByteSize := rfl
    omega
  obtain ⟨h1, h2⟩ := tokenizeLoop_scan source source.data.length [] source.data []
    (source.utf8ByteSize + 1) (source.length + 1) rfl (Nat.le_refl _) hlen (Nat.le_refl _)
  have hb : byteLen [] = 0 := rfl
  rw [hb] at h1 h2
  refine ⟨?_, ?_, h2⟩
  · intro e
    constructor
    · intro he
      cases hu : unmatchedOffset source with
      | none =>
        obtain ⟨out, hout⟩ := h2 hu
        unfold Tokenize at he
        rw [hout] at he
        cases he
      | some k =>
        have := (h1 k hu).1
        unfold Tokenize at he
        rw [this] at he
        cases he
        exact ⟨rfl, rfl⟩
    · rintro ⟨hk, hmsg⟩
      have := (h1 e.Location hk).1
      unfold Tokenize
      rw [this, ← hmsg]
  · intro e he
    cases hu : unmatchedOffset source with
    | none =>
      obtain ⟨out, hout⟩ := h2 hu
      unfold Tokenize at he
      rw [hout] at he
      cases he
    | some k =>
      have := h1 k hu
      unfold Tokenize at he
      rw [this.1] at he
      cases he
      exact this.2

/-- C19. For every token sequence `T` on which `Parse` succeeds, and every `T2` made
from `T` by inserting newline tokens (as `Tokenize` emits them), any number at each
place, immediately after a punctuation token `\x7b`, immediately before a punctuation
token `\x7d`, at the very start or at the very end, `Parse` succeeds on `T2` with the
same tree. -/
theorem newlines_around_blocks_keep_tree (T T2 : List Token) (node : Node) (c : Nat)
    (h : NewlinesInserted T T2) (hp : Parse T = (.ok node, c)) :
    ∃ c2, Parse T2 = (.ok node, c2) :=
  Parse_newlines_inserted h hp

/-- C19, witness: the multi-line program of `lang_test.go` has the tokens of the inline
one with a newline token at the start, after the second and the third opening brace,
before the second and the third closing brace, and at the end; both parse to the tree
the two examples print. -/
theorem newlines_around_blocks_keep_tree_witness :
    Tokenize inlineIfSource = .ok inlineIfTokens ∧
    Tokenize multilineIfSource = .ok multilineIfTokens ∧
    NewlinesInserted inlineIfTokens multilineIfTokens ∧
    Parse inlineIfTokens = (.ok ifBlocksTree, 14) ∧
    ∃ c2, Parse multilineIfTokens = (.ok ifBlocksTree, c2) :=
  have h : NewlinesInserted inlineIfTokens multilineIfTokens :=
    ⟨[⟨.Newline, "\n\t\t", 0⟩], _, rfl, by decide,
      .keep _ (.keep _ (.keep _ (.keep _ (.keep _ (.keep _
        (.afterOpen _ [⟨.Newline, "\n\t\t\t", 0⟩] (by decide) (by decide)
          (.keep _ (.keep _
            (.beforeClose _ [⟨.Newline, "\n\t\t", 0⟩] (by decide) (by decide)
              (.afterOpen _ [⟨.Newline, "\n\t\t\t", 0⟩] (by decide) (by decide)
                (.keep _ (.keep _
                  (.beforeClose _ [⟨.Newline, "\n\t\t", 0⟩] (by decide) (by decide)
                    (.atEnd [⟨.Newline, "\n\t", 0⟩] (by decide)))))))))))))))⟩
  ⟨by decide, by decide, h, by decide,
    newlines_around_blocks_keep_tree inlineIfTokens multilineIfTokens ifBlocksTree 14 h (by decide)⟩

/-- C20. For every tree that contains no `Binary` node with the operator `:=`, and
every environment (its callables are the root builtins), evaluating the tree leaves
the chain of frames with exactly the bindings it had, whatever the outcome. -/
theorem environment_mutated_only_by_assignment (n : Node) (w : World)
    (h : containsAssign n = false) : (eval n w).2.ctx = w.ctx :=
  keepsFrames_all n h w

/-- C20, witness: `println (1 + 2)` contains no `:=`; evaluating it writes one line
and leaves the root environment as it was. -/
theorem environment_mutated_only_by_assignment_witness :
    containsAssign (.list .FunctionCall [.leaf .Identifier (.string "println"),
      .list .Parenthesis [binaryNode (.leaf .Integer (.int64 1)) "+"
        (.leaf .Integer (.int64 2))]]) = false ∧
    (eval (.list .FunctionCall [.leaf .Identifier (.string "println"),
      .list .Parenthesis [binaryNode (.leaf .Integer (.int64 1)) "+"
        (.leaf .Integer (.int64 2))]]) { ctx := NewRootContext }).2.ctx = NewRootContext :=
  ⟨by decide,
    environment_mutated_only_by_assignment _ { ctx := NewRootContext } (by decide)⟩

/-- C21. Every token `Tokenize` returns has `Location` 0, wherever its text begins:
`matchRules` builds the token from the class and the text alone and the loop appends
it as it is. -/
theorem token_location_is_never_set (source : String) (tokens : List Token)
    (h : Tokenize source = .ok tokens) : ∀ t ∈ tokens, t.Location = 0 := by
  obtain ⟨pieces, _, h2, h3⟩ := Tokenize_pieces h
  intro t ht
  rw [h2] at ht
  simp only [keptTokens, List.mem_map, List.mem_filter] at ht
  obtain ⟨p, ⟨hp, _⟩, rfl⟩ := ht
  exact (h3 p hp).2.1

/-- C21, witness: in `a b` the text of the second token begins at byte 2, and both
tokens carry `Location` 0. -/
theorem token_location_is_never_set_witness :
    Tokenize "a b" = .ok [⟨.Identifier, "a", 0⟩, ⟨.Identifier, "b", 0⟩] ∧
    ∀ t ∈ [(⟨.Identifier, "a", 0⟩ : Token), ⟨.Identifier, "b", 0⟩], t.Location = 0 :=
  ⟨by decide, token_location_is_never_set "a b" _ (by decide)⟩

/-- C22. No alternative of `parseValue` restores the cursor. On the tokens of `(a.5`
the parenthesis alternative fails with the cursor on the fourth token, the integer
alternative then succeeds there, and `parseValue`, `ParseExpression` and `Parse` return
the integer 5 with the three tokens before it dropped. On an integer literal beyond
64 bits followed by a string, `ParseExpression` returns the string. -/
theorem value_alternatives_keep_the_cursor :
    Tokenize "(a.5" =
      .ok [⟨.Punctuation, "(", 0⟩, ⟨.Identifier, "a", 0⟩, ⟨.Punctuation, ".", 0⟩,
        ⟨.Integer, "5", 0⟩] ∧
    parseParens [⟨.Punctuation, "(", 0⟩, ⟨.Identifier, "a", 0⟩, ⟨.Punctuation, ".", 0⟩,
        ⟨.Integer, "5", 0⟩] 39 0 = (.error (.expectedType .Identifier .Integer), 3) ∧
    parseValue [⟨.Punctuation, "(", 0⟩, ⟨.Identifier, "a", 0⟩, ⟨.Punctuation, ".", 0⟩,
        ⟨.Integer, "5", 0⟩] 40 0 = (.ok (.leaf .Integer (.int64 5)), 4) ∧
    ParseExpression [⟨.Punctuation, "(", 0⟩, ⟨.Identifier, "a", 0⟩, ⟨.Punctuation, ".", 0⟩,
        ⟨.Integer, "5", 0⟩] = (.ok (.leaf .Integer (.int64 5)), 4) ∧
    Parse [⟨.Punctuation, "(", 0⟩, ⟨.Identifier, "a", 0⟩, ⟨.Punctuation, ".", 0⟩,
        ⟨.Integer, "5", 0⟩] = (.ok (.list .Program [.leaf .Integer (.int64 5)]), 4) ∧
    Tokenize "99999999999999999999 \"s\"" =
      .ok [⟨.Integer, "99999999999999999999", 0⟩, ⟨.String, "\"s\"", 0⟩] ∧
    ParseExpression [⟨.Integer, "99999999999999999999", 0⟩, ⟨.String, "\"s\"", 0⟩] =
      (.ok (.leaf .String (.string "s")), 2) := by
  refine ⟨by decide, by decide, by decide, by decide, by decide, by decide, by decide⟩

/-- C23. For every source and every offset `i` from 0 to the byte length of the
source, `computeLineColumn` returns the pair of 1 plus the number of line breaks among
the first `i` bytes and 1 plus `i` less the offset just after the last of them (0 if
there is none); it aborts exactly on the offsets beyond the byte length. -/
theorem computeLineColumn_resolves_valid_offsets (source : String) :
    (∀ i : Nat, i ≤ source.utf8ByteSize →
      computeLineColumn source i =
        some (1 + (newlineCount ((bytesOf source).take i) : Int),
          1 + (i : Int) - afterLastNewline ((bytesOf source).take i))) ∧
    (∀ index : Int, computeLineColumn source index = none ↔
      (source.utf8ByteSize : Int) < index) :=
  computeLineColumn_spec source

/-- C24. Every tree that `Parse`, `ParseExpression` or `ParseExpressions` returns is
well shaped: each `Binary` node has three children, the middle one an `Operator` leaf
with a text; each `FunctionCall` node has at least two children; each `Quoted` and each
`Parenthesis` node has one child; each `PropertyAccess` node has two children, the
second an `Identifier` leaf; the leaves are the `Identifier`, `Integer`, `Float`,
`String` and `Operator` nodes, each with the payload of its kind, and every other node
is a list node. Evaluating such a tree, in any environment, never aborts on a missing
child or on a payload of the wrong type. -/
theorem parsed_trees_are_well_shaped (tokens : List Token) (node : Node) (c : Nat)
    (h : Parse tokens = (.ok node, c) ∨ ParseExpression tokens = (.ok node, c) ∨
      ParseExpressions tokens = (.ok node, c)) :
    wellShaped node = true ∧
    ∀ w, (eval node w).1 ≠ .panic .indexOutOfRange ∧ (eval node w).1 ≠ .panic .typeAssertion :=
  ⟨entry_wellShaped h, eval_noAbort node (entry_wellShaped h)⟩

/-- C24, witness: the tokens `f x` parse to the program of one call, which is well
shaped and whose evaluation does not abort on a child or a payload. -/
theorem parsed_trees_are_well_shaped_witness :
    Parse [⟨.Identifier, "f", 0⟩, ⟨.Identifier, "x", 0⟩] =
      (.ok (.list .Program [.list .FunctionCall
        [.leaf .Identifier (.string "f"), .leaf .Identifier (.string "x")]]), 2) ∧
    wellShaped (.list .Program [.list .FunctionCall
        [.leaf .Identifier (.string "f"), .leaf .Identifier (.string "x")]]) = true ∧
    ∀ w, (eval (.list .Program [.list .FunctionCall
        [.leaf .Identifier (.string "f"), .leaf .Identifier (.string "x")]]) w).1 ≠
          .panic .indexOutOfRange ∧
      (eval (.list .Program [.list .FunctionCall
        [.leaf .Identifier (.string "f"), .leaf .Identifier (.string "x")]]) w).1 ≠
          .panic .typeAssertion :=
  ⟨by decide,
    parsed_trees_are_well_shaped [⟨.Identifier, "f", 0⟩, ⟨.Identifier, "x", 0⟩]
      (.list .Program [.list .FunctionCall
        [.leaf .Identifier (.string "f"), .leaf .Identifier (.string "x")]]) 2
      (Or.inl (by decide))⟩

/-- C25. On every token sequence the three entry points end with an outcome other
than the end of the fuel, and so does every run with at least `parseFuel` units: ten
for each token and sixteen more. The cursor they end with is at most the number of
tokens, and every parsing function leaves the cursor between the place it started and
the number of tokens, the functions for an expression and for a value moving it on
whenever they return one (`ParserBounds`). -/
theorem parser_terminates_with_bounded_cursor (tokens : List Token) :
    ((Parse tokens).1 ≠ .outOfFuel ∧ (ParseExpression tokens).1 ≠ .outOfFuel ∧
      (ParseExpressions tokens).1 ≠ .outOfFuel) ∧
    (∀ fuel, parseFuel tokens ≤ fuel →
      (parse tokens fuel 0).1 ≠ .outOfFuel ∧ (parseExpression tokens fuel 0).1 ≠ .outOfFuel ∧
        (parseExpressions tokens fuel 0).1 ≠ .outOfFuel) ∧
    ((Parse tokens).2 ≤ tokens.length ∧ (ParseExpression tokens).2 ≤ tokens.length ∧
      (ParseExpressions tokens).2 ≤ tokens.length) ∧
    ∀ fuel, ParserBounds tokens fuel :=
  ⟨entries_terminate tokens _ (Nat.le_refl _), entries_terminate tokens,
    entries_cursor tokens _, parserBounds tokens⟩

end Ergolas
